import Mathlib

/-!
# zipUtils: the JAR normalizer `fixJarFile` (src/main.go)

A shallow embedding of `fixJarFile` and of the library functions its control
flow depends on (`strings.TrimSuffix`, `strings.HasSuffix`,
`zip.FileHeader.Mode`, `zip.FileHeader.SetMode`, `filepath.Dir`), followed by
theorems about the entries it writes.

Conventions.
* A Go `string` is a `List Char` (`Str`); the path separator is `'/'`
  (Unix `filepath`).
* `seenDirs` (a `map[string]bool` in which only `true` is ever stored) is the
  list of its keys, most recently inserted first.
* The destination archive is the list of records handed to the zip writer, in
  the order of the `writer.CreateHeader` calls: a directory record (lines 56
  and 85, no content written) or a file record (line 99) with the bytes that
  `io.Copy` moved from the source entry's stream (line 110). A record holds
  the header as it is handed to `writer.CreateHeader`; `createHeader` is what
  the writer makes of it (the call writes through the pointer), and
  `Entry.stored` the record with that header.
* `processEntry`, `fixJarLoop` and `fixJarFile` follow the path on which the
  library calls succeed, with the content of a source entry as the bytes
  copied. `copied`, `runEntry`, `runLoop` and `fixJarFileRun` add the outcome
  of `f.Open` and `io.Copy` (lines 104-113): the stream of a stored name
  ending in '/' delivers nothing, and fails unless the size is zero.
  `writer.CreateHeader` is taken to succeed.
* The `for currentDir != "." && currentDir != ""` loop (line 71) has no bound
  in the source; the embedding runs it on a fuel counter and yields `none`
  when the counter runs out.
-/

namespace ZipUtils

/-- A Go string as the list of its characters. -/
abbrev Str := List Char

/-- The fields of `zip.FileHeader` (archive/zip). `Modified` is the time stamp
taken as a number. -/
structure FileHeader where
  Name : Str
  Comment : Str
  NonUTF8 : Bool
  CreatorVersion : Nat
  ReaderVersion : Nat
  Flags : Nat
  Method : Nat
  Modified : Nat
  ModifiedTime : Nat
  ModifiedDate : Nat
  CRC32 : Nat
  CompressedSize : Nat
  UncompressedSize : Nat
  CompressedSize64 : Nat
  UncompressedSize64 : Nat
  Extra : List Nat
  ExternalAttrs : Nat
  deriving DecidableEq, Repr

/-- A source entry (`*zip.File`): its header and the bytes its stream delivers
to `io.Copy` (for a stored name ending in '/' the stream delivers none, see
`copied`). -/
structure File where
  header : FileHeader
  content : List Nat
  deriving DecidableEq, Repr

/-- A record written to the destination archive. -/
inductive Entry where
  | dir (h : FileHeader)
  | file (h : FileHeader) (content : List Nat)
  deriving DecidableEq, Repr

/-- The value of `&zip.FileHeader{}`: every field zero. -/
def zeroHeader : FileHeader :=
  { Name := [], Comment := [], NonUTF8 := false, CreatorVersion := 0,
    ReaderVersion := 0, Flags := 0, Method := 0, Modified := 0,
    ModifiedTime := 0, ModifiedDate := 0, CRC32 := 0, CompressedSize := 0,
    UncompressedSize := 0, CompressedSize64 := 0, UncompressedSize64 := 0,
    Extra := [], ExternalAttrs := 0 }

/-- The constant `zip.Deflate`. -/
def Deflate : Nat := 8

/-- The string ".class". -/
def classSuffix : Str := ['.', 'c', 'l', 'a', 's', 's']

/-- The string "/". -/
def slash : Str := ['/']

/-- The string ".". -/
def dot : Str := ['.']

/-- The string "..". -/
def dotdot : Str := ['.', '.']

/-- Go `strings.HasSuffix`. -/
def hasSuffix (s suffix : Str) : Bool := suffix.isSuffixOf s

/-- Go `strings.TrimSuffix`: `s` without the trailing `suffix`, or `s` itself
when it does not end in `suffix`. -/
def trimSuffix (s suffix : Str) : Str :=
  if hasSuffix s suffix then s.take (s.length - suffix.length) else s

/-! ## `zip.FileHeader.Mode` and `SetMode` -/

/-- The directory bit of `unixModeToFileMode(m)`: `m & s_IFMT == s_IFDIR`. -/
def unixModeIsDir (m : Nat) : Bool := m &&& 0xf000 == 0x4000

/-- The directory bit of `msdosModeToFileMode(m)`: `m & msdosDir != 0`. -/
def msdosModeIsDir (m : Nat) : Bool := m &&& 0x10 != 0

/-- The value of `h.Mode().IsDir()`. The creator byte selects how the external
attributes are read (Unix 3 and macOS 19: the Unix mode in the upper 16 bits;
FAT 0, NTFS 11, VFAT 14: the MS-DOS attribute byte); a name ending in '/' sets
the directory bit whatever the attributes say. -/
def modeIsDir (h : FileHeader) : Bool :=
  let creator := h.CreatorVersion >>> 8
  let fromAttrs :=
    if creator = 3 ∨ creator = 19 then unixModeIsDir (h.ExternalAttrs >>> 16)
    else if creator = 11 ∨ creator = 14 ∨ creator = 0 then msdosModeIsDir h.ExternalAttrs
    else false
  fromAttrs || hasSuffix h.Name slash

/-- The effect of `header.SetMode(os.ModeDir | 0755)`: creator byte Unix,
external attributes `(s_IFDIR | 0755) << 16 | msdosDir`. -/
def setModeDir0755 (h : FileHeader) : FileHeader :=
  { h with
    CreatorVersion := (h.CreatorVersion &&& 0xff) ||| (3 <<< 8)
    ExternalAttrs := ((0x4000 ||| 0o755) <<< 16) ||| 0x10 }

/-! ## `filepath.Dir` -/

/-- The elements of a path: the pieces between the separators. -/
def splitSlash : Str → List Str
  | [] => [[]]
  | c :: cs =>
    if c = '/' then [] :: splitSlash cs
    else
      match splitSlash cs with
      | [] => [[c]]
      | s :: ss => (c :: s) :: ss

/-- One element of `filepath.Clean`, on the stack of elements kept so far
(innermost first): an empty element and "." are dropped; ".." removes the
last kept element, or is kept itself when there is none to remove and the path
is not rooted; any other element is kept. -/
def cleanStep (rooted : Bool) (stack : List Str) (e : Str) : List Str :=
  if e = [] ∨ e = dot then stack
  else if e = dotdot then
    match stack with
    | [] => if rooted then [] else [dotdot]
    | top :: rest => if top = dotdot then dotdot :: top :: rest else rest
  else e :: stack

/-- The elements joined by single separators. -/
def joinSlash : List Str → Str
  | [] => []
  | [e] => e
  | e :: e' :: es => e ++ '/' :: joinSlash (e' :: es)

/-- Go `filepath.Clean` (Unix): the shortest path equivalent to `path` by
lexical processing; "." for the empty result. -/
def clean (path : Str) : Str :=
  let rooted : Bool := path.head? = some '/'
  let kept := ((splitSlash path).foldl (cleanStep rooted) []).reverse
  let out := if rooted then '/' :: joinSlash kept else joinSlash kept
  if out = [] then dot else out

/-- Go `filepath.Dir` (Unix): everything up to and including the last
separator, cleaned. -/
def dir (path : Str) : Str :=
  clean (path.rdropWhile (fun c => c != '/'))

/-! ## `fixJarFile` -/

/-- Line 32: `name := strings.TrimSuffix(f.Name, "/")`. -/
def canonicalName (f : File) : Str := trimSuffix f.header.Name slash

/-- Line 34: `isClassFile := strings.HasSuffix(name, ".class")`. -/
def isClassFile (f : File) : Bool := hasSuffix (canonicalName f) classSuffix

/-- Lines 35-46: the value of `isDirectoryEntry` when line 49 tests it. -/
def isDirectoryEntry (f : File) : Bool :=
  let isDirectoryEntry0 := modeIsDir f.header
  let isZeroSizeDir := isDirectoryEntry0 && f.header.UncompressedSize64 == 0
  let isDirectoryEntry1 := if isClassFile f then false else isDirectoryEntry0
  let isDirectoryEntry2 :=
    if isDirectoryEntry1 && !isZeroSizeDir then false else isDirectoryEntry1
  isDirectoryEntry2

/-- Lines 51-55 and 80-84: the header of a directory record. -/
def dirHeader (name : Str) : FileHeader :=
  setModeDir0755 { zeroHeader with Name := name ++ slash, Method := Deflate }

/-- Lines 94-97: the header of a file record. -/
def fileHeader (f : File) : FileHeader :=
  { f.header with
    Name := canonicalName f
    Flags := f.header.Flags &&& (0xffff ^^^ 0x0008)
    Method := Deflate }

/-- Lines 71-77: the upward walk. `dirsToAdd` grows at the front. -/
def walk : Nat → List Str → Str → List Str → Option (List Str × List Str)
  | fuel, seenDirs, currentDir, dirsToAdd =>
    if currentDir = dot ∨ currentDir = [] then some (seenDirs, dirsToAdd)
    else
      match fuel with
      | 0 => none
      | fuel + 1 =>
        if currentDir ∈ seenDirs then walk fuel seenDirs (dir currentDir) dirsToAdd
        else walk fuel (currentDir :: seenDirs) (dir currentDir) (currentDir :: dirsToAdd)

/-- The values `currentDir` takes in the upward walk started at `currentDir`
(lines 70-77), in the order visited (innermost first); `none` when the walk
does not end within `fuel` steps. -/
def walkPath : Nat → Str → Option (List Str)
  | fuel, currentDir =>
    if currentDir = dot ∨ currentDir = [] then some []
    else
      match fuel with
      | 0 => none
      | fuel + 1 => (walkPath fuel (dir currentDir)).map (fun c => currentDir :: c)

/-- The variables of the entry loop that outlive an iteration. -/
structure State where
  seenDirs : List Str
  written : List Entry
  deriving DecidableEq, Repr

/-- Lines 32-113: one iteration of the entry loop, on the path where the
library calls succeed. A file record holds the header as line 99 hands it to
the writer, and the content of `f` as the bytes copied at line 110 (`runEntry`
has the outcome of the copy, `createHeader` the header as stored). -/
def processEntry (fuel : Nat) (st : State) (f : File) : Option State :=
  let name := canonicalName f
  if isDirectoryEntry f then
    if name ∈ st.seenDirs then some st
    else some { seenDirs := name :: st.seenDirs
                written := st.written ++ [Entry.dir (dirHeader name)] }
  else
    let dirPath := dir name
    if dirPath = dot ∨ dirPath = [] then
      some { st with written := st.written ++ [Entry.file (fileHeader f) f.content] }
    else
      match walk fuel st.seenDirs dirPath [] with
      | none => none
      | some (seenDirs, dirsToAdd) =>
        some { seenDirs := seenDirs
               written := st.written ++ dirsToAdd.map (fun d => Entry.dir (dirHeader d))
                 ++ [Entry.file (fileHeader f) f.content] }

/-- Line 31: the loop over `reader.File`. -/
def fixJarLoop (fuel : Nat) : List File → State → Option State
  | [], st => some st
  | f :: fs, st =>
    match processEntry fuel st f with
    | none => none
    | some st' => fixJarLoop fuel fs st'

/-- The destination archive written by `fixJarFile` on the source entries
`files`, or `none` when an upward walk does not end within `fuel` steps. -/
def fixJarFile (fuel : Nat) (files : List File) : Option (List Entry) :=
  (fixJarLoop fuel files { seenDirs := [], written := [] }).map State.written

/-- A source entry with the given name, creator/attributes and size. -/
def mkFile (name : Str) (creator attrs size : Nat) (content : List Nat) : File :=
  { header := { zeroHeader with Name := name, CreatorVersion := creator,
                                ExternalAttrs := attrs, UncompressedSize64 := size },
    content := content }

/-! ## The library calls of lines 99-113 -/

/-- The part of `h.Mode().IsDir()` read from the creator byte and the external
attributes: `modeIsDir` without the test of the name. -/
def attrIsDir (h : FileHeader) : Bool :=
  let creator := h.CreatorVersion >>> 8
  if creator = 3 ∨ creator = 19 then unixModeIsDir (h.ExternalAttrs >>> 16)
  else if creator = 11 ∨ creator = 14 ∨ creator = 0 then msdosModeIsDir h.ExternalAttrs
  else false

/-- The second result of `detectUTF8` (archive/zip): whether the string has a
character below 0x20, above 0x7d, or equal to 0x5c, for which the writer sets
the UTF-8 flag. (A `Str` is valid UTF-8 throughout.) -/
def requiresUTF8 (s : Str) : Bool :=
  s.any (fun c => decide (c.toNat < 0x20 ∨ c.toNat > 0x7d ∨ c.toNat = 0x5c))

/-- The flag word after the UTF-8 step of `Writer.CreateHeader`: bit 11
(0x0800) is cleared when `NonUTF8` is set, and set when the name or the comment
asks for it. -/
def utf8Flags (h : FileHeader) : Nat :=
  if h.NonUTF8 then h.Flags &&& (0xffff ^^^ 0x0800)
  else if requiresUTF8 h.Name || requiresUTF8 h.Comment then h.Flags ||| 0x0800
  else h.Flags

/-- The time-stamp step of `Writer.CreateHeader`: when `Modified` is not the
zero time (here the number 0), the MS-DOS date and time are computed again
from it and an extended-timestamp field is appended to `Extra`. The three
values are those of `stamp`, which stands for `timeToMsDosTime` and for the
encoding of the extra field. -/
def stampHeader (stamp : Nat → Nat × Nat × List Nat) (h : FileHeader) : FileHeader :=
  if h.Modified = 0 then h
  else { h with
         ModifiedDate := (stamp h.Modified).1
         ModifiedTime := (stamp h.Modified).2.1
         Extra := h.Extra ++ (stamp h.Modified).2.2 }

/-- The header as `writer.CreateHeader` leaves it when it returns (lines 56,
85 and 99; the call writes through the pointer it is given): the UTF-8 flag is
settled, the low byte of `CreatorVersion` and `ReaderVersion` become 20, the
time stamp is encoded again; then for a name ending in '/' the method becomes
Store (0), flag bit 3 (0x0008, "a data descriptor follows") is cleared and the
sizes are zeroed, and for any other name flag bit 3 is set. The CRC and the
sizes of a file entry are written once more when the entry is closed; that
step is not part of this function. -/
def createHeader (stamp : Nat → Nat × Nat × List Nat) (h : FileHeader) : FileHeader :=
  let h2 := stampHeader stamp
    { h with
      Flags := utf8Flags h
      CreatorVersion := (h.CreatorVersion &&& 0xff00) ||| 20
      ReaderVersion := 20 }
  if hasSuffix h.Name slash then
    { h2 with
      Method := 0
      Flags := h2.Flags &&& (0xffff ^^^ 0x0008)
      CompressedSize := 0
      CompressedSize64 := 0
      UncompressedSize := 0
      UncompressedSize64 := 0 }
  else { h2 with Flags := h2.Flags ||| 0x0008 }

/-- Lines 104-110: the bytes that `io.Copy` moves from the reader of
`f.Open()`, or `none` when the copy fails. For a stored name ending in '/'
`Open` hands back a reader that delivers no bytes, and reading it fails unless
the uncompressed size is zero; any other entry delivers its content. -/
def copied (f : File) : Option (List Nat) :=
  if hasSuffix f.header.Name slash then
    if f.header.UncompressedSize64 = 0 then some [] else none
  else some f.content

/-- How a run ends: every entry was handled (`done`), or `fixJarFile` returned
the error of line 112 after writing what the state holds (`failed`). -/
inductive Outcome where
  | done (st : State)
  | failed (st : State)
  deriving DecidableEq, Repr

/-- Lines 32-113 with the outcome of the copy: an entry handled as a directory
has no stream; an entry handled as a file is written with the bytes its stream
delivers, and the run stops after line 99 when the copy fails. -/
def runEntry (fuel : Nat) (st : State) (f : File) : Option Outcome :=
  if isDirectoryEntry f then (processEntry fuel st f).map Outcome.done
  else
    match copied f with
    | some bytes => (processEntry fuel st { f with content := bytes }).map Outcome.done
    | none => (processEntry fuel st { f with content := [] }).map Outcome.failed

/-- Line 31 with the error returns of lines 111-113. -/
def runLoop (fuel : Nat) : List File → State → Option Outcome
  | [], st => some (Outcome.done st)
  | f :: fs, st =>
    match runEntry fuel st f with
    | none => none
    | some (Outcome.failed st') => some (Outcome.failed st')
    | some (Outcome.done st') => runLoop fuel fs st'

/-- The run of `fixJarFile` on the source entries `files`, with the streams of
the entries as archive/zip delivers them; `none` when an upward walk does not
end within `fuel` steps. -/
def fixJarFileRun (fuel : Nat) (files : List File) : Option Outcome :=
  runLoop fuel files { seenDirs := [], written := [] }

/-! ## Proof-side definitions -/

/-- Whether a written record is a directory record. -/
def Entry.isDir : Entry → Bool
  | Entry.dir _ => true
  | Entry.file _ _ => false

/-- The header of a written record. -/
def Entry.header : Entry → FileHeader
  | Entry.dir h => h
  | Entry.file h _ => h

/-- The content of a written record (none for a directory record). -/
def Entry.content : Entry → List Nat
  | Entry.dir _ => []
  | Entry.file _ c => c

/-- The directory record written for the directory path `p`. -/
def dirRecord (p : Str) : Entry := Entry.dir (dirHeader p)

/-- The file record written for the source entry `f`. -/
def fileRecord (f : File) : Entry := Entry.file (fileHeader f) f.content

/-- The directory records of an archive, in order. -/
def dirEntries (es : List Entry) : List Entry := es.filter Entry.isDir

/-- The file records of an archive, in order. -/
def fileEntries (es : List Entry) : List Entry := es.filter (fun e => !e.isDir)

/-- The file records of the source entries handled as files, in source order. -/
def fileRecords (files : List File) : List Entry :=
  (files.filter (fun f => !isDirectoryEntry f)).map fileRecord

/-- The bookkeeping invariant of the entry loop: `seenDirs` holds no path
twice, and the directory records written are those of the paths in `seenDirs`. -/
def SeenInv (st : State) : Prop :=
  st.seenDirs.Nodup ∧ (dirEntries st.written).Perm (st.seenDirs.map dirRecord)

/-- The length of the elements joined, counting one separator after each. -/
def weight (es : List Str) : Nat := (es.map (fun e => e.length + 1)).sum

/-- Whether a path is rooted (begins with the separator). -/
def rooted (p : Str) : Bool := p.head? = some '/'

/-- The entry `Foo.class/` of size zero: a compiled-class entry flagged as a
directory by its trailing separator. -/
def fooClassDir : File := mkFile "Foo.class/".toList 0 0 0 []

/-- The entry `Foo.class` of size zero flagged as a directory by its Unix mode
bits (creator Unix, mode `040755`). -/
def fooClassMode : File := mkFile "Foo.class".toList 0x0300 0x41ED0010 0 []

/-- The entry `com/Bar.class`, a plain file of three bytes. -/
def barClass : File := mkFile "com/Bar.class".toList 0 0 3 [1, 2, 3]

/-- The directory entry `lib/` of size zero. -/
def libDir : File := mkFile "lib/".toList 0 0 0 []

/-- A path segment that `filepath.Clean` keeps as it is: non-empty, without a
separator, and neither "." nor "..". -/
def NiceSeg (s : Str) : Prop := s ≠ [] ∧ '/' ∉ s ∧ s ≠ dot ∧ s ≠ dotdot

/-- The directories `d1`, `d1/d2`, ..., `d1/.../dk` of the segments
`d1, ..., dk`, outermost first. -/
def ancestorPaths (ds : List Str) : List Str :=
  (List.range ds.length).map (fun i => joinSlash (ds.take (i + 1)))

/-- Every record of `es` satisfies `Q` relative to the records written before
it (`before` and the earlier part of `es`). -/
def EachAfter (Q : List Entry → Entry → Prop) : List Entry → List Entry → Prop
  | _, [] => True
  | before, e :: rest => Q before e ∧ EachAfter Q (before ++ [e]) rest

/-- A directory record stands after the record of its parent directory. -/
def ParentBefore (before : List Entry) (e : Entry) : Prop :=
  ∀ p, e = dirRecord p → (dir p = dot ∨ dir p = []) ∨ dirRecord (dir p) ∈ before

/-- A file record stands after the records of all the directories on the
upward walk from its name. -/
def AncestorsBefore (fuel : Nat) (before : List Entry) (e : Entry) : Prop :=
  e.isDir = false →
    ∃ c, walkPath fuel (dir e.header.Name) = some c ∧ ∀ d ∈ c, dirRecord d ∈ before

/-- The file `./c.txt`. -/
def dotSlashFile : File := mkFile "./c.txt".toList 0 0 1 [5]

/-- The file `a/b/c.txt`. -/
def abcFile : File := mkFile "a/b/c.txt".toList 0 0 1 [5]

/-- The directory entry `a/b/` of size zero. -/
def abDir : File := mkFile "a/b/".toList 0 0 0 []

/-- The directory entry `a/` of size zero. -/
def aDir : File := mkFile "a/".toList 0 0 0 []

/-- What `archive/zip` hands back when a written record is read again as a
source entry: the name, the creator byte and the external attributes as
written, the uncompressed size equal to the number of bytes written (none for
a directory record), and those bytes as content. The other header fields are
left open. -/
def ReadBack (e : Entry) (g : File) : Prop :=
  g.header.Name = e.header.Name ∧
  g.header.CreatorVersion >>> 8 = e.header.CreatorVersion >>> 8 ∧
  g.header.ExternalAttrs = e.header.ExternalAttrs ∧
  g.header.UncompressedSize64 = e.content.length ∧
  g.content = e.content

/-- One way of reading a written record again: the header as written, with
the uncompressed size set to the number of bytes written. -/
def reread (e : Entry) : File :=
  { header := { e.header with UncompressedSize64 := e.content.length },
    content := e.content }

/-- The name and the bytes of a record. -/
def Entry.key (e : Entry) : Str × List Nat := (e.header.Name, e.content)

/-- What a second run needs of a record and of the records before it: a
directory record is `dirRecord p` for a path `p` not ending in ".class" and
not written before; a file record has a name not ending in '/', has content
unless it is not flagged as a directory or is a compiled class, and stands
after the records of the directories on the upward walk from its name. -/
def Rereadable (fuel : Nat) (before : List Entry) (e : Entry) : Prop :=
  (e.isDir = true →
    ∃ p, e = dirRecord p ∧ dirRecord p ∉ before ∧ hasSuffix p classSuffix = false) ∧
  (e.isDir = false →
    hasSuffix e.header.Name slash = false ∧
    (modeIsDir e.header = true → hasSuffix e.header.Name classSuffix = false →
      e.content ≠ []) ∧
    ∃ c, walkPath fuel (dir e.header.Name) = some c ∧ ∀ d ∈ c, dirRecord d ∈ before)

/-- The file `a.class/b/c.txt`. -/
def classDirFile : File := mkFile "a.class/b/c.txt".toList 0 0 1 [5]

/-- No entry handled as a file has a rooted canonical name. -/
def Unrooted (l : List File) : Prop :=
  ∀ g ∈ l, isDirectoryEntry g = false → rooted (canonicalName g) = false

/-- Fuel for the upward walks of a run on `l`: the total length of the
canonical names. -/
def enoughFuel (l : List File) : Nat := (l.map (fun f => (canonicalName f).length)).sum

/-- The file `/a.txt`: a name that begins with the separator. -/
def rootedFile : File := mkFile "/a.txt".toList 0 0 1 [5]

/-- The directory entry `a//` of size zero: a name ending in two separators. -/
def doubleSlashDir : File := mkFile "a//".toList 0 0 0 []

/-- A source entry with every header field set: the file `x/y.txt` of two
bytes, stored (method 0), written by a version 1.0 Unix tool (creator
`0x030A`, reader version 10) with flags `0x080A` (bits 1, 3 and 11). -/
def oldVersionFile : File :=
  { header :=
      { Name := "x/y.txt".toList, Comment := "c".toList, NonUTF8 := false,
        CreatorVersion := 0x030A, ReaderVersion := 10, Flags := 0x080A, Method := 0,
        Modified := 1701345600, ModifiedTime := 0x6000, ModifiedDate := 0x5800,
        CRC32 := 0x77443C9C, CompressedSize := 2, UncompressedSize := 2,
        CompressedSize64 := 2, UncompressedSize64 := 2, Extra := [],
        ExternalAttrs := 0x81A40000 },
    content := [7, 9] }

/-- The file `a/../c.txt`. -/
def dotDotFile : File := mkFile "a/../c.txt".toList 0 0 1 [5]

/-- The directories above a file of segments `ds` that are not in `seen`,
outermost first. -/
def unseenAncestors (seen : List Str) (ds : List Str) : List Str :=
  (ancestorPaths ds).filter (fun p => decide (p ∉ seen))

/-- A source entry with the bytes its stream delivers as content. -/
def delivered (f : File) : File := { f with content := (copied f).getD [] }

/-- The entry `data` of two bytes flagged as a directory by its Unix mode bits
(creator Unix, mode `040755`). -/
def modeDirData : File := mkFile "data".toList 0x0300 0x41ED0010 2 [7, 9]

/-- A directory record is at the root, or stands after the record of its
parent directory, or is the record written for a directory entry of the source
in that entry's own iteration (after exactly what the entries before it gave). -/
def ParentOrCarried (fuel : Nat) (l : List File) (before : List Entry) (e : Entry) : Prop :=
  ∀ p, e = dirRecord p →
    (dir p = dot ∨ dir p = []) ∨ dirRecord (dir p) ∈ before ∨
    ∃ l1 g l2, l = l1 ++ g :: l2 ∧ isDirectoryEntry g = true ∧ canonicalName g = p ∧
      fixJarFile fuel l1 = some before

/-! ## The upward walk -/

theorem walkPath_stop {fuel : Nat} {p : Str} (h : p = dot ∨ p = []) :
    walkPath fuel p = some [] := by
  cases fuel <;> simp [walkPath, h]

theorem walkPath_zero {p : Str} (h : ¬ (p = dot ∨ p = [])) : walkPath 0 p = none := by
  simp [walkPath, h]

theorem walkPath_succ {fuel : Nat} {p : Str} (h : ¬ (p = dot ∨ p = [])) :
    walkPath (fuel + 1) p = (walkPath fuel (dir p)).map (fun c => p :: c) := by
  rw [walkPath]; simp [h]

theorem walk_stop {fuel : Nat} {seen acc : List Str} {p : Str} (h : p = dot ∨ p = []) :
    walk fuel seen p acc = some (seen, acc) := by
  cases fuel <;> simp [walk, h]

theorem walk_zero {seen acc : List Str} {p : Str} (h : ¬ (p = dot ∨ p = [])) :
    walk 0 seen p acc = none := by
  simp [walk, h]

theorem walk_succ {fuel : Nat} {seen acc : List Str} {p : Str} (h : ¬ (p = dot ∨ p = [])) :
    walk (fuel + 1) seen p acc =
      if p ∈ seen then walk fuel seen (dir p) acc
      else walk fuel (p :: seen) (dir p) (p :: acc) := by
  rw [walk]; simp [h]

/-- A walk that ends does so after a number of steps fixed by its start. -/
theorem walkPath_det : ∀ (f1 f2 : Nat) (p : Str) (c1 c2 : List Str),
    walkPath f1 p = some c1 → walkPath f2 p = some c2 → c1 = c2 := by
  intro f1
  induction f1 with
  | zero =>
    intro f2 p c1 c2 h1 h2
    by_cases hp : p = dot ∨ p = []
    · rw [walkPath_stop hp] at h1 h2; simp_all
    · rw [walkPath_zero hp] at h1; simp at h1
  | succ n ih =>
    intro f2 p c1 c2 h1 h2
    by_cases hp : p = dot ∨ p = []
    · rw [walkPath_stop hp] at h1 h2; simp_all
    · cases f2 with
      | zero => rw [walkPath_zero hp] at h2; simp at h2
      | succ m =>
        rw [walkPath_succ hp] at h1 h2
        simp only [Option.map_eq_some'] at h1 h2
        obtain ⟨a, ha, rfl⟩ := h1
        obtain ⟨b, hb, rfl⟩ := h2
        rw [ih m (dir p) a b ha hb]

/-- More fuel does not change the outcome of a walk that ends. -/
theorem walkPath_mono : ∀ (f1 f2 : Nat) (p : Str) (c : List Str),
    f1 ≤ f2 → walkPath f1 p = some c → walkPath f2 p = some c := by
  intro f1
  induction f1 with
  | zero =>
    intro f2 p c _ h
    by_cases hp : p = dot ∨ p = []
    · rw [walkPath_stop hp] at h ⊢; exact h
    · rw [walkPath_zero hp] at h; simp at h
  | succ n ih =>
    intro f2 p c hle h
    by_cases hp : p = dot ∨ p = []
    · rw [walkPath_stop hp] at h ⊢; exact h
    · obtain ⟨m, rfl⟩ : ∃ m, f2 = m + 1 := ⟨f2 - 1, by omega⟩
      rw [walkPath_succ hp] at h ⊢
      simp only [Option.map_eq_some'] at h ⊢
      obtain ⟨a, ha, rfl⟩ := h
      exact ⟨a, ih m (dir p) a (by omega) ha, rfl⟩

/-- Every directory on the walk restarts the rest of the walk. -/
theorem walkPath_suffix : ∀ (fuel : Nat) (p : Str) (X : List Str) (q : Str) (Y : List Str),
    walkPath fuel p = some (X ++ q :: Y) → walkPath fuel q = some (q :: Y) := by
  intro fuel
  induction fuel with
  | zero =>
    intro p X q Y h
    by_cases hp : p = dot ∨ p = []
    · rw [walkPath_stop hp] at h; simp at h
    · rw [walkPath_zero hp] at h; simp at h
  | succ n ih =>
    intro p X q Y h
    by_cases hp : p = dot ∨ p = []
    · rw [walkPath_stop hp] at h; simp at h
    · have h0 := h
      rw [walkPath_succ hp] at h
      simp only [Option.map_eq_some'] at h
      obtain ⟨a, ha, heq⟩ := h
      cases X with
      | nil =>
        simp only [List.nil_append, List.cons.injEq] at heq
        obtain ⟨rfl, rfl⟩ := heq
        exact h0
      | cons x X' =>
        simp only [List.cons_append, List.cons.injEq] at heq
        obtain ⟨_, rfl⟩ := heq
        exact walkPath_mono n (n + 1) q _ (by omega) (ih (dir p) X' q Y ha)

/-- No directory on the walk is a stopping value, and the parent of each is
the next one on the walk or a stopping value. -/
theorem walkPath_mem : ∀ (fuel : Nat) (p : Str) (c : List Str),
    walkPath fuel p = some c → ∀ d ∈ c,
      ¬ (d = dot ∨ d = []) ∧ ((dir d = dot ∨ dir d = []) ∨ dir d ∈ c) := by
  intro fuel
  induction fuel with
  | zero =>
    intro p c h d hd
    by_cases hp : p = dot ∨ p = []
    · rw [walkPath_stop hp] at h; simp at h; subst h; simp at hd
    · rw [walkPath_zero hp] at h; simp at h
  | succ n ih =>
    intro p c h d hd
    by_cases hp : p = dot ∨ p = []
    · rw [walkPath_stop hp] at h; simp at h; subst h; simp at hd
    · rw [walkPath_succ hp] at h
      simp only [Option.map_eq_some'] at h
      obtain ⟨a, ha, rfl⟩ := h
      rcases List.mem_cons.1 hd with rfl | hd'
      · refine ⟨hp, ?_⟩
        by_cases hq : dir d = dot ∨ dir d = []
        · exact Or.inl hq
        · right
          cases n with
          | zero => rw [walkPath_zero hq] at ha; simp at ha
          | succ m =>
            rw [walkPath_succ hq] at ha
            simp only [Option.map_eq_some'] at ha
            obtain ⟨b, _, rfl⟩ := ha
            simp
      · obtain ⟨h1, h2⟩ := ih (dir p) a ha d hd'
        exact ⟨h1, h2.imp id (List.mem_cons_of_mem _)⟩

/-- A walk that ends visits no directory twice. -/
theorem walkPath_nodup : ∀ (fuel : Nat) (p : Str) (c : List Str),
    walkPath fuel p = some c → c.Nodup := by
  intro fuel
  induction fuel with
  | zero =>
    intro p c h
    by_cases hp : p = dot ∨ p = []
    · rw [walkPath_stop hp] at h; simp at h; subst h; simp
    · rw [walkPath_zero hp] at h; simp at h
  | succ n ih =>
    intro p c h
    by_cases hp : p = dot ∨ p = []
    · rw [walkPath_stop hp] at h; simp at h; subst h; simp
    · have h0 := h
      rw [walkPath_succ hp] at h
      simp only [Option.map_eq_some'] at h
      obtain ⟨a, ha, rfl⟩ := h
      refine List.nodup_cons.2 ⟨?_, ih (dir p) a ha⟩
      intro hmem
      obtain ⟨X, Y, rfl⟩ := List.append_of_mem hmem
      have h1 := walkPath_suffix n (dir p) X p Y ha
      have h2 := walkPath_det _ _ _ _ _ h1 h0
      have h3 := congrArg List.length h2
      simp at h3
      omega

/-- What the upward walk returns: the directories `new` it adds are put in
front of both `seenDirs` and `dirsToAdd` (outermost first); they are the
directories on the walk that had not been seen, so afterwards every directory
on the walk is seen, and the parent of a new directory is a stopping value,
was seen before, or stands earlier in `new`. -/
theorem walk_spec : ∀ (fuel : Nat) (seen : List Str) (cur : Str) (acc seen' acc' : List Str),
    walk fuel seen cur acc = some (seen', acc') →
    ∃ new c, seen' = new ++ seen ∧ acc' = new ++ acc ∧ new.Nodup ∧
      (∀ d ∈ new, d ∉ seen) ∧ walkPath fuel cur = some c ∧
      (∀ d ∈ c, d ∈ new ++ seen) ∧ (∀ d ∈ new, d ∈ c) ∧
      (∀ A d B, new = A ++ d :: B → (dir d = dot ∨ dir d = []) ∨ dir d ∈ A ++ seen) := by
  intro fuel
  induction fuel with
  | zero =>
    intro seen cur acc seen' acc' h
    by_cases hp : cur = dot ∨ cur = []
    · rw [walk_stop hp] at h
      simp only [Option.some.injEq, Prod.mk.injEq] at h
      obtain ⟨rfl, rfl⟩ := h
      exact ⟨[], [], by simp, by simp, by simp, by simp, walkPath_stop hp, by simp, by simp,
        by simp⟩
    · rw [walk_zero hp] at h; simp at h
  | succ n ih =>
    intro seen cur acc seen' acc' h
    by_cases hp : cur = dot ∨ cur = []
    · rw [walk_stop hp] at h
      simp only [Option.some.injEq, Prod.mk.injEq] at h
      obtain ⟨rfl, rfl⟩ := h
      exact ⟨[], [], by simp, by simp, by simp, by simp, walkPath_stop hp, by simp, by simp,
        by simp⟩
    · rw [walk_succ hp] at h
      by_cases hs : cur ∈ seen
      · rw [if_pos hs] at h
        obtain ⟨new, c, h1, h2, h3, h4, h5, h6, h7, h8⟩ := ih seen (dir cur) acc seen' acc' h
        refine ⟨new, cur :: c, h1, h2, h3, h4, ?_, ?_, ?_, h8⟩
        · rw [walkPath_succ hp, h5]; rfl
        · intro d hd
          rcases List.mem_cons.1 hd with rfl | hd
          · exact List.mem_append_right _ hs
          · exact h6 d hd
        · intro d hd; exact List.mem_cons_of_mem _ (h7 d hd)
      · rw [if_neg hs] at h
        obtain ⟨new, c, h1, h2, h3, h4, h5, h6, h7, h8⟩ :=
          ih (cur :: seen) (dir cur) (cur :: acc) seen' acc' h
        have hwp : walkPath (n + 1) cur = some (cur :: c) := by
          rw [walkPath_succ hp, h5]; rfl
        have hnd := walkPath_nodup _ _ _ hwp
        have hcur : cur ∉ new := fun hm => h4 cur hm (List.mem_cons_self _ _)
        refine ⟨new ++ [cur], cur :: c, by simp [h1], by simp [h2], ?_, ?_, hwp, ?_, ?_, ?_⟩
        · rw [List.nodup_append]
          refine ⟨h3, by simp, ?_⟩
          intro a ha hb
          simp at hb; subst hb; exact hcur ha
        · intro d hd
          rcases List.mem_append.1 hd with hd | hd
          · exact fun hm => h4 d hd (List.mem_cons_of_mem _ hm)
          · simp at hd; subst hd; exact hs
        · intro d hd
          rcases List.mem_cons.1 hd with rfl | hd
          · simp
          · have := h6 d hd
            simp only [List.mem_append, List.mem_cons] at this ⊢
            tauto
        · intro d hd
          rcases List.mem_append.1 hd with hd | hd
          · exact List.mem_cons_of_mem _ (h7 d hd)
          · simp at hd; subst hd; simp
        · intro A d B hAB
          rcases List.eq_nil_or_concat B with rfl | ⟨B', b, rfl⟩
          · -- d is `cur`, the last of the new directories
            have hA : A = new ∧ d = cur := by
              have := List.append_inj' hAB (by simp)
              simpa [eq_comm] using this
            obtain ⟨rfl, rfl⟩ := hA
            by_cases hq : dir d = dot ∨ dir d = []
            · exact Or.inl hq
            · right
              have hc : dir d ∈ c := by
                cases n with
                | zero => rw [walkPath_zero hq] at h5; simp at h5
                | succ m =>
                  rw [walkPath_succ hq] at h5
                  simp only [Option.map_eq_some'] at h5
                  obtain ⟨b, _, rfl⟩ := h5
                  simp
              have := h6 _ hc
              simp only [List.mem_append, List.mem_cons] at this ⊢
              rcases this with h | h | h
              · exact Or.inl h
              · exact absurd (h ▸ hc) (List.nodup_cons.1 hnd).1
              · exact Or.inr h
          · have hnew : new = A ++ d :: B' ∧ b = cur := by
              have h' : new ++ [cur] = (A ++ d :: B') ++ [b] := by simpa using hAB
              have := List.append_inj' h' (by simp)
              simpa [eq_comm] using this
            obtain ⟨hnew, rfl⟩ := hnew
            have hdc : d ∈ c := h7 d (by rw [hnew]; simp)
            rcases h8 A d B' hnew with h | h
            · exact Or.inl h
            · simp only [List.mem_append, List.mem_cons] at h ⊢
              rcases h with h | h | h
              · exact Or.inr (Or.inl h)
              · -- the parent of a directory above `b` on the walk is not `b`
                exfalso
                rcases (walkPath_mem _ _ _ h5 d hdc).2 with hq | hq
                · exact hp (h ▸ hq)
                · exact (List.nodup_cons.1 hnd).1 (h ▸ hq)
              · exact Or.inr (Or.inr h)

/-! ## One iteration of the entry loop -/

@[simp] theorem dirRecord_isDir (p : Str) : (dirRecord p).isDir = true := rfl

@[simp] theorem fileRecord_isDir (f : File) : (fileRecord f).isDir = false := rfl

theorem dirEntries_append (a b : List Entry) :
    dirEntries (a ++ b) = dirEntries a ++ dirEntries b := by
  simp [dirEntries]

theorem fileEntries_append (a b : List Entry) :
    fileEntries (a ++ b) = fileEntries a ++ fileEntries b := by
  simp [fileEntries]

theorem dirEntries_map_dirRecord (l : List Str) :
    dirEntries (l.map dirRecord) = l.map dirRecord := by
  induction l with
  | nil => rfl
  | cons a l ih => simp [dirEntries] at ih ⊢

theorem fileEntries_map_dirRecord (l : List Str) : fileEntries (l.map dirRecord) = [] := by
  induction l with
  | nil => rfl
  | cons a l ih => simp [fileEntries] at ih ⊢

theorem dirHeader_name (p : Str) : (dirHeader p).Name = p ++ slash := rfl

theorem dirRecord_injective : Function.Injective dirRecord := by
  intro a b h
  have h1 : (dirHeader a).Name = (dirHeader b).Name := by
    simp only [dirRecord, Entry.dir.injEq] at h
    rw [h]
  simpa [dirHeader_name] using h1

/-- The effect of one iteration: the unseen directories `new` are marked seen
and written (outermost first), then the file record is written if the entry is
handled as a file. -/
theorem processEntry_spec (fuel : Nat) (st st' : State) (f : File)
    (h : processEntry fuel st f = some st') :
    ∃ new, st'.seenDirs = new ++ st.seenDirs ∧
      st'.written = st.written ++ new.map dirRecord ++
        (if isDirectoryEntry f then [] else [fileRecord f]) ∧
      new.Nodup ∧ (∀ d ∈ new, d ∉ st.seenDirs) ∧
      (isDirectoryEntry f = true →
        canonicalName f ∈ st'.seenDirs ∧ ∀ d ∈ new, d = canonicalName f) ∧
      (isDirectoryEntry f = false →
        ∃ c, walkPath fuel (dir (canonicalName f)) = some c ∧
          (∀ d ∈ c, d ∈ st'.seenDirs) ∧ (∀ d ∈ new, d ∈ c) ∧
          (∀ A d B, new = A ++ d :: B →
            (dir d = dot ∨ dir d = []) ∨ dir d ∈ A ++ st.seenDirs)) := by
  unfold processEntry at h
  by_cases hd : isDirectoryEntry f = true
  · simp only [hd, if_true] at h
    by_cases hs : canonicalName f ∈ st.seenDirs
    · rw [if_pos hs] at h
      simp only [Option.some.injEq] at h
      subst h
      exact ⟨[], by simp, by simp [hd], by simp, by simp, fun _ => ⟨hs, by simp⟩,
        fun h' => by simp [hd] at h'⟩
    · rw [if_neg hs] at h
      simp only [Option.some.injEq] at h
      subst h
      exact ⟨[canonicalName f], by simp, by simp [hd, dirRecord], by simp, by simpa using hs,
        fun _ => ⟨by simp, by simp⟩, fun h' => by simp [hd] at h'⟩
  · have hd' : isDirectoryEntry f = false := by simpa using hd
    simp only [hd', Bool.false_eq_true, if_false] at h
    by_cases hp : dir (canonicalName f) = dot ∨ dir (canonicalName f) = []
    · rw [if_pos hp] at h
      simp only [Option.some.injEq] at h
      subst h
      refine ⟨[], by simp, by simp [fileRecord, hd'], by simp, by simp,
        fun h' => by simp [hd'] at h', fun _ => ⟨[], walkPath_stop hp, by simp, by simp, by simp⟩⟩
    · rw [if_neg hp] at h
      cases hw : walk fuel st.seenDirs (dir (canonicalName f)) [] with
      | none => rw [hw] at h; simp at h
      | some r =>
        obtain ⟨seen', acc'⟩ := r
        rw [hw] at h
        simp only [Option.some.injEq] at h
        subst h
        obtain ⟨new, c, h1, h2, h3, h4, h5, h6, h7, h8⟩ := walk_spec _ _ _ _ _ _ hw
        simp only [List.append_nil] at h2
        subst h2
        refine ⟨acc', h1, ?_, h3, h4,
          fun h' => by simp [hd'] at h', fun _ => ⟨c, h5, ?_, h7, h8⟩⟩
        · have : (fun d => Entry.dir (dirHeader d)) = dirRecord := rfl
          simp [fileRecord, hd', this]
        · intro d hd; simpa [h1] using h6 d hd

/-- An iteration keeps the bookkeeping invariant. -/
theorem processEntry_seenInv (fuel : Nat) (st st' : State) (f : File)
    (h : processEntry fuel st f = some st') (hinv : SeenInv st) : SeenInv st' := by
  obtain ⟨new, h1, h2, h3, h4, -, -⟩ := processEntry_spec fuel st st' f h
  obtain ⟨hn, hp⟩ := hinv
  refine ⟨?_, ?_⟩
  · rw [h1, List.nodup_append]
    exact ⟨h3, hn, fun a ha hb => h4 a ha hb⟩
  · rw [h1, h2, dirEntries_append, dirEntries_append, dirEntries_map_dirRecord, List.map_append]
    have : dirEntries (if isDirectoryEntry f = true then [] else [fileRecord f]) = [] := by
      split <;> simp [dirEntries]
    rw [this, List.append_nil]
    exact (hp.append_right _).trans List.perm_append_comm

/-! ## The entry loop -/

theorem fixJarLoop_nil (fuel : Nat) (st : State) : fixJarLoop fuel [] st = some st := rfl

theorem fixJarLoop_cons (fuel : Nat) (f : File) (fs : List File) (st : State) :
    fixJarLoop fuel (f :: fs) st = (processEntry fuel st f).bind (fixJarLoop fuel fs) := by
  rw [fixJarLoop]
  cases processEntry fuel st f <;> rfl

theorem fixJarLoop_append (fuel : Nat) (l1 l2 : List File) (st : State) :
    fixJarLoop fuel (l1 ++ l2) st = (fixJarLoop fuel l1 st).bind (fixJarLoop fuel l2) := by
  induction l1 generalizing st with
  | nil => simp [fixJarLoop_nil]
  | cons f fs ih =>
    rw [List.cons_append, fixJarLoop_cons, fixJarLoop_cons]
    cases processEntry fuel st f with
    | none => rfl
    | some st1 => simp [ih]

theorem fixJarLoop_seenInv (fuel : Nat) (l : List File) (st st' : State)
    (h : fixJarLoop fuel l st = some st') (hinv : SeenInv st) : SeenInv st' := by
  induction l generalizing st with
  | nil => simp [fixJarLoop_nil] at h; subst h; exact hinv
  | cons f fs ih =>
    rw [fixJarLoop_cons] at h
    cases hp : processEntry fuel st f with
    | none => rw [hp] at h; simp at h
    | some st1 =>
      rw [hp] at h
      exact ih st1 h (processEntry_seenInv fuel st st1 f hp hinv)

/-- The loop only appends to the archive and only adds to `seenDirs`; the file
records it appends are those of the entries handled as files, in order. -/
theorem fixJarLoop_written (fuel : Nat) (l : List File) (st st' : State)
    (h : fixJarLoop fuel l st = some st') :
    ∃ delta new, st'.written = st.written ++ delta ∧ st'.seenDirs = new ++ st.seenDirs ∧
      fileEntries delta = fileRecords l := by
  induction l generalizing st with
  | nil =>
    simp [fixJarLoop_nil] at h; subst h
    exact ⟨[], [], by simp, by simp, rfl⟩
  | cons f fs ih =>
    rw [fixJarLoop_cons] at h
    cases hp : processEntry fuel st f with
    | none => rw [hp] at h; simp at h
    | some st1 =>
      rw [hp] at h
      obtain ⟨delta, new, h1, h2, h3⟩ := ih st1 h
      obtain ⟨new1, g1, g2, -⟩ := processEntry_spec fuel st st1 f hp
      refine ⟨new1.map dirRecord ++ (if isDirectoryEntry f then [] else [fileRecord f]) ++ delta,
        new ++ new1, by rw [h1, g2]; simp, by rw [h2, g1]; simp, ?_⟩
      rw [fileEntries_append, fileEntries_append, fileEntries_map_dirRecord, h3]
      by_cases hd : isDirectoryEntry f = true
      · simp [hd, fileRecords, fileEntries]
      · simp [hd, fileRecords, fileEntries]

theorem seenInv_init : SeenInv { seenDirs := [], written := [] } := by
  simp [SeenInv, dirEntries]

theorem fixJarFile_eq (fuel : Nat) (l : List File) (out : List Entry)
    (h : fixJarFile fuel l = some out) :
    ∃ st, fixJarLoop fuel l { seenDirs := [], written := [] } = some st ∧ st.written = out := by
  simpa [fixJarFile] using h

/-! ## `filepath.Clean` and `filepath.Dir` -/

theorem joinSlash_cons_cons (e e' : Str) (es : List Str) :
    joinSlash (e :: e' :: es) = e ++ '/' :: joinSlash (e' :: es) := rfl

theorem joinSlash_cons (e : Str) (es : List Str) (h : es ≠ []) :
    joinSlash (e :: es) = e ++ '/' :: joinSlash es := by
  cases es with
  | nil => exact absurd rfl h
  | cons e' es => rfl

theorem splitSlash_ne_nil (s : Str) : splitSlash s ≠ [] := by
  induction s with
  | nil => simp [splitSlash]
  | cons c cs ih =>
    rw [splitSlash]
    split
    · simp
    · split <;> simp

theorem splitSlash_cons_slash (cs : Str) : splitSlash ('/' :: cs) = [] :: splitSlash cs := by
  rw [splitSlash]; simp

theorem splitSlash_cons_other (c : Char) (cs : Str) (h : c ≠ '/') :
    ∃ e es, splitSlash cs = e :: es ∧ splitSlash (c :: cs) = (c :: e) :: es := by
  rw [splitSlash]
  simp only [h, if_false]
  cases hs : splitSlash cs with
  | nil => exact absurd hs (splitSlash_ne_nil cs)
  | cons e es => exact ⟨e, es, rfl, rfl⟩

theorem weight_nil : weight [] = 0 := rfl

theorem weight_cons (e : Str) (es : List Str) : weight (e :: es) = e.length + 1 + weight es := by
  simp [weight]

theorem weight_append (a b : List Str) : weight (a ++ b) = weight a + weight b := by
  simp [weight]

theorem weight_reverse (a : List Str) : weight a.reverse = weight a := by
  induction a with
  | nil => rfl
  | cons e es ih => simp [weight_append, weight_cons, ih, weight_nil]; omega

theorem weight_splitSlash (s : Str) : weight (splitSlash s) = s.length + 1 := by
  induction s with
  | nil => simp [splitSlash, weight]
  | cons c cs ih =>
    by_cases hc : c = '/'
    · subst hc
      rw [splitSlash_cons_slash, weight_cons, ih]; simp; omega
    · obtain ⟨e, es, h1, h2⟩ := splitSlash_cons_other c cs hc
      rw [h2, weight_cons]
      rw [h1, weight_cons] at ih
      simp; omega

theorem joinSlash_length (es : List Str) (h : es ≠ []) :
    (joinSlash es).length + 1 = weight es := by
  induction es with
  | nil => exact absurd rfl h
  | cons e es ih =>
    cases es with
    | nil => simp [joinSlash, weight]
    | cons e' es' =>
      rw [joinSlash_cons_cons, weight_cons, ← ih (by simp)]
      simp; omega

theorem splitSlash_no_slash (s : Str) : ∀ e ∈ splitSlash s, '/' ∉ e := by
  induction s with
  | nil => simp [splitSlash]
  | cons c cs ih =>
    by_cases hc : c = '/'
    · subst hc
      rw [splitSlash_cons_slash]
      intro e he
      rcases List.mem_cons.1 he with rfl | he
      · simp
      · exact ih e he
    · obtain ⟨e0, es, h1, h2⟩ := splitSlash_cons_other c cs hc
      rw [h2]
      rw [h1] at ih
      intro e he
      rcases List.mem_cons.1 he with rfl | he
      · intro hm
        rcases List.mem_cons.1 hm with h | h
        · exact hc h.symm
        · exact ih e0 (List.mem_cons_self _ _) h
      · exact ih e (List.mem_cons_of_mem _ he)

theorem splitSlash_append_slash (q : Str) : splitSlash (q ++ ['/']) = splitSlash q ++ [[]] := by
  induction q with
  | nil => simp [splitSlash]
  | cons c cs ih =>
    by_cases hc : c = '/'
    · subst hc
      rw [List.cons_append, splitSlash_cons_slash, splitSlash_cons_slash, ih]; rfl
    · obtain ⟨e, es, h1, h2⟩ := splitSlash_cons_other c cs hc
      obtain ⟨e', es', h1', h2'⟩ := splitSlash_cons_other c (cs ++ ['/']) hc
      rw [List.cons_append, h2', h2]
      rw [ih, h1] at h1'
      simp only [List.cons_append, List.cons.injEq] at h1'
      obtain ⟨rfl, rfl⟩ := h1'
      rfl

theorem cleanStep_weight (r : Bool) (st : List Str) (e : Str) :
    weight (cleanStep r st e) ≤ weight st + (e.length + 1) := by
  unfold cleanStep
  split
  · omega
  · split
    · rename_i h; subst h
      cases st with
      | nil => cases r <;> simp [weight, dotdot]
      | cons top rest =>
        simp only
        split
        · simp [weight_cons, dotdot]; omega
        · simp [weight_cons]; omega
    · simp [weight_cons]; omega

theorem foldl_cleanStep_weight (r : Bool) (es : List Str) (st : List Str) :
    weight (es.foldl (cleanStep r) st) ≤ weight st + weight es := by
  induction es generalizing st with
  | nil => simp [weight_nil]
  | cons e es ih =>
    rw [List.foldl_cons, weight_cons]
    have := ih (cleanStep r st e)
    have := cleanStep_weight r st e
    omega

/-- The elements kept by `filepath.Clean` are non-empty and hold no separator. -/
theorem cleanStep_elems (r : Bool) (st : List Str) (e : Str) (he : '/' ∉ e)
    (hst : ∀ x ∈ st, x ≠ [] ∧ '/' ∉ x) : ∀ x ∈ cleanStep r st e, x ≠ [] ∧ '/' ∉ x := by
  have hdd : dotdot ≠ [] ∧ '/' ∉ dotdot := by simp [dotdot]
  unfold cleanStep
  split
  · exact hst
  · rename_i h1
    split
    · cases st with
      | nil =>
        cases r
        · intro x hx; simp at hx; subst hx; exact hdd
        · intro x hx; simp at hx
      | cons top rest =>
        simp only
        split
        · intro x hx
          rcases List.mem_cons.1 hx with rfl | hx
          · exact hdd
          · exact hst x hx
        · intro x hx; exact hst x (List.mem_cons_of_mem _ hx)
    · intro x hx
      rcases List.mem_cons.1 hx with rfl | hx
      · exact ⟨fun h => h1 (Or.inl h), he⟩
      · exact hst x hx

theorem foldl_cleanStep_elems (r : Bool) (es : List Str) (st : List Str)
    (hes : ∀ e ∈ es, '/' ∉ e) (hst : ∀ x ∈ st, x ≠ [] ∧ '/' ∉ x) :
    ∀ x ∈ es.foldl (cleanStep r) st, x ≠ [] ∧ '/' ∉ x := by
  induction es generalizing st with
  | nil => simpa using hst
  | cons e es ih =>
    rw [List.foldl_cons]
    exact ih _ (fun x hx => hes x (List.mem_cons_of_mem _ hx))
      (cleanStep_elems r st e (hes e (List.mem_cons_self _ _)) hst)

theorem joinSlash_head (es : List Str) (h : ∀ x ∈ es, x ≠ [] ∧ '/' ∉ x) :
    (joinSlash es).head? ≠ some '/' := by
  cases es with
  | nil => simp [joinSlash]
  | cons e es =>
    obtain ⟨h1, h2⟩ := h e (List.mem_cons_self _ _)
    cases e with
    | nil => exact absurd rfl h1
    | cons c cs =>
      have hc : c ≠ '/' := fun hc => h2 (hc ▸ List.mem_cons_self _ _)
      cases es with
      | nil => simpa [joinSlash] using hc
      | cons e' es' => simpa [joinSlash] using hc

/-- On a path that is not rooted, `filepath.Clean` gives "." or a path that is
not rooted and no longer than its argument. -/
theorem clean_unrooted (s : Str) (hs : rooted s = false) :
    clean s = dot ∨ (rooted (clean s) = false ∧ (clean s).length ≤ s.length) := by
  have hr : (decide (s.head? = some '/')) = false := by simpa [rooted] using hs
  unfold clean
  simp only [hr, Bool.false_eq_true, if_false]
  split
  · exact Or.inl rfl
  · rename_i hne
    right
    have helems := foldl_cleanStep_elems false (splitSlash s) [] (splitSlash_no_slash s) (by simp)
    refine ⟨?_, ?_⟩
    · have := joinSlash_head (List.foldl (cleanStep false) [] (splitSlash s)).reverse
        (fun x hx => helems x (List.mem_reverse.1 hx))
      simpa [rooted] using this
    · have hk : (List.foldl (cleanStep false) [] (splitSlash s)).reverse ≠ [] := by
        intro h; rw [h] at hne; exact hne rfl
      have h1 := joinSlash_length _ hk
      have h2 := foldl_cleanStep_weight false (splitSlash s) []
      rw [weight_reverse] at h1
      rw [weight_splitSlash, weight_nil] at h2
      omega

theorem clean_append_slash (q : Str) (hq : q ≠ []) : clean (q ++ ['/']) = clean q := by
  unfold clean
  have h1 : (q ++ ['/']).head? = q.head? := by
    cases q with
    | nil => exact absurd rfl hq
    | cons c cs => rfl
  simp only [h1, splitSlash_append_slash, List.foldl_append, List.foldl_cons, List.foldl_nil]
  simp [cleanStep]

theorem clean_nil : clean [] = dot := by decide

/-- The part of a path that `filepath.Dir` cleans is empty or ends in the
separator, and is an initial part of the path. -/
theorem rdropWhile_slash (p : Str) :
    p.rdropWhile (fun c => c != '/') = [] ∨
      ∃ q t, p.rdropWhile (fun c => c != '/') = q ++ ['/'] ∧ p = q ++ '/' :: t := by
  induction p using List.reverseRecOn with
  | nil => left; simp
  | append_singleton l a ih =>
    by_cases ha : a = '/'
    · subst ha
      right
      refine ⟨l, [], ?_, rfl⟩
      rw [List.rdropWhile_concat_neg]; simp
    · rw [List.rdropWhile_concat_pos _ _ _ (by simpa using ha)]
      rcases ih with h | ⟨q, t, h1, h2⟩
      · exact Or.inl h
      · right
        exact ⟨q, t ++ [a], h1, by rw [h2]; simp⟩

/-- One step up from a path that is not rooted and is not a stopping value:
the parent is not rooted either, and is "." or strictly shorter. -/
theorem dir_unrooted (p : Str) (hp : rooted p = false) :
    rooted (dir p) = false ∧ (dir p = dot ∨ (dir p).length < p.length) := by
  unfold dir
  rcases rdropWhile_slash p with h | ⟨q, t, h1, h2⟩
  · rw [h, clean_nil]
    exact ⟨by decide, Or.inl rfl⟩
  · rw [h1]
    have hq : q ≠ [] := by
      intro hq; subst hq; subst h2; simp [rooted] at hp
    have hrq : rooted q = false := by
      cases q with
      | nil => exact absurd rfl hq
      | cons c cs => subst h2; simpa [rooted] using hp
    rw [clean_append_slash q hq]
    rcases clean_unrooted q hrq with h | ⟨h3, h4⟩
    · rw [h]; exact ⟨by decide, Or.inl rfl⟩
    · refine ⟨h3, Or.inr ?_⟩
      have : p.length = q.length + 1 + t.length := by rw [h2]; simp; omega
      omega

/-- The upward walk from a path that is not rooted ends within as many steps
as the path has characters. -/
theorem walkPath_terminates : ∀ (n : Nat) (p : Str), p.length ≤ n → rooted p = false →
    ∃ c, walkPath n p = some c := by
  intro n
  induction n with
  | zero =>
    intro p hl _
    have : p = [] := List.length_eq_zero.1 (by omega)
    exact ⟨[], walkPath_stop (Or.inr this)⟩
  | succ m ih =>
    intro p hl hr
    by_cases hp : p = dot ∨ p = []
    · exact ⟨[], walkPath_stop hp⟩
    · obtain ⟨h1, h2⟩ := dir_unrooted p hr
      rw [walkPath_succ hp]
      rcases h2 with h2 | h2
      · rw [h2, walkPath_stop (Or.inl rfl)]; exact ⟨_, rfl⟩
      · obtain ⟨c, hc⟩ := ih (dir p) (by omega) h1
        rw [hc]; exact ⟨_, rfl⟩

/-- The walk of line 71 ends exactly when the sequence of parents does. -/
theorem walk_of_walkPath : ∀ (fuel : Nat) (p : Str) (c : List Str),
    walkPath fuel p = some c → ∀ seen acc, ∃ r, walk fuel seen p acc = some r := by
  intro fuel
  induction fuel with
  | zero =>
    intro p c h seen acc
    by_cases hp : p = dot ∨ p = []
    · exact ⟨_, walk_stop hp⟩
    · rw [walkPath_zero hp] at h; simp at h
  | succ n ih =>
    intro p c h seen acc
    by_cases hp : p = dot ∨ p = []
    · exact ⟨_, walk_stop hp⟩
    · rw [walkPath_succ hp] at h
      simp only [Option.map_eq_some'] at h
      obtain ⟨a, ha, -⟩ := h
      rw [walk_succ hp]
      split
      · exact ih _ _ ha _ _
      · exact ih _ _ ha _ _

/-! ## Strings -/

theorem hasSuffix_iff (s suffix : Str) : hasSuffix s suffix = true ↔ suffix <:+ s := by
  simp [hasSuffix]

theorem trimSuffix_slash_append (q : Str) : trimSuffix (q ++ slash) slash = q := by
  have h : hasSuffix (q ++ slash) slash = true := (hasSuffix_iff _ _).2 ⟨q, rfl⟩
  rw [trimSuffix, if_pos h]
  simp [slash]

theorem trimSuffix_of_not (s suffix : Str) (h : hasSuffix s suffix = false) :
    trimSuffix s suffix = s := by
  simp [trimSuffix, h]

/-- The canonical name is the stored name, less one trailing separator. -/
theorem canonicalName_cases (f : File) :
    (f.header.Name = canonicalName f ++ slash) ∨
      (hasSuffix f.header.Name slash = false ∧ canonicalName f = f.header.Name) := by
  by_cases h : hasSuffix f.header.Name slash = true
  · left
    obtain ⟨q, hq⟩ := (hasSuffix_iff _ _).1 h
    rw [canonicalName, ← hq, trimSuffix_slash_append]
  · right
    have h' : hasSuffix f.header.Name slash = false := by simpa using h
    exact ⟨h', trimSuffix_of_not _ _ h'⟩

theorem class_not_slash (s : Str) (h : hasSuffix s classSuffix = true) :
    hasSuffix s slash = false := by
  obtain ⟨q, hq⟩ := (hasSuffix_iff _ _).1 h
  by_contra hc
  have hc' : hasSuffix s slash = true := by simpa using hc
  obtain ⟨r, hr⟩ := (hasSuffix_iff _ _).1 hc'
  have h1 := congrArg List.getLast? hq
  have h2 := congrArg List.getLast? hr
  rw [← h2] at h1
  simp [classSuffix, slash, List.getLast?_append] at h1

/-! ## Completion of the run -/

theorem walk_mono (f1 f2 : Nat) (hle : f1 ≤ f2) (seen : List Str) (p : Str) (acc : List Str)
    (r : List Str × List Str) (h : walk f1 seen p acc = some r) :
    walk f2 seen p acc = some r := by
  induction f1 generalizing f2 seen p acc with
  | zero =>
    by_cases hp : p = dot ∨ p = []
    · rw [walk_stop hp] at h ⊢; exact h
    · rw [walk_zero hp] at h; simp at h
  | succ n ih =>
    by_cases hp : p = dot ∨ p = []
    · rw [walk_stop hp] at h ⊢; exact h
    · obtain ⟨m, rfl⟩ : ∃ m, f2 = m + 1 := ⟨f2 - 1, by omega⟩
      rw [walk_succ hp] at h ⊢
      split
      · rename_i hs; rw [if_pos hs] at h; exact ih m (by omega) _ _ _ h
      · rename_i hs; rw [if_neg hs] at h; exact ih m (by omega) _ _ _ h

theorem processEntry_dir (fuel : Nat) (st : State) (f : File)
    (hd : isDirectoryEntry f = true) :
    processEntry fuel st f =
      if canonicalName f ∈ st.seenDirs then some st
      else some { seenDirs := canonicalName f :: st.seenDirs,
                  written := st.written ++ [dirRecord (canonicalName f)] } := by
  simp [processEntry, hd, dirRecord]

theorem processEntry_file_stop (fuel : Nat) (st : State) (f : File)
    (hd : isDirectoryEntry f = false)
    (hp : dir (canonicalName f) = dot ∨ dir (canonicalName f) = []) :
    processEntry fuel st f = some { st with written := st.written ++ [fileRecord f] } := by
  simp [processEntry, hd, hp, fileRecord]

theorem processEntry_file_walk (fuel : Nat) (st : State) (f : File)
    (hd : isDirectoryEntry f = false)
    (hp : ¬ (dir (canonicalName f) = dot ∨ dir (canonicalName f) = [])) :
    processEntry fuel st f =
      (walk fuel st.seenDirs (dir (canonicalName f)) []).map (fun r =>
        { seenDirs := r.1, written := st.written ++ r.2.map dirRecord ++ [fileRecord f] }) := by
  have : (fun d => Entry.dir (dirHeader d)) = dirRecord := rfl
  simp only [processEntry, hd, Bool.false_eq_true, if_false, hp, this]
  cases walk fuel st.seenDirs (dir (canonicalName f)) [] with
  | none => rfl
  | some r => rfl

theorem processEntry_mono (f1 f2 : Nat) (hle : f1 ≤ f2) (st st' : State) (f : File)
    (h : processEntry f1 st f = some st') : processEntry f2 st f = some st' := by
  by_cases hd : isDirectoryEntry f = true
  · rw [processEntry_dir _ _ _ hd] at h ⊢; exact h
  · have hd' : isDirectoryEntry f = false := by simpa using hd
    by_cases hp : dir (canonicalName f) = dot ∨ dir (canonicalName f) = []
    · rw [processEntry_file_stop _ _ _ hd' hp] at h ⊢; exact h
    · rw [processEntry_file_walk _ _ _ hd' hp] at h ⊢
      simp only [Option.map_eq_some'] at h ⊢
      obtain ⟨r, hr, h⟩ := h
      exact ⟨r, walk_mono f1 f2 hle _ _ _ r hr, h⟩

theorem fixJarLoop_mono (f1 f2 : Nat) (hle : f1 ≤ f2) (l : List File) (st st' : State)
    (h : fixJarLoop f1 l st = some st') : fixJarLoop f2 l st = some st' := by
  induction l generalizing st with
  | nil => simpa [fixJarLoop_nil] using h
  | cons f fs ih =>
    rw [fixJarLoop_cons] at h ⊢
    cases hp : processEntry f1 st f with
    | none => rw [hp] at h; simp at h
    | some st1 =>
      rw [hp] at h
      rw [processEntry_mono f1 f2 hle st st1 f hp]
      exact ih st1 h

/-- The outcome of a run that ends does not depend on the fuel. -/
theorem fixJarFile_mono (f1 f2 : Nat) (hle : f1 ≤ f2) (l : List File) (out : List Entry)
    (h : fixJarFile f1 l = some out) : fixJarFile f2 l = some out := by
  obtain ⟨st, h1, h2⟩ := fixJarFile_eq f1 l out h
  simp [fixJarFile, fixJarLoop_mono f1 f2 hle l _ st h1, h2]

/-- An iteration ends when the entry is handled as a directory, and when it is
handled as a file whose canonical name is not rooted, given fuel for as many
steps as the name has characters. -/
theorem processEntry_completes (fuel : Nat) (st : State) (f : File)
    (h : isDirectoryEntry f = false →
      rooted (canonicalName f) = false ∧ (canonicalName f).length ≤ fuel) :
    ∃ st', processEntry fuel st f = some st' := by
  by_cases hd : isDirectoryEntry f = true
  · rw [processEntry_dir _ _ _ hd]
    split <;> exact ⟨_, rfl⟩
  · have hd' : isDirectoryEntry f = false := by simpa using hd
    obtain ⟨hr, hl⟩ := h hd'
    by_cases hp : dir (canonicalName f) = dot ∨ dir (canonicalName f) = []
    · exact ⟨_, processEntry_file_stop _ _ _ hd' hp⟩
    · obtain ⟨h1, h2⟩ := dir_unrooted (canonicalName f) hr
      have h3 : (dir (canonicalName f)).length ≤ fuel := by
        rcases h2 with h2 | h2
        · exact absurd (Or.inl h2) hp
        · omega
      obtain ⟨c, hc⟩ := walkPath_terminates fuel _ h3 h1
      obtain ⟨r, hr⟩ := walk_of_walkPath fuel _ c hc st.seenDirs []
      rw [processEntry_file_walk _ _ _ hd' hp, hr]
      exact ⟨_, rfl⟩

theorem fixJarLoop_completes (fuel : Nat) (l : List File) (st : State)
    (h : ∀ f ∈ l, isDirectoryEntry f = false →
      rooted (canonicalName f) = false ∧ (canonicalName f).length ≤ fuel) :
    ∃ st', fixJarLoop fuel l st = some st' := by
  induction l generalizing st with
  | nil => exact ⟨st, rfl⟩
  | cons f fs ih =>
    rw [fixJarLoop_cons]
    obtain ⟨st1, h1⟩ := processEntry_completes fuel st f (h f (List.mem_cons_self _ _))
    rw [h1]
    exact ih st1 (fun g hg => h g (List.mem_cons_of_mem _ hg))

/-- The run ends on every archive in which no entry handled as a file has a
rooted canonical name, within `enoughFuel` steps a walk. -/
theorem fixJarFile_enough (l : List File) (h : Unrooted l) :
    ∃ out, fixJarFile (enoughFuel l) l = some out := by
  obtain ⟨st, hst⟩ := fixJarLoop_completes (enoughFuel l) l { seenDirs := [], written := [] }
    (fun f hf hd => ⟨h f hf hd,
      List.single_le_sum (by simp) _ (List.mem_map.2 ⟨f, hf, rfl⟩)⟩)
  exact ⟨st.written, by simp [fixJarFile, hst]⟩

/-! ## Classification and the records written for an entry -/

theorem isDirectoryEntry_iff (f : File) :
    isDirectoryEntry f = true ↔
      (modeIsDir f.header = true ∧ f.header.UncompressedSize64 = 0 ∧
        hasSuffix (canonicalName f) classSuffix = false) := by
  unfold isDirectoryEntry isClassFile
  cases modeIsDir f.header <;> cases hasSuffix (canonicalName f) classSuffix <;>
    by_cases h : f.header.UncompressedSize64 = 0 <;> simp [h]

theorem fixJarFile_seenInv (fuel : Nat) (l : List File) (out : List Entry)
    (hrun : fixJarFile fuel l = some out) :
    ∃ seen : List Str, seen.Nodup ∧ (dirEntries out).Perm (seen.map dirRecord) ∧
      ∀ f ∈ l, isDirectoryEntry f = true → canonicalName f ∈ seen := by
  obtain ⟨st, h1, h2⟩ := fixJarFile_eq fuel l out hrun
  obtain ⟨hn, hp⟩ := fixJarLoop_seenInv fuel l _ st h1 seenInv_init
  refine ⟨st.seenDirs, hn, h2 ▸ hp, ?_⟩
  intro f hf hd
  obtain ⟨l1, l2, rfl⟩ := List.append_of_mem hf
  rw [fixJarLoop_append] at h1
  cases hst1 : fixJarLoop fuel l1 { seenDirs := [], written := [] } with
  | none => rw [hst1] at h1; simp at h1
  | some st1 =>
    rw [hst1, Option.some_bind, fixJarLoop_cons] at h1
    cases hst2 : processEntry fuel st1 f with
    | none => rw [hst2] at h1; simp at h1
    | some st2 =>
      rw [hst2, Option.some_bind] at h1
      obtain ⟨_, -, -, -, -, k5, -⟩ := processEntry_spec fuel st1 st2 f hst2
      obtain ⟨_, new, -, m2, -⟩ := fixJarLoop_written fuel l2 st2 st h1
      rw [m2]
      exact List.mem_append_right _ (k5 hd).1

/-- On a run that ends, an entry handled as a directory has exactly one
directory record of its name in the output. -/
theorem directory_once_of_run (fuel : Nat) (l : List File) (out : List Entry) (f : File)
    (hrun : fixJarFile fuel l = some out) (hf : f ∈ l) (hd : isDirectoryEntry f = true) :
    out.filter (fun e => e.isDir && e.header.Name == canonicalName f ++ slash) =
      [dirRecord (canonicalName f)] := by
  obtain ⟨seen, hn, hp, hmem⟩ := fixJarFile_seenInv fuel l out hrun
  have h1 : out.filter (fun e => e.isDir && e.header.Name == canonicalName f ++ slash) =
      (dirEntries out).filter (fun e => e.header.Name == canonicalName f ++ slash) := by
    rw [dirEntries, List.filter_filter]
    congr 1
    funext e
    exact Bool.and_comm _ _
  have h2 : (seen.map dirRecord).filter (fun e => e.header.Name == canonicalName f ++ slash) =
      (seen.filter (fun p => p == canonicalName f)).map dirRecord := by
    rw [List.filter_map]
    congr 1
    apply List.filter_congr
    intro p _
    simp [dirRecord, Entry.header, dirHeader_name]
  have h3 : seen.filter (fun p => p == canonicalName f) = [canonicalName f] := by
    have hm := hmem f hf hd
    clear hp hmem h2
    induction seen with
    | nil => simp at hm
    | cons a t ih =>
      obtain ⟨ha, ht⟩ := List.nodup_cons.1 hn
      rcases List.mem_cons.1 hm with h | h
      · subst h
        have : t.filter (fun p => p == canonicalName f) = [] := by
          simp only [List.filter_eq_nil_iff, beq_iff_eq]
          intro x hx hxa; exact ha (hxa ▸ hx)
        simp [List.filter_cons, this]
      · have hne : a ≠ canonicalName f := fun e => ha (e ▸ h)
        simp [List.filter_cons, hne, ih ht h]
  have h4 := hp.filter (fun e => e.header.Name == canonicalName f ++ slash)
  rw [h2, h3] at h4
  rw [h1]
  exact List.perm_singleton.1 h4

/-! ## Paths of plain segments -/

theorem splitSlash_no_sep (e : Str) (h : '/' ∉ e) : splitSlash e = [e] := by
  induction e with
  | nil => rfl
  | cons c cs ih =>
    have hc : c ≠ '/' := fun hc => h (hc ▸ List.mem_cons_self _ _)
    obtain ⟨e0, es, h1, h2⟩ := splitSlash_cons_other c cs hc
    rw [ih (fun hm => h (List.mem_cons_of_mem _ hm))] at h1
    simp only [List.cons.injEq] at h1
    rw [h2, ← h1.1, ← h1.2]

theorem splitSlash_append_sep (e rest : Str) (h : '/' ∉ e) :
    splitSlash (e ++ '/' :: rest) = e :: splitSlash rest := by
  induction e with
  | nil => simp [splitSlash_cons_slash]
  | cons c cs ih =>
    have hc : c ≠ '/' := fun hc => h (hc ▸ List.mem_cons_self _ _)
    obtain ⟨e0, es, h1, h2⟩ := splitSlash_cons_other c (cs ++ '/' :: rest) hc
    rw [ih (fun hm => h (List.mem_cons_of_mem _ hm))] at h1
    simp only [List.cons.injEq] at h1
    rw [List.cons_append, h2, ← h1.1, ← h1.2]

theorem splitSlash_joinSlash (ds : List Str) (hne : ds ≠ []) (h : ∀ s ∈ ds, '/' ∉ s) :
    splitSlash (joinSlash ds) = ds := by
  induction ds with
  | nil => exact absurd rfl hne
  | cons e es ih =>
    cases es with
    | nil => simpa [joinSlash] using splitSlash_no_sep e (h e (List.mem_cons_self _ _))
    | cons e' es' =>
      rw [joinSlash_cons_cons, splitSlash_append_sep _ _ (h e (List.mem_cons_self _ _)),
        ih (by simp) (fun s hs => h s (List.mem_cons_of_mem _ hs))]

theorem foldl_cleanStep_nice (r : Bool) (ds st : List Str) (h : ∀ s ∈ ds, NiceSeg s) :
    ds.foldl (cleanStep r) st = ds.reverse ++ st := by
  induction ds generalizing st with
  | nil => rfl
  | cons e es ih =>
    obtain ⟨h1, -, h3, h4⟩ := h e (List.mem_cons_self _ _)
    rw [List.foldl_cons, ih _ (fun s hs => h s (List.mem_cons_of_mem _ hs))]
    simp [cleanStep, h1, h3, h4]

theorem joinSlash_ne_nil (ds : List Str) (hne : ds ≠ []) (h : ∀ s ∈ ds, NiceSeg s) :
    joinSlash ds ≠ [] := by
  cases ds with
  | nil => exact absurd rfl hne
  | cons e es =>
    cases es with
    | nil => simpa [joinSlash] using (h e (List.mem_cons_self _ _)).1
    | cons e' es' => simp [joinSlash_cons_cons]

theorem joinSlash_not_stop (ds : List Str) (hne : ds ≠ []) (h : ∀ s ∈ ds, NiceSeg s) :
    ¬ (joinSlash ds = dot ∨ joinSlash ds = []) := by
  rintro (h1 | h1)
  · cases ds with
    | nil => exact absurd rfl hne
    | cons e es =>
      cases es with
      | nil => exact (h e (List.mem_cons_self _ _)).2.2.1 (by simpa [joinSlash] using h1)
      | cons e' es' =>
        rw [joinSlash_cons_cons] at h1
        have := congrArg List.length h1
        have he : e ≠ [] := (h e (List.mem_cons_self _ _)).1
        have : 0 < e.length := List.length_pos.2 he
        simp [dot] at *
        omega
  · exact joinSlash_ne_nil ds hne h h1

theorem clean_joinSlash (ds : List Str) (hne : ds ≠ []) (h : ∀ s ∈ ds, NiceSeg s) :
    clean (joinSlash ds) = joinSlash ds := by
  have hhead : (joinSlash ds).head? ≠ some '/' :=
    joinSlash_head ds (fun x hx => ⟨(h x hx).1, (h x hx).2.1⟩)
  have hr : decide ((joinSlash ds).head? = some '/') = false := by simpa using hhead
  unfold clean
  simp only [hr, Bool.false_eq_true, if_false]
  rw [splitSlash_joinSlash ds hne (fun s hs => (h s hs).2.1), foldl_cleanStep_nice _ _ _ h]
  simp [joinSlash_ne_nil ds hne h]

theorem joinSlash_concat (ds : List Str) (x : Str) (hne : ds ≠ []) :
    joinSlash (ds ++ [x]) = joinSlash ds ++ '/' :: x := by
  induction ds with
  | nil => exact absurd rfl hne
  | cons e es ih =>
    cases es with
    | nil => simp [joinSlash]
    | cons e' es' =>
      rw [List.cons_append, List.cons_append, joinSlash_cons_cons, joinSlash_cons_cons,
        ← List.cons_append, ih (by simp)]
      simp

theorem rdropWhile_after_slash (l x : Str) (h : '/' ∉ x) :
    (l ++ '/' :: x).rdropWhile (fun c => c != '/') = l ++ ['/'] := by
  induction x using List.reverseRecOn with
  | nil => rw [List.rdropWhile_concat_neg]; simp
  | append_singleton x' c ih =>
    have hc : c ≠ '/' := fun hc => h (by simp [hc])
    have : l ++ '/' :: (x' ++ [c]) = (l ++ '/' :: x') ++ [c] := by simp
    rw [this, List.rdropWhile_concat_pos _ _ _ (by simpa using hc)]
    exact ih (fun hm => h (by simp [hm]))

theorem rdropWhile_no_slash (x : Str) (h : '/' ∉ x) :
    x.rdropWhile (fun c => c != '/') = [] := by
  induction x using List.reverseRecOn with
  | nil => simp
  | append_singleton x' c ih =>
    have hc : c ≠ '/' := fun hc => h (by simp [hc])
    rw [List.rdropWhile_concat_pos _ _ _ (by simpa using hc)]
    exact ih (fun hm => h (by simp [hm]))

/-- The parent of `d1/.../dk/x` is `d1/.../dk`. -/
theorem dir_joinSlash_concat (ds : List Str) (x : Str) (hne : ds ≠ [])
    (h : ∀ s ∈ ds, NiceSeg s) (hx : '/' ∉ x) :
    dir (joinSlash (ds ++ [x])) = joinSlash ds := by
  rw [dir, joinSlash_concat ds x hne, rdropWhile_after_slash _ _ hx,
    clean_append_slash _ (joinSlash_ne_nil ds hne h), clean_joinSlash ds hne h]

/-- The parent of a single segment is ".". -/
theorem dir_single (x : Str) (hx : '/' ∉ x) : dir x = dot := by
  rw [dir, rdropWhile_no_slash x hx, clean_nil]

theorem ancestorPaths_nil : ancestorPaths [] = [] := rfl

theorem ancestorPaths_concat (ds : List Str) (d : Str) :
    ancestorPaths (ds ++ [d]) = ancestorPaths ds ++ [joinSlash (ds ++ [d])] := by
  unfold ancestorPaths
  rw [List.length_append, List.length_singleton, List.range_succ, List.map_append]
  congr 1
  · apply List.map_congr_left
    intro i hi
    have hi' : i + 1 ≤ ds.length := by simpa using List.mem_range.1 hi
    rw [List.take_append_of_le_length hi']
  · have : List.take (ds.length + 1) (ds ++ [d]) = ds ++ [d] :=
      List.take_of_length_le (by simp)
    simp [this]

/-! ## Records and what stands before them -/

theorem eachAfter_append (Q : List Entry → Entry → Prop) (before x y : List Entry) :
    EachAfter Q before (x ++ y) ↔ EachAfter Q before x ∧ EachAfter Q (before ++ x) y := by
  induction x generalizing before with
  | nil => simp [EachAfter]
  | cons e es ih =>
    have h1 : before ++ [e] ++ es = before ++ e :: es := by simp
    have h2 := ih (before ++ [e])
    rw [h1] at h2
    show Q before e ∧ EachAfter Q (before ++ [e]) (es ++ y) ↔ _
    rw [h2]
    simp only [EachAfter, and_assoc]

theorem eachAfter_split (Q : List Entry → Entry → Prop) (a : List Entry) (e : Entry)
    (b : List Entry) (h : EachAfter Q [] (a ++ e :: b)) : Q a e ∧ EachAfter Q [] a := by
  rw [eachAfter_append] at h
  exact ⟨by simpa [EachAfter] using h.2.1, h.1⟩

theorem eachAfter_singleton (Q : List Entry → Entry → Prop) (before : List Entry) (e : Entry) :
    EachAfter Q before [e] ↔ Q before e := by
  simp [EachAfter]

/-! ## Order of the records written -/

theorem mem_seen_iff (st : State) (h : SeenInv st) (p : Str) :
    p ∈ st.seenDirs ↔ dirRecord p ∈ st.written := by
  have h1 : dirRecord p ∈ dirEntries st.written ↔ dirRecord p ∈ st.seenDirs.map dirRecord :=
    h.2.mem_iff
  have h2 : dirRecord p ∈ dirEntries st.written ↔ dirRecord p ∈ st.written := by
    simp [dirEntries]
  rw [← h2, h1, List.mem_map]
  constructor
  · intro hp; exact ⟨p, hp, rfl⟩
  · rintro ⟨q, hq, he⟩; rw [← dirRecord_injective he]; exact hq

theorem dirRecord_ne_fileRecord (p : Str) (f : File) : fileRecord f ≠ dirRecord p := by
  simp [fileRecord, dirRecord]

theorem eachAfter_ancestors_dirs (fuel : Nat) (l : List Str) (before : List Entry) :
    EachAfter (AncestorsBefore fuel) before (l.map dirRecord) := by
  induction l generalizing before with
  | nil => simp [EachAfter]
  | cons a t ih =>
    simp only [List.map_cons, EachAfter]
    exact ⟨fun h => by simp at h, ih _⟩

theorem eachAfter_parent_new (written : List Entry) (seen : List Str)
    (hseen : ∀ p ∈ seen, dirRecord p ∈ written) (B A : List Str)
    (h : ∀ A' d B', A ++ B = A' ++ d :: B' → (dir d = dot ∨ dir d = []) ∨ dir d ∈ A' ++ seen) :
    EachAfter ParentBefore (written ++ A.map dirRecord) (B.map dirRecord) := by
  induction B generalizing A with
  | nil => simp [EachAfter]
  | cons d B' ih =>
    simp only [List.map_cons, EachAfter]
    refine ⟨?_, ?_⟩
    · intro p hp
      have hpd : d = p := dirRecord_injective hp
      subst hpd
      rcases h A d B' rfl with h1 | h1
      · exact Or.inl h1
      · right
        rcases List.mem_append.1 h1 with h2 | h2
        · exact List.mem_append_right _ (List.mem_map_of_mem _ h2)
        · exact List.mem_append_left _ (hseen _ h2)
    · have := ih (A ++ [d]) (by simpa using h)
      simpa using this

theorem processEntry_ancestorsInv (fuel : Nat) (st st' : State) (f : File)
    (h : processEntry fuel st f = some st') (hs : SeenInv st)
    (hinv : EachAfter (AncestorsBefore fuel) [] st.written) :
    EachAfter (AncestorsBefore fuel) [] st'.written := by
  obtain ⟨new, h1, h2, -, -, -, h6⟩ := processEntry_spec fuel st st' f h
  rw [h2, eachAfter_append, eachAfter_append]
  refine ⟨⟨hinv, eachAfter_ancestors_dirs fuel new _⟩, ?_⟩
  by_cases hd : isDirectoryEntry f = true
  · simp [hd, EachAfter]
  · have hd' : isDirectoryEntry f = false := by simpa using hd
    obtain ⟨c, hc, hmem, -⟩ := h6 hd'
    simp only [hd', Bool.false_eq_true, if_false, eachAfter_singleton, List.nil_append]
    intro _
    refine ⟨c, hc, ?_⟩
    intro d hdc
    have := hmem d hdc
    rw [h1] at this
    rcases List.mem_append.1 this with h3 | h3
    · exact List.mem_append_right _ (List.mem_map_of_mem _ h3)
    · exact List.mem_append_left _ ((mem_seen_iff st hs d).1 h3)

theorem processEntry_parentInv (fuel : Nat) (st st' : State) (f : File)
    (h : processEntry fuel st f = some st') (hd : isDirectoryEntry f = false) (hs : SeenInv st)
    (hinv : EachAfter ParentBefore [] st.written) :
    EachAfter ParentBefore [] st'.written := by
  obtain ⟨new, h1, h2, -, -, -, h6⟩ := processEntry_spec fuel st st' f h
  obtain ⟨c, -, -, -, h8⟩ := h6 hd
  rw [h2, eachAfter_append, eachAfter_append]
  refine ⟨⟨hinv, ?_⟩, ?_⟩
  · have := eachAfter_parent_new st.written st.seenDirs
      (fun p hp => (mem_seen_iff st hs p).1 hp) new [] (by simpa using h8)
    simpa using this
  · simp only [hd, Bool.false_eq_true, if_false, eachAfter_singleton]
    intro p hp
    exact absurd hp (dirRecord_ne_fileRecord p f)

/-- The directory on which a walk that ends is restarted, one step up. -/
theorem walkPath_parent (fuel : Nat) (p : Str) (Y : List Str)
    (h : walkPath fuel p = some (p :: Y)) : walkPath fuel (dir p) = some Y := by
  by_cases hp : p = dot ∨ p = []
  · rw [walkPath_stop hp] at h; simp at h
  · cases fuel with
    | zero => rw [walkPath_zero hp] at h; simp at h
    | succ n =>
      rw [walkPath_succ hp] at h
      simp only [Option.map_eq_some', List.cons.injEq, true_and, exists_eq_right] at h
      exact walkPath_mono n (n + 1) _ _ (by omega) h

theorem processEntry_walkInv (fuel : Nat) (st st' : State) (f : File)
    (h : processEntry fuel st f = some st') (hd : isDirectoryEntry f = false)
    (hinv : ∀ p ∈ st.seenDirs, ∃ c, walkPath fuel (dir p) = some c) :
    ∀ p ∈ st'.seenDirs, ∃ c, walkPath fuel (dir p) = some c := by
  obtain ⟨new, h1, -, -, -, -, h6⟩ := processEntry_spec fuel st st' f h
  obtain ⟨c, hc, -, h7, -⟩ := h6 hd
  intro p hp
  rw [h1] at hp
  rcases List.mem_append.1 hp with h3 | h3
  · obtain ⟨X, Y, rfl⟩ := List.append_of_mem (h7 p h3)
    exact ⟨Y, walkPath_parent fuel p Y (walkPath_suffix fuel _ X p Y hc)⟩
  · exact hinv p h3

/-- The invariants of the entry loop. The last two need every entry to be
handled as a file: a directory entry carried over from the source is written
where it stands, whether or not its parent has been written. -/
theorem fixJarLoop_order (fuel : Nat) (l : List File) (st st' : State)
    (h : fixJarLoop fuel l st = some st') (hs : SeenInv st)
    (ha : EachAfter (AncestorsBefore fuel) [] st.written) :
    EachAfter (AncestorsBefore fuel) [] st'.written ∧
    ((∀ g ∈ l, isDirectoryEntry g = false) → EachAfter ParentBefore [] st.written →
      (∀ p ∈ st.seenDirs, ∃ c, walkPath fuel (dir p) = some c) →
      EachAfter ParentBefore [] st'.written ∧
        ∀ p ∈ st'.seenDirs, ∃ c, walkPath fuel (dir p) = some c) := by
  induction l generalizing st with
  | nil =>
    simp [fixJarLoop_nil] at h; subst h
    exact ⟨ha, fun _ hp hw => ⟨hp, hw⟩⟩
  | cons f fs ih =>
    rw [fixJarLoop_cons] at h
    cases hp : processEntry fuel st f with
    | none => rw [hp] at h; simp at h
    | some st1 =>
      rw [hp] at h
      obtain ⟨i1, i2⟩ := ih st1 h (processEntry_seenInv fuel st st1 f hp hs)
        (processEntry_ancestorsInv fuel st st1 f hp hs ha)
      refine ⟨i1, ?_⟩
      intro hfiles hpar hwalk
      have hd := hfiles f (List.mem_cons_self _ _)
      exact i2 (fun g hg => hfiles g (List.mem_cons_of_mem _ hg))
        (processEntry_parentInv fuel st st1 f hp hd hs hpar)
        (processEntry_walkInv fuel st st1 f hp hd hwalk)

/-- The states of a run that ends, before and after the entry `f`. -/
theorem fixJarFile_states (fuel : Nat) (l1 : List File) (f : File) (l2 : List File)
    (out : List Entry) (hrun : fixJarFile fuel (l1 ++ f :: l2) = some out) :
    ∃ st1 st2 st, fixJarLoop fuel l1 { seenDirs := [], written := [] } = some st1 ∧
      processEntry fuel st1 f = some st2 ∧ fixJarLoop fuel l2 st2 = some st ∧
      st.written = out := by
  obtain ⟨st, h1, h2⟩ := fixJarFile_eq fuel _ out hrun
  rw [fixJarLoop_append] at h1
  cases hst1 : fixJarLoop fuel l1 { seenDirs := [], written := [] } with
  | none => rw [hst1] at h1; simp at h1
  | some st1 =>
    rw [hst1, Option.some_bind, fixJarLoop_cons] at h1
    cases hst2 : processEntry fuel st1 f with
    | none => rw [hst2] at h1; simp at h1
    | some st2 =>
      rw [hst2, Option.some_bind] at h1
      exact ⟨st1, st2, st, rfl, hst2, h1, h2⟩

/-- What holds of the archive written by a run that ends. -/
theorem fixJarFile_order (fuel : Nat) (l : List File) (out : List Entry)
    (hrun : fixJarFile fuel l = some out) :
    (dirEntries out).Nodup ∧ (∀ e ∈ out, e.isDir = true → ∃ p, e = dirRecord p) ∧
    EachAfter (AncestorsBefore fuel) [] out ∧
    ((∀ g ∈ l, isDirectoryEntry g = false) →
      EachAfter ParentBefore [] out ∧
        ∀ p, dirRecord p ∈ out → ∃ c, walkPath fuel (dir p) = some c) := by
  obtain ⟨st, h1, h2⟩ := fixJarFile_eq fuel l out hrun
  have hs := fixJarLoop_seenInv fuel l _ st h1 seenInv_init
  obtain ⟨i1, i2⟩ := fixJarLoop_order fuel l _ st h1 seenInv_init (by simp [EachAfter])
  subst h2
  refine ⟨?_, ?_, i1, ?_⟩
  · rw [hs.2.nodup_iff]
    exact hs.1.map dirRecord_injective
  · intro e he hd
    have : e ∈ dirEntries st.written := by simp [dirEntries, he, hd]
    obtain ⟨p, -, hp⟩ := List.mem_map.1 (hs.2.mem_iff.1 this)
    exact ⟨p, hp.symm⟩
  · intro hfiles
    obtain ⟨j1, j2⟩ := i2 hfiles (by simp [EachAfter]) (by simp)
    exact ⟨j1, fun p hp => j2 p ((mem_seen_iff st hs p).2 hp)⟩

/-- A directory record that stands before a place in the archive does not
stand after it. -/
theorem dirRecord_not_after (out a b : List Entry) (e : Entry) (p : Str)
    (hn : (dirEntries out).Nodup) (ho : out = a ++ e :: b) (ha : dirRecord p ∈ a) :
    e ≠ dirRecord p ∧ dirRecord p ∉ b := by
  subst ho
  rw [dirEntries_append] at hn
  have hdis := (List.nodup_append.1 hn).2.2
  have ha' : dirRecord p ∈ dirEntries a := by simp [dirEntries, ha]
  have : dirRecord p ∉ dirEntries (e :: b) := fun hb => hdis ha' hb
  constructor
  · intro he; apply this; simp [dirEntries, he]
  · intro hb; apply this; simp [dirEntries, hb]

/-- A directory record of the archive is the only record with its name among
the directory records. -/
theorem dirRecord_once (out : List Entry) (p : Str) (hn : (dirEntries out).Nodup)
    (hform : ∀ e ∈ out, e.isDir = true → ∃ q, e = dirRecord q) (hp : dirRecord p ∈ out) :
    out.filter (fun e => e.isDir && e.header.Name == p ++ slash) = [dirRecord p] := by
  induction out with
  | nil => simp at hp
  | cons e t ih =>
    have hn' : (dirEntries t).Nodup := by
      have : dirEntries (e :: t) = dirEntries [e] ++ dirEntries t := dirEntries_append [e] t
      rw [this] at hn
      exact (List.nodup_append.1 hn).2.1
    have hform' : ∀ e' ∈ t, e'.isDir = true → ∃ q, e' = dirRecord q :=
      fun e' he' => hform e' (List.mem_cons_of_mem _ he')
    have hpred : ∀ e' : Entry, e' ≠ dirRecord p → (e'.isDir = true → ∃ q, e' = dirRecord q) →
        (e'.isDir && e'.header.Name == p ++ slash) = false := by
      intro e' hne hf
      cases hd : e'.isDir with
      | false => rfl
      | true =>
        obtain ⟨q, rfl⟩ := hf hd
        have hqp : q ≠ p := fun h => hne (h ▸ rfl)
        simpa [dirRecord, Entry.header, dirHeader_name] using hqp
    by_cases he : e = dirRecord p
    · subst he
      have hnot : dirRecord p ∉ t := by
        intro hmem
        have h1 : dirEntries (dirRecord p :: t) = dirRecord p :: dirEntries t := by
          simp [dirEntries]
        rw [h1] at hn
        exact (List.nodup_cons.1 hn).1 (by simp [dirEntries, hmem])
      have hnil : t.filter (fun e => e.isDir && e.header.Name == p ++ slash) = [] := by
        rw [List.filter_eq_nil_iff]
        intro e' he'
        have := hpred e' (fun h => hnot (h ▸ he')) (hform' e' he')
        simp [this]
      rw [List.filter_cons, hnil]
      simp [dirRecord, Entry.isDir, Entry.header, dirHeader_name]
    · have hpt : dirRecord p ∈ t := by
        rcases List.mem_cons.1 hp with h | h
        · exact absurd h.symm he
        · exact h
      rw [List.filter_cons, hpred e he (hform e (List.mem_cons_self _ _))]
      simpa using ih hn' hform' hpt

/-! ## Ancestors before descendants -/

/-- In an archive in which every directory record stands after its parent's,
the record of `d1/.../dk` has the records of `d1/`, ..., `d1/.../dk/` before
and up to it, in that order. -/
theorem ancestorPaths_sublist (ds : List Str) (h : ∀ s ∈ ds, NiceSeg s) (hne : ds ≠ [])
    (a : List Entry) (ha : EachAfter ParentBefore [] a) (hmem : dirRecord (joinSlash ds) ∈ a) :
    ((ancestorPaths ds).map dirRecord).Sublist a := by
  induction ds using List.reverseRecOn generalizing a with
  | nil => exact absurd rfl hne
  | append_singleton ds' d ih =>
    obtain ⟨a1, a2, rfl⟩ := List.append_of_mem hmem
    obtain ⟨hq, ha1⟩ := eachAfter_split _ _ _ _ ha
    rw [ancestorPaths_concat, List.map_append]
    have hds' : ∀ s ∈ ds', NiceSeg s := fun s hs => h s (List.mem_append_left _ hs)
    have hd : NiceSeg d := h d (by simp)
    by_cases hnil : ds' = []
    · subst hnil
      simp [ancestorPaths_nil]
    · have hdir := dir_joinSlash_concat ds' d hnil hds' hd.2.1
      have hpar : dirRecord (joinSlash ds') ∈ a1 := by
        rcases hq (joinSlash (ds' ++ [d])) rfl with h1 | h1
        · rw [hdir] at h1; exact absurd h1 (joinSlash_not_stop ds' hnil hds')
        · rw [hdir] at h1; exact h1
      have := ih hds' hnil a1 ha1 hpar
      exact List.Sublist.append this (by simp)

theorem walkPath_head (fuel : Nat) (p : Str) (c : List Str) (h : walkPath fuel p = some c)
    (hp : ¬ (p = dot ∨ p = [])) : p ∈ c := by
  cases fuel with
  | zero => rw [walkPath_zero hp] at h; simp at h
  | succ n =>
    rw [walkPath_succ hp] at h
    simp only [Option.map_eq_some'] at h
    obtain ⟨a, -, rfl⟩ := h
    simp

/-- On a run that ends on an archive without directory entries, the records of
the directories above a file of plain segments stand before the file record,
outermost first, each the only record of its name. -/
theorem ancestor_synthesis_of_run (fuel : Nat) (l1 : List File) (f : File) (l2 : List File)
    (out : List Entry) (ds : List Str) (x : Str)
    (hrun : fixJarFile fuel (l1 ++ f :: l2) = some out)
    (hfiles : ∀ g ∈ l1 ++ f :: l2, isDirectoryEntry g = false)
    (hname : canonicalName f = joinSlash (ds ++ [x])) (hne : ds ≠ [])
    (hds : ∀ s ∈ ds, NiceSeg s) (hx : '/' ∉ x) :
    ∃ a b, out = a ++ fileRecord f :: b ∧ fileEntries a = fileRecords l1 ∧
      ((ancestorPaths ds).map dirRecord).Sublist a ∧
      ∀ p ∈ ancestorPaths ds,
        out.filter (fun e => e.isDir && e.header.Name == p ++ slash) = [dirRecord p] := by
  obtain ⟨hnodup, hform, -, hord⟩ := fixJarFile_order fuel _ out hrun
  obtain ⟨hpar, -⟩ := hord hfiles
  obtain ⟨st1, st2, st, g1, g2, g3, g4⟩ := fixJarFile_states fuel l1 f l2 out hrun
  have hf : isDirectoryEntry f = false := hfiles f (by simp)
  have hs1 := fixJarLoop_seenInv fuel l1 _ st1 g1 seenInv_init
  obtain ⟨d1, -, k1, -, k3⟩ := fixJarLoop_written fuel l1 _ st1 g1
  obtain ⟨new, m1, m2, -, -, -, m6⟩ := processEntry_spec fuel st1 st2 f g2
  obtain ⟨d3, -, n1, -, -⟩ := fixJarLoop_written fuel l2 st2 st g3
  obtain ⟨c, hc, hcmem, -⟩ := m6 hf
  simp only [List.nil_append] at k1
  have hout : out = (st1.written ++ new.map dirRecord) ++ fileRecord f :: d3 := by
    rw [← g4, n1, m2]; simp [hf]
  have hdir : dir (canonicalName f) = joinSlash ds := by
    rw [hname]; exact dir_joinSlash_concat ds x hne hds hx
  have hin : dirRecord (joinSlash ds) ∈ st1.written ++ new.map dirRecord := by
    rw [hdir] at hc
    have h1 := hcmem _ (walkPath_head fuel _ c hc (joinSlash_not_stop ds hne hds))
    rw [m1] at h1
    rcases List.mem_append.1 h1 with h2 | h2
    · exact List.mem_append_right _ (List.mem_map_of_mem _ h2)
    · exact List.mem_append_left _ ((mem_seen_iff st1 hs1 _).1 h2)
  have hpar' : EachAfter ParentBefore [] (st1.written ++ new.map dirRecord) := by
    rw [hout, eachAfter_append] at hpar
    exact hpar.1
  have hsub := ancestorPaths_sublist ds hds hne _ hpar' hin
  refine ⟨st1.written ++ new.map dirRecord, d3, hout, ?_, hsub, ?_⟩
  · rw [fileEntries_append, fileEntries_map_dirRecord, k1, k3]; simp
  · intro p hp
    apply dirRecord_once out p hnodup hform
    rw [hout]
    exact List.mem_append_left _ (hsub.subset (List.mem_map_of_mem _ hp))

/-- In an archive in which every directory record stands after its parent's,
a directory record stands after the records of all the directories on the
upward walk from its parent. -/
theorem ancestors_of_parentBefore : ∀ (n : Nat) (a : List Entry) (p : Str) (c : List Str),
    EachAfter ParentBefore [] a →
    ((dir p = dot ∨ dir p = []) ∨ dirRecord (dir p) ∈ a) →
    walkPath n (dir p) = some c → ∀ q ∈ c, dirRecord q ∈ a := by
  intro n
  induction n with
  | zero =>
    intro a p c _ _ hw q hq
    by_cases hp : dir p = dot ∨ dir p = []
    · rw [walkPath_stop hp] at hw; simp at hw; subst hw; simp at hq
    · rw [walkPath_zero hp] at hw; simp at hw
  | succ m ih =>
    intro a p c ha hpar hw q hq
    by_cases hp : dir p = dot ∨ dir p = []
    · rw [walkPath_stop hp] at hw; simp at hw; subst hw; simp at hq
    · rw [walkPath_succ hp] at hw
      simp only [Option.map_eq_some'] at hw
      obtain ⟨c', hc', rfl⟩ := hw
      have hmem : dirRecord (dir p) ∈ a := hpar.resolve_left hp
      rcases List.mem_cons.1 hq with rfl | hq'
      · exact hmem
      · obtain ⟨a1, a2, rfl⟩ := List.append_of_mem hmem
        obtain ⟨hQ, ha1⟩ := eachAfter_split _ _ _ _ ha
        exact List.mem_append_left _ (ih a1 (dir p) c' ha1 (hQ (dir p) rfl) hc' q hq')

/-- On a run that ends, the directories on the upward walk from a file stand
before it; without directory entries in the input, the same holds of every
directory record. -/
theorem ancestors_before_of_run (fuel : Nat) (l : List File) (out : List Entry)
    (hrun : fixJarFile fuel l = some out) :
    (∀ a e b, out = a ++ e :: b → e.isDir = false →
      ∃ c, walkPath fuel (dir e.header.Name) = some c ∧
        ∀ d ∈ c, dirRecord d ∈ a ∧ dirRecord d ∉ b) ∧
    ((∀ g ∈ l, isDirectoryEntry g = false) →
      ∀ a p b, out = a ++ dirRecord p :: b →
        ∃ c, walkPath fuel (dir p) = some c ∧
          ∀ q ∈ c, dirRecord q ∈ a ∧ dirRecord q ∉ b) := by
  obtain ⟨hnodup, -, hanc, hord⟩ := fixJarFile_order fuel l out hrun
  refine ⟨?_, ?_⟩
  · intro a e b ho he
    have ho' := ho
    subst ho
    obtain ⟨hQ, -⟩ := eachAfter_split _ _ _ _ hanc
    obtain ⟨c, hc, hmem⟩ := hQ he
    exact ⟨c, hc, fun d hd =>
      ⟨hmem d hd, (dirRecord_not_after _ a b e d hnodup rfl (hmem d hd)).2⟩⟩
  · intro hfiles a p b ho
    obtain ⟨hpar, hwalk⟩ := hord hfiles
    subst ho
    obtain ⟨c, hc⟩ := hwalk p (by simp)
    obtain ⟨hQ, ha⟩ := eachAfter_split _ _ _ _ hpar
    refine ⟨c, hc, fun q hq => ?_⟩
    have hqa := ancestors_of_parentBefore fuel a p c ha (hQ p rfl) hc q hq
    exact ⟨hqa, (dirRecord_not_after _ a b _ q hnodup rfl hqa).2⟩

/-! ## A second run on the output of the first -/

theorem readBack_reread (e : Entry) : ReadBack e (reread e) := by
  cases e <;> exact ⟨rfl, rfl, rfl, rfl, rfl⟩

theorem modeIsDir_congr (h1 h2 : FileHeader) (hn : h1.Name = h2.Name)
    (hc : h1.CreatorVersion >>> 8 = h2.CreatorVersion >>> 8)
    (ha : h1.ExternalAttrs = h2.ExternalAttrs) : modeIsDir h1 = modeIsDir h2 := by
  unfold modeIsDir
  simp only [hn, hc, ha]

theorem walk_all_seen : ∀ (fuel : Nat) (p : Str) (c seen acc : List Str),
    walkPath fuel p = some c → (∀ d ∈ c, d ∈ seen) → walk fuel seen p acc = some (seen, acc) := by
  intro fuel
  induction fuel with
  | zero =>
    intro p c seen acc h _
    by_cases hp : p = dot ∨ p = []
    · exact walk_stop hp
    · rw [walkPath_zero hp] at h; simp at h
  | succ n ih =>
    intro p c seen acc h hall
    by_cases hp : p = dot ∨ p = []
    · exact walk_stop hp
    · rw [walkPath_succ hp] at h
      simp only [Option.map_eq_some'] at h
      obtain ⟨c', hc', rfl⟩ := h
      rw [walk_succ hp, if_pos (hall p (List.mem_cons_self _ _))]
      exact ih _ c' seen acc hc' (fun d hd => hall d (List.mem_cons_of_mem _ hd))

theorem eachAfter_intro (Q : List Entry → Entry → Prop) (l before : List Entry)
    (h : ∀ a e b, l = a ++ e :: b → Q (before ++ a) e) : EachAfter Q before l := by
  induction l generalizing before with
  | nil => simp [EachAfter]
  | cons x t ih =>
    refine ⟨by simpa using h [] x t rfl, ih _ ?_⟩
    intro a e b hab
    have := h (x :: a) e b (by rw [hab]; rfl)
    simpa using this

/-- The second run, record by record: a directory record is written again,
once; a file record is written again with its name and bytes, and no
directory is synthesized for it. -/
theorem reread_sim (fuel : Nat) : ∀ (rest : List Entry) (l2 : List File) (before : List Entry)
    (st2 : State), EachAfter (Rereadable fuel) before rest → List.Forall₂ ReadBack rest l2 →
    (∀ p, p ∈ st2.seenDirs ↔ dirRecord p ∈ before) →
    ∃ st2', fixJarLoop fuel l2 st2 = some st2' ∧
      dirEntries st2'.written = dirEntries st2.written ++ dirEntries rest ∧
      (fileEntries st2'.written).map Entry.key =
        (fileEntries st2.written).map Entry.key ++ (fileEntries rest).map Entry.key := by
  intro rest
  induction rest with
  | nil =>
    intro l2 before st2 _ hr _
    cases hr
    exact ⟨st2, rfl, by simp [dirEntries], by simp [fileEntries]⟩
  | cons e rest' ih =>
    intro l2 before st2 hea hr hseen
    cases hr with
    | cons hrb hr' =>
      rename_i g l2'
      obtain ⟨hQ, hea'⟩ := hea
      obtain ⟨hname, hcre, hattr, hsize, hcont⟩ := hrb
      cases hd : e.isDir with
      | true =>
        obtain ⟨p, rfl, hnot, hcls⟩ := hQ.1 hd
        have hcan : canonicalName g = p := by
          rw [canonicalName, hname]
          exact trimSuffix_slash_append p
        have hdir : isDirectoryEntry g = true := by
          rw [isDirectoryEntry_iff, hcan]
          refine ⟨?_, by rw [hsize]; rfl, hcls⟩
          have : hasSuffix g.header.Name slash = true := by
            rw [hname]; exact (hasSuffix_iff _ _).2 ⟨p, rfl⟩
          simp [modeIsDir, this]
        have hp : p ∉ st2.seenDirs := fun h => hnot ((hseen p).1 h)
        obtain ⟨st2', h1, h2, h3⟩ := ih l2' (before ++ [dirRecord p])
          { seenDirs := p :: st2.seenDirs, written := st2.written ++ [dirRecord p] } hea' hr'
          (by
            intro q
            simp only [List.mem_cons, List.mem_append, List.not_mem_nil, or_false, hseen q]
            constructor
            · rintro (h | h)
              · exact Or.inr (h ▸ rfl)
              · exact Or.inl h
            · rintro (h | h)
              · exact Or.inr h
              · exact Or.inl (dirRecord_injective h))
        refine ⟨st2', ?_, ?_, ?_⟩
        · rw [fixJarLoop_cons, processEntry_dir _ _ _ hdir, hcan, if_neg hp]
          exact h1
        · rw [h2]; simp [dirEntries]
        · rw [h3]; simp [fileEntries]
      | false =>
        obtain ⟨hsl, hcontent, c, hc, hcmem⟩ := hQ.2 hd
        have hcan : canonicalName g = e.header.Name := by
          rw [canonicalName, hname]
          exact trimSuffix_of_not _ _ hsl
        have hfile : isDirectoryEntry g = false := by
          cases h : isDirectoryEntry g with
          | false => rfl
          | true =>
            obtain ⟨k1, k2, k3⟩ := (isDirectoryEntry_iff g).1 h
            rw [hcan] at k3
            rw [modeIsDir_congr g.header e.header hname hcre hattr] at k1
            have := hcontent k1 k3
            rw [hsize] at k2
            exact absurd (List.length_eq_zero.1 k2) this
        have hkey : (fileRecord g).key = e.key := by
          simp [fileRecord, Entry.key, Entry.header, Entry.content, fileHeader, hcan, hcont]
        have hstep : processEntry fuel st2 g =
            some { st2 with written := st2.written ++ [fileRecord g] } := by
          by_cases hp : dir (canonicalName g) = dot ∨ dir (canonicalName g) = []
          · exact processEntry_file_stop _ _ _ hfile hp
          · rw [processEntry_file_walk _ _ _ hfile hp, hcan,
              walk_all_seen fuel _ c st2.seenDirs [] hc
                (fun d hdc => (hseen d).2 (hcmem d hdc))]
            simp
        obtain ⟨st2', h1, h2, h3⟩ := ih l2' (before ++ [e])
          { st2 with written := st2.written ++ [fileRecord g] } hea' hr'
          (by
            intro q
            simp only [List.mem_append, List.mem_singleton, hseen q]
            constructor
            · exact Or.inl
            · rintro (h | h)
              · exact h
              · rw [← h] at hd; simp at hd)
        refine ⟨st2', ?_, ?_, ?_⟩
        · rw [fixJarLoop_cons, hstep]; exact h1
        · rw [h2]; simp [dirEntries, hd]
        · rw [h3]; simp [fileEntries, hd, hkey]

theorem modeIsDir_fileHeader (f : File) (hs : hasSuffix (canonicalName f) slash = false)
    (h : modeIsDir (fileHeader f) = true) : modeIsDir f.header = true := by
  unfold modeIsDir at h ⊢
  simp only [fileHeader, hs, Bool.or_false] at h
  simp only [h, Bool.true_or]

theorem fileEntry_of_run (fuel : Nat) (l : List File) (out : List Entry)
    (hrun : fixJarFile fuel l = some out) (e : Entry) (he : e ∈ out) (hd : e.isDir = false) :
    ∃ f ∈ l, isDirectoryEntry f = false ∧ e = fileRecord f := by
  obtain ⟨st, h1, h2⟩ := fixJarFile_eq fuel l out hrun
  obtain ⟨d, -, g1, -, g3⟩ := fixJarLoop_written fuel l _ st h1
  simp only [List.nil_append] at g1
  have : e ∈ fileEntries d := by
    rw [← g1, h2]; simp [fileEntries, he, hd]
  rw [g3, fileRecords, List.mem_map] at this
  obtain ⟨f, hf, rfl⟩ := this
  rw [List.mem_filter] at hf
  exact ⟨f, hf.1, by simpa using hf.2, rfl⟩

/-- The output of a run can be read again by a second run, under the three
conditions of the amended idempotence claim. -/
theorem rereadable_of_run (fuel : Nat) (l : List File) (out : List Entry)
    (hrun : fixJarFile fuel l = some out)
    (hclass : ∀ p, dirRecord p ∈ out → hasSuffix p classSuffix = false)
    (hslash : ∀ f ∈ l, isDirectoryEntry f = false → hasSuffix (canonicalName f) slash = false)
    (hsize : ∀ f ∈ l, isDirectoryEntry f = false →
      f.content.length = f.header.UncompressedSize64) :
    EachAfter (Rereadable fuel) [] out := by
  obtain ⟨hnodup, hform, hanc, -⟩ := fixJarFile_order fuel l out hrun
  apply eachAfter_intro
  intro a e b ho
  have hmem : e ∈ out := by rw [ho]; simp
  simp only [List.nil_append]
  refine ⟨?_, ?_⟩
  · intro hd
    obtain ⟨p, rfl⟩ := hform e hmem hd
    refine ⟨p, rfl, ?_, hclass p hmem⟩
    intro ha
    exact (dirRecord_not_after out a b _ p hnodup ho ha).1 rfl
  · intro hd
    obtain ⟨f, hf, hfd, rfl⟩ := fileEntry_of_run fuel l out hrun e hmem hd
    have hs := hslash f hf hfd
    refine ⟨hs, ?_, ?_⟩
    · intro hm hc
      have hm' := modeIsDir_fileHeader f hs hm
      intro hnil
      have hlen : f.header.UncompressedSize64 = 0 := by
        rw [← hsize f hf hfd]
        exact List.length_eq_zero.2 hnil
      have : isDirectoryEntry f = true := (isDirectoryEntry_iff f).2 ⟨hm', hlen, hc⟩
      rw [hfd] at this
      exact absurd this (by simp)
    · subst ho
      exact (eachAfter_split _ _ _ _ hanc).1 hd

/-! ## The walk from a rooted path -/

theorem rooted_not_stop (p : Str) (h : rooted p = true) : ¬ (p = dot ∨ p = []) := by
  rintro (rfl | rfl) <;> simp [rooted, dot] at h

theorem clean_rooted (s : Str) (h : rooted s = true) : rooted (clean s) = true := by
  have hr : decide (s.head? = some '/') = true := by simpa [rooted] using h
  unfold clean
  simp [hr, rooted]

theorem rdropWhile_rooted (t : Str) :
    rooted (('/' :: t).rdropWhile (fun c => c != '/')) = true := by
  induction t using List.reverseRecOn with
  | nil =>
    have : (['/'] : Str) = [] ++ ['/'] := rfl
    rw [this, List.rdropWhile_concat_neg _ _ _ (by simp)]
    rfl
  | append_singleton t' c ih =>
    have hcat : '/' :: (t' ++ [c]) = ('/' :: t') ++ [c] := rfl
    rw [hcat]
    by_cases hc : c = '/'
    · subst hc
      rw [List.rdropWhile_concat_neg _ _ _ (by simp)]
      rfl
    · rw [List.rdropWhile_concat_pos _ _ _ (by simpa using hc)]
      exact ih

/-- The parent of a rooted path is rooted: the walk never leaves the root. -/
theorem dir_rooted (p : Str) (h : rooted p = true) : rooted (dir p) = true := by
  cases p with
  | nil => simp [rooted] at h
  | cons c t =>
    have hc : c = '/' := by simpa [rooted] using h
    subst hc
    exact clean_rooted _ (rdropWhile_rooted t)

theorem walkPath_rooted : ∀ (fuel : Nat) (p : Str), rooted p = true → walkPath fuel p = none := by
  intro fuel
  induction fuel with
  | zero => intro p h; exact walkPath_zero (rooted_not_stop p h)
  | succ n ih =>
    intro p h
    rw [walkPath_succ (rooted_not_stop p h), ih _ (dir_rooted p h)]
    rfl

theorem walk_rooted : ∀ (fuel : Nat) (seen : List Str) (p : Str) (acc : List Str),
    rooted p = true → walk fuel seen p acc = none := by
  intro fuel
  induction fuel with
  | zero => intro seen p acc h; exact walk_zero (rooted_not_stop p h)
  | succ n ih =>
    intro seen p acc h
    rw [walk_succ (rooted_not_stop p h)]
    split
    · exact ih _ _ _ (dir_rooted p h)
    · exact ih _ _ _ (dir_rooted p h)

/-- An iteration on an entry handled as a file whose canonical name is rooted
does not end, whatever the fuel. -/
theorem processEntry_rooted (fuel : Nat) (st : State) (f : File)
    (hd : isDirectoryEntry f = false) (hr : rooted (canonicalName f) = true) :
    processEntry fuel st f = none := by
  have h1 := dir_rooted _ hr
  rw [processEntry_file_walk _ _ _ hd (rooted_not_stop _ h1), walk_rooted _ _ _ _ h1]
  rfl

theorem fixJarLoop_rooted (fuel : Nat) (l : List File) (st : State) (f : File) (hf : f ∈ l)
    (hd : isDirectoryEntry f = false) (hr : rooted (canonicalName f) = true) :
    fixJarLoop fuel l st = none := by
  induction l generalizing st with
  | nil => simp at hf
  | cons g gs ih =>
    rw [fixJarLoop_cons]
    cases hp : processEntry fuel st g with
    | none => rfl
    | some st1 =>
      rcases List.mem_cons.1 hf with h | h
      · subst h
        rw [processEntry_rooted fuel st f hd hr] at hp
        simp at hp
      · exact ih st1 h

/-- The run ends, for some fuel, exactly on the archives in which no entry
handled as a file has a rooted canonical name. -/
theorem fixJarFile_ends_iff (l : List File) :
    (∃ fuel out, fixJarFile fuel l = some out) ↔ Unrooted l := by
  constructor
  · rintro ⟨fuel, out, h⟩ g hg hd
    cases hr : rooted (canonicalName g) with
    | false => rfl
    | true =>
      obtain ⟨st, h1, -⟩ := fixJarFile_eq fuel l out h
      rw [fixJarLoop_rooted fuel l _ g hg hd hr] at h1
      simp at h1
  · intro h
    exact ⟨enoughFuel l, fixJarFile_enough l h⟩

/-! ## Headers -/

theorem mask_testBit (i : Nat) : (0xffff ^^^ 0x0008 : Nat).testBit i = decide (i < 16 ∧ i ≠ 3) := by
  have hm : (0xffff ^^^ 0x0008 : Nat) = 65527 := by decide
  rw [hm]
  by_cases hi : i < 16
  · interval_cases i <;> decide
  · have h1 : (65527 : Nat) < 2 ^ i :=
      lt_of_lt_of_le (by norm_num) (Nat.pow_le_pow_right (by norm_num) (Nat.le_of_not_lt hi))
    rw [Nat.testBit_lt_two_pow h1]
    simp [hi]

/-- Line 96 on a 16-bit flag word: bit 3 is cleared and no other bit changes. -/
theorem fileHeader_flags (f : File) (h : f.header.Flags < 2 ^ 16) (i : Nat) :
    (fileHeader f).Flags.testBit i = (f.header.Flags.testBit i && decide (i ≠ 3)) := by
  show (f.header.Flags &&& (0xffff ^^^ 0x0008)).testBit i = _
  rw [Nat.testBit_and, mask_testBit]
  by_cases hi : i < 16
  · simp [hi]
  · have h1 : f.header.Flags < 2 ^ i :=
      lt_of_lt_of_le h (Nat.pow_le_pow_right (by norm_num) (Nat.le_of_not_lt hi))
    rw [Nat.testBit_lt_two_pow h1]
    simp

theorem dirHeader_eq (p : Str) :
    dirHeader p =
      { Name := p ++ ['/'], Comment := [], NonUTF8 := false, CreatorVersion := 0x0300,
        ReaderVersion := 0, Flags := 0, Method := 8, Modified := 0, ModifiedTime := 0,
        ModifiedDate := 0, CRC32 := 0, CompressedSize := 0, UncompressedSize := 0,
        CompressedSize64 := 0, UncompressedSize64 := 0, Extra := [],
        ExternalAttrs := 0x41ED0010 } := by
  simp only [dirHeader, setModeDir0755, zeroHeader, Deflate, slash, FileHeader.mk.injEq,
    true_and, and_true]
  decide

theorem dirHeader_mode (p : Str) :
    modeIsDir (dirHeader p) = true ∧ (dirHeader p).CreatorVersion >>> 8 = 3 ∧
      ((dirHeader p).ExternalAttrs >>> 16) &&& 0o7777 = 0o755 ∧
      ((dirHeader p).ExternalAttrs >>> 16) &&& 0xf000 = 0x4000 := by
  have h1 : (dirHeader p).CreatorVersion = 0x0300 := by rw [dirHeader_eq]
  have h2 : (dirHeader p).ExternalAttrs = 0x41ED0010 := by rw [dirHeader_eq]
  have h3 : hasSuffix (dirHeader p).Name slash = true :=
    (hasSuffix_iff _ _).2 ⟨p, rfl⟩
  refine ⟨?_, ?_, ?_, ?_⟩
  · simp only [modeIsDir, h3, Bool.or_true]
  · rw [h1]; decide
  · rw [h2]; decide
  · rw [h2]; decide

theorem canonicalName_no_slash (f : File) (h : hasSuffix f.header.Name ['/', '/'] = false) :
    hasSuffix (canonicalName f) slash = false := by
  rcases canonicalName_cases f with h1 | ⟨h1, h2⟩
  · by_contra hc
    have hc' : hasSuffix (canonicalName f) slash = true := by simpa using hc
    obtain ⟨q, hq⟩ := (hasSuffix_iff _ _).1 hc'
    have : hasSuffix f.header.Name ['/', '/'] = true := by
      rw [hasSuffix_iff, h1, ← hq]
      exact ⟨q, by simp [slash]⟩
    rw [h] at this
    exact absurd this (by simp)
  · rw [h2]; exact h1

/-! ## The walk from a path of plain segments -/

theorem weight_take_le (l : List Str) (n : Nat) : weight (l.take n) ≤ weight l := by
  have h := weight_append (l.take n) (l.drop n)
  rw [List.take_append_drop] at h
  omega

/-- A directory is longer than the directories above it. -/
theorem ancestorPaths_length_lt (ds : List Str) (d : Str) (q : Str) (hq : q ∈ ancestorPaths ds) :
    q.length < (joinSlash (ds ++ [d])).length := by
  unfold ancestorPaths at hq
  obtain ⟨i, hi, rfl⟩ := List.mem_map.1 hq
  have hi' : i < ds.length := List.mem_range.1 hi
  have hne : ds.take (i + 1) ≠ [] := by
    intro h
    have := congrArg List.length h
    simp only [List.length_take, List.length_nil] at this
    omega
  have h1 := joinSlash_length (ds.take (i + 1)) hne
  have h2 := joinSlash_length (ds ++ [d]) (by simp)
  have h3 := weight_take_le ds (i + 1)
  rw [weight_append, weight_cons, weight_nil] at h2
  omega

theorem not_mem_ancestorPaths (ds : List Str) (d : Str) :
    joinSlash (ds ++ [d]) ∉ ancestorPaths ds := by
  intro h
  have := ancestorPaths_length_lt ds d _ h
  omega

theorem ancestorPaths_nodup (ds : List Str) : (ancestorPaths ds).Nodup := by
  induction ds using List.reverseRecOn with
  | nil => simp [ancestorPaths_nil]
  | append_singleton ds' d ih =>
    rw [ancestorPaths_concat, List.nodup_append]
    refine ⟨ih, by simp, ?_⟩
    intro a ha hb
    simp at hb; subst hb
    exact not_mem_ancestorPaths ds' d ha

theorem unseenAncestors_concat_seen (seen ds : List Str) (d : Str)
    (h : joinSlash (ds ++ [d]) ∈ seen) :
    unseenAncestors seen (ds ++ [d]) = unseenAncestors seen ds := by
  simp [unseenAncestors, ancestorPaths_concat, List.filter_append, h]

theorem unseenAncestors_concat_new (seen ds : List Str) (d : Str)
    (h : joinSlash (ds ++ [d]) ∉ seen) :
    unseenAncestors seen (ds ++ [d]) = unseenAncestors seen ds ++ [joinSlash (ds ++ [d])] := by
  simp [unseenAncestors, ancestorPaths_concat, List.filter_append, h]

theorem unseenAncestors_cons_seen (seen ds : List Str) (d : Str) :
    unseenAncestors (joinSlash (ds ++ [d]) :: seen) ds = unseenAncestors seen ds := by
  unfold unseenAncestors
  apply List.filter_congr
  intro q hq
  have hne : q ≠ joinSlash (ds ++ [d]) := fun h => not_mem_ancestorPaths ds d (h ▸ hq)
  simp [hne]

/-- The upward walk from the directory `d1/.../dk` of plain segments: the
directories added are the ancestors not yet seen, outermost first. -/
theorem walk_nice (ds : List Str) (hds : ∀ s ∈ ds, NiceSeg s) :
    ∀ (fuel : Nat) (seen acc : List Str), ds.length ≤ fuel →
      walk fuel seen (joinSlash ds) acc =
        some (unseenAncestors seen ds ++ seen, unseenAncestors seen ds ++ acc) := by
  induction ds using List.reverseRecOn with
  | nil =>
    intro fuel seen acc _
    have hj : joinSlash ([] : List Str) = [] := rfl
    rw [hj, walk_stop (Or.inr rfl)]
    rfl
  | append_singleton ds' d ih =>
    intro fuel seen acc hfuel
    have hds' : ∀ s ∈ ds', NiceSeg s := fun s hs => hds s (List.mem_append_left _ hs)
    have hd : NiceSeg d := hds d (by simp)
    have hstop := joinSlash_not_stop (ds' ++ [d]) (by simp) hds
    obtain ⟨n, rfl⟩ : ∃ n, fuel = n + 1 := ⟨fuel - 1, by simp at hfuel; omega⟩
    have hn : ds'.length ≤ n := by simp at hfuel; omega
    have hup : ∀ S A, walk n S (dir (joinSlash (ds' ++ [d]))) A =
        some (unseenAncestors S ds' ++ S, unseenAncestors S ds' ++ A) := by
      intro S A
      by_cases hnil : ds' = []
      · subst hnil
        have : dir (joinSlash ([] ++ [d])) = dot := dir_single d hd.2.1
        rw [this, walk_stop (Or.inl rfl)]
        rfl
      · rw [dir_joinSlash_concat ds' d hnil hds' hd.2.1]
        exact ih hds' n S A hn
    rw [walk_succ hstop]
    by_cases hs : joinSlash (ds' ++ [d]) ∈ seen
    · rw [if_pos hs, hup, unseenAncestors_concat_seen seen ds' d hs]
    · rw [if_neg hs, hup, unseenAncestors_cons_seen, unseenAncestors_concat_new seen ds' d hs]
      simp

/-- One iteration on a file `d1/.../dk/x` of plain segments. -/
theorem processEntry_nice (fuel : Nat) (st : State) (f : File) (ds : List Str) (x : Str)
    (hd : isDirectoryEntry f = false) (hname : canonicalName f = joinSlash (ds ++ [x]))
    (hds : ∀ s ∈ ds, NiceSeg s) (hx : '/' ∉ x) (hfuel : ds.length ≤ fuel) :
    processEntry fuel st f = some
      { seenDirs := unseenAncestors st.seenDirs ds ++ st.seenDirs,
        written := st.written ++ (unseenAncestors st.seenDirs ds).map dirRecord ++
          [fileRecord f] } := by
  by_cases hnil : ds = []
  · subst hnil
    have hdir : dir (canonicalName f) = dot := by
      rw [hname]; exact dir_single x hx
    rw [processEntry_file_stop _ _ _ hd (Or.inl hdir)]
    simp [unseenAncestors, ancestorPaths_nil]
  · have hdir : dir (canonicalName f) = joinSlash ds := by
      rw [hname]; exact dir_joinSlash_concat ds x hnil hds hx
    have hstop : ¬ (dir (canonicalName f) = dot ∨ dir (canonicalName f) = []) := by
      rw [hdir]; exact joinSlash_not_stop ds hnil hds
    rw [processEntry_file_walk _ _ _ hd hstop, hdir, walk_nice ds hds fuel _ _ hfuel]
    simp

/-! ## The seen set and the directory records -/

theorem seenInv_records (st : State) (hs : SeenInv st) :
    (dirEntries st.written).Nodup ∧
      ∀ e ∈ st.written, e.isDir = true → ∃ p, e = dirRecord p := by
  refine ⟨?_, ?_⟩
  · rw [hs.2.nodup_iff]
    exact hs.1.map dirRecord_injective
  · intro e he hd
    have : e ∈ dirEntries st.written := by simp [dirEntries, he, hd]
    obtain ⟨p, -, hp⟩ := List.mem_map.1 (hs.2.mem_iff.1 this)
    exact ⟨p, hp.symm⟩

/-- In a state of the loop, a path is seen exactly when one directory record
of its name has been written. -/
theorem mem_seen_iff_once (st : State) (hs : SeenInv st) (p : Str) :
    p ∈ st.seenDirs ↔
      (st.written.filter (fun e => e.isDir && e.header.Name == p ++ slash)).length = 1 := by
  obtain ⟨hn, hform⟩ := seenInv_records st hs
  constructor
  · intro hp
    rw [dirRecord_once st.written p hn hform ((mem_seen_iff st hs p).1 hp)]
    rfl
  · intro hl
    obtain ⟨e, he⟩ : ∃ e, e ∈ st.written.filter
        (fun e => e.isDir && e.header.Name == p ++ slash) := by
      apply List.exists_mem_of_length_pos
      omega
    obtain ⟨hmem, hpred⟩ := List.mem_filter.1 he
    simp only [Bool.and_eq_true, beq_iff_eq] at hpred
    obtain ⟨q, rfl⟩ := hform e hmem hpred.1
    have hqp : q = p := by
      simpa [dirRecord, Entry.header, dirHeader_name] using hpred.2
    subst hqp
    exact (mem_seen_iff st hs q).2 hmem

/-- An iteration writes no directory record for a path that is already seen. -/
theorem processEntry_no_seen_dir (fuel : Nat) (st st' : State) (f : File)
    (h : processEntry fuel st f = some st') :
    (∀ p ∈ st.seenDirs, p ∈ st'.seenDirs) ∧
    ∃ delta, st'.written = st.written ++ delta ∧
      ∀ p ∈ st.seenDirs,
        delta.filter (fun e => e.isDir && e.header.Name == p ++ slash) = [] := by
  obtain ⟨new, h1, h2, -, h4, -⟩ := processEntry_spec fuel st st' f h
  refine ⟨fun p hp => by rw [h1]; exact List.mem_append_right _ hp,
    new.map dirRecord ++ (if isDirectoryEntry f then [] else [fileRecord f]),
    by rw [h2]; simp, ?_⟩
  intro p hp
  rw [List.filter_eq_nil_iff]
  intro e he
  rcases List.mem_append.1 he with h5 | h5
  · obtain ⟨q, hq, rfl⟩ := List.mem_map.1 h5
    have hne : q ≠ p := fun e => h4 q hq (e ▸ hp)
    simp [dirRecord, Entry.header, Entry.isDir, dirHeader_name, hne]
  · split at h5
    · simp at h5
    · simp only [List.mem_singleton] at h5
      subst h5
      simp

/-! ## The run with the streams of the entries -/

theorem modeIsDir_eq (h : FileHeader) :
    modeIsDir h = (attrIsDir h || hasSuffix h.Name slash) := rfl

theorem copied_isSome_iff (f : File) :
    (copied f).isSome = true ↔
      (hasSuffix f.header.Name slash = true → f.header.UncompressedSize64 = 0) := by
  unfold copied
  by_cases h1 : hasSuffix f.header.Name slash = true
  · by_cases h2 : f.header.UncompressedSize64 = 0 <;> simp [h1, h2]
  · simp [h1]

/-- An entry handled as a file whose stream can be copied has a canonical
path without a trailing separator. -/
theorem canonicalName_readable (f : File) (hd : isDirectoryEntry f = false)
    (hc : (copied f).isSome = true) : hasSuffix (canonicalName f) slash = false := by
  by_cases hs : hasSuffix f.header.Name slash = true
  · have hz := (copied_isSome_iff f).1 hc hs
    have hm : modeIsDir f.header = true := by rw [modeIsDir_eq, hs, Bool.or_true]
    cases hcl : hasSuffix (canonicalName f) classSuffix with
    | true => exact class_not_slash _ hcl
    | false =>
      have := (isDirectoryEntry_iff f).2 ⟨hm, hz, hcl⟩
      rw [hd] at this; simp at this
  · have hs2 : hasSuffix f.header.Name slash = false := by simpa using hs
    have : canonicalName f = f.header.Name := trimSuffix_of_not _ _ hs2
    rw [this]; exact hs2

theorem stampHeader_fields (stamp : Nat → Nat × Nat × List Nat) (h : FileHeader) :
    (stampHeader stamp h).Name = h.Name ∧ (stampHeader stamp h).Comment = h.Comment ∧
      (stampHeader stamp h).NonUTF8 = h.NonUTF8 ∧
      (stampHeader stamp h).CreatorVersion = h.CreatorVersion ∧
      (stampHeader stamp h).ReaderVersion = h.ReaderVersion ∧
      (stampHeader stamp h).Flags = h.Flags ∧ (stampHeader stamp h).Method = h.Method ∧
      (stampHeader stamp h).Modified = h.Modified ∧ (stampHeader stamp h).CRC32 = h.CRC32 ∧
      (stampHeader stamp h).CompressedSize = h.CompressedSize ∧
      (stampHeader stamp h).UncompressedSize = h.UncompressedSize ∧
      (stampHeader stamp h).CompressedSize64 = h.CompressedSize64 ∧
      (stampHeader stamp h).UncompressedSize64 = h.UncompressedSize64 ∧
      (stampHeader stamp h).ExternalAttrs = h.ExternalAttrs := by
  unfold stampHeader
  split <;> exact ⟨rfl, rfl, rfl, rfl, rfl, rfl, rfl, rfl, rfl, rfl, rfl, rfl, rfl, rfl⟩

/-- What `CreateHeader` keeps of any header. -/
theorem createHeader_kept (stamp : Nat → Nat × Nat × List Nat) (h : FileHeader) :
    (createHeader stamp h).Name = h.Name ∧ (createHeader stamp h).Comment = h.Comment ∧
      (createHeader stamp h).NonUTF8 = h.NonUTF8 ∧
      (createHeader stamp h).CreatorVersion = (h.CreatorVersion &&& 0xff00) ||| 20 ∧
      (createHeader stamp h).ReaderVersion = 20 ∧
      (createHeader stamp h).Modified = h.Modified ∧
      (createHeader stamp h).CRC32 = h.CRC32 ∧
      (createHeader stamp h).ExternalAttrs = h.ExternalAttrs := by
  obtain ⟨h1, h2, h3, h4, h5, -, -, h8, h9, -, -, -, -, h14⟩ := stampHeader_fields stamp
    { h with
      Flags := utf8Flags h
      CreatorVersion := (h.CreatorVersion &&& 0xff00) ||| 20
      ReaderVersion := 20 }
  unfold createHeader
  split <;> exact ⟨h1, h2, h3, h4, h5, h8, h9, h14⟩

/-- What `CreateHeader` does to the header of a name that does not end in '/'. -/
theorem createHeader_file (stamp : Nat → Nat × Nat × List Nat) (h : FileHeader)
    (hs : hasSuffix h.Name slash = false) :
    (createHeader stamp h).Flags = utf8Flags h ||| 0x0008 ∧
      (createHeader stamp h).Method = h.Method ∧
      (createHeader stamp h).CompressedSize = h.CompressedSize ∧
      (createHeader stamp h).UncompressedSize = h.UncompressedSize ∧
      (createHeader stamp h).CompressedSize64 = h.CompressedSize64 ∧
      (createHeader stamp h).UncompressedSize64 = h.UncompressedSize64 := by
  obtain ⟨-, -, -, -, -, h6, h7, -, -, h10, h11, h12, h13, -⟩ := stampHeader_fields stamp
    { h with
      Flags := utf8Flags h
      CreatorVersion := (h.CreatorVersion &&& 0xff00) ||| 20
      ReaderVersion := 20 }
  unfold createHeader
  rw [if_neg (by simp [hs])]
  exact ⟨by show _ ||| 0x0008 = _; rw [h6], h7, h10, h11, h12, h13⟩

/-- The time-stamp fields after `CreateHeader`. -/
theorem createHeader_stamp (stamp : Nat → Nat × Nat × List Nat) (h : FileHeader) :
    (h.Modified = 0 →
      (createHeader stamp h).ModifiedDate = h.ModifiedDate ∧
      (createHeader stamp h).ModifiedTime = h.ModifiedTime ∧
      (createHeader stamp h).Extra = h.Extra) ∧
    (h.Modified ≠ 0 →
      (createHeader stamp h).ModifiedDate = (stamp h.Modified).1 ∧
      (createHeader stamp h).ModifiedTime = (stamp h.Modified).2.1 ∧
      (createHeader stamp h).Extra = h.Extra ++ (stamp h.Modified).2.2) := by
  refine ⟨?_, ?_⟩
  · intro hm
    unfold createHeader stampHeader
    simp only [hm, if_true]
    split <;> exact ⟨rfl, rfl, rfl⟩
  · intro hm
    unfold createHeader stampHeader
    simp only [hm, if_false]
    split <;> exact ⟨rfl, rfl, rfl⟩

/-- The creator byte of a 16-bit version word is kept by `CreateHeader`. -/
theorem creator_byte_kept (cv : Nat) (h : cv < 2 ^ 16) :
    ((cv &&& 0xff00) ||| 20) >>> 8 = cv >>> 8 := by
  apply Nat.eq_of_testBit_eq
  intro i
  rw [Nat.testBit_shiftRight, Nat.testBit_shiftRight, Nat.testBit_or, Nat.testBit_and]
  have h20 : (20 : Nat).testBit (8 + i) = false :=
    Nat.testBit_lt_two_pow (lt_of_lt_of_le (by norm_num)
      (Nat.pow_le_pow_right (by norm_num) (Nat.le_add_right 8 i)))
  rw [h20, Bool.or_false]
  by_cases hi : i < 8
  · have : (0xff00 : Nat).testBit (8 + i) = true := by
      interval_cases i <;> decide
    rw [this, Bool.and_true]
  · have h1 : cv < 2 ^ (8 + i) :=
      lt_of_lt_of_le h (Nat.pow_le_pow_right (by norm_num) (by omega))
    rw [Nat.testBit_lt_two_pow h1, Bool.false_and]

/-- The writer does not change whether a header is a directory under
`Mode().IsDir()`. -/
theorem modeIsDir_createHeader (stamp : Nat → Nat × Nat × List Nat) (h : FileHeader)
    (hcv : h.CreatorVersion < 2 ^ 16) :
    modeIsDir (createHeader stamp h) = modeIsDir h := by
  obtain ⟨h1, -, -, h4, -, -, -, h8⟩ := createHeader_kept stamp h
  apply modeIsDir_congr _ _ h1 _ h8
  rw [h4]
  exact creator_byte_kept _ hcv

/-! ## Directory records and their parents -/

theorem eachAfter_mono (Q1 Q2 : List Entry → Entry → Prop)
    (h : ∀ b e, Q1 b e → Q2 b e) (l before : List Entry) (h1 : EachAfter Q1 before l) :
    EachAfter Q2 before l := by
  induction l generalizing before with
  | nil => simp [EachAfter]
  | cons e es ih => exact ⟨h _ _ h1.1, ih _ h1.2⟩

theorem processEntry_parentOrCarried (fuel : Nat) (l1 : List File) (f : File)
    (l2 : List File) (st st' : State)
    (hst : fixJarLoop fuel l1 { seenDirs := [], written := [] } = some st)
    (h : processEntry fuel st f = some st')
    (hinv : EachAfter (ParentOrCarried fuel (l1 ++ f :: l2)) [] st.written) :
    EachAfter (ParentOrCarried fuel (l1 ++ f :: l2)) [] st'.written := by
  have hs : SeenInv st := fixJarLoop_seenInv fuel l1 _ st hst seenInv_init
  by_cases hd : isDirectoryEntry f = true
  · rw [processEntry_dir _ _ _ hd] at h
    by_cases hseen : canonicalName f ∈ st.seenDirs
    · rw [if_pos hseen] at h
      simp only [Option.some.injEq] at h
      subst h; exact hinv
    · rw [if_neg hseen] at h
      simp only [Option.some.injEq] at h
      subst h
      show EachAfter _ [] (st.written ++ [dirRecord (canonicalName f)])
      rw [eachAfter_append, eachAfter_singleton]
      refine ⟨hinv, ?_⟩
      intro p hp
      have hpd : canonicalName f = p := dirRecord_injective hp
      exact Or.inr (Or.inr ⟨l1, f, l2, rfl, hd, hpd, by simp [fixJarFile, hst]⟩)
  · have hd2 : isDirectoryEntry f = false := by simpa using hd
    obtain ⟨new, -, h2, -, -, -, h6⟩ := processEntry_spec fuel st st' f h
    obtain ⟨c, -, -, -, h8⟩ := h6 hd2
    rw [h2, eachAfter_append, eachAfter_append]
    refine ⟨⟨hinv, ?_⟩, ?_⟩
    · have := eachAfter_parent_new st.written st.seenDirs
        (fun p hp => (mem_seen_iff st hs p).1 hp) new [] (by simpa using h8)
      have h3 : EachAfter ParentBefore ([] ++ st.written) (new.map dirRecord) := by
        simpa using this
      exact eachAfter_mono _ _
        (fun b e hb p hp => (hb p hp).elim Or.inl (fun x => Or.inr (Or.inl x))) _ _ h3
    · simp only [hd2, Bool.false_eq_true, if_false, eachAfter_singleton]
      intro p hp
      exact absurd hp (dirRecord_ne_fileRecord p f)

theorem fixJarLoop_parentOrCarried (fuel : Nat) (l : List File) :
    ∀ (l2 l1 : List File) (st st' : State), l = l1 ++ l2 →
      fixJarLoop fuel l1 { seenDirs := [], written := [] } = some st →
      EachAfter (ParentOrCarried fuel l) [] st.written →
      fixJarLoop fuel l2 st = some st' →
      EachAfter (ParentOrCarried fuel l) [] st'.written := by
  intro l2
  induction l2 with
  | nil =>
    intro l1 st st' _ _ hinv h
    simp [fixJarLoop_nil] at h; subst h; exact hinv
  | cons f fs ih =>
    intro l1 st st' hl hst hinv h
    rw [fixJarLoop_cons] at h
    cases hp : processEntry fuel st f with
    | none => rw [hp] at h; simp at h
    | some st1 =>
      rw [hp, Option.some_bind] at h
      have hst1 : fixJarLoop fuel (l1 ++ [f]) { seenDirs := [], written := [] } = some st1 := by
        rw [fixJarLoop_append, hst, Option.some_bind, fixJarLoop_cons, hp, Option.some_bind,
          fixJarLoop_nil]
      have hinv1 : EachAfter (ParentOrCarried fuel l) [] st1.written := by
        rw [hl] at hinv ⊢
        exact processEntry_parentOrCarried fuel l1 f fs st st1 hst hp hinv
      exact ih (l1 ++ [f]) st1 st' (by rw [hl]; simp) hst1 hinv1 h

/-- On a run that ends, every directory record is at the root, or stands after
the record of its parent directory (which is then not written again), or is the
record written for a directory entry of the source where that entry stands. -/
theorem parent_or_carried_of_run (fuel : Nat) (l : List File) (out : List Entry)
    (hrun : fixJarFile fuel l = some out) :
    ∀ a p b, out = a ++ dirRecord p :: b →
      (dir p = dot ∨ dir p = []) ∨
      (dirRecord (dir p) ∈ a ∧ dirRecord (dir p) ∉ b) ∨
      ∃ l1 g l2, l = l1 ++ g :: l2 ∧ isDirectoryEntry g = true ∧ canonicalName g = p ∧
        fixJarFile fuel l1 = some a := by
  obtain ⟨st, h1, h2⟩ := fixJarFile_eq fuel l out hrun
  obtain ⟨hnodup, -⟩ := fixJarFile_order fuel l out hrun
  have hall := fixJarLoop_parentOrCarried fuel l l [] _ st (by simp) rfl (by simp [EachAfter]) h1
  rw [h2] at hall
  intro a p b ho
  subst ho
  obtain ⟨hQ, -⟩ := eachAfter_split _ _ _ _ hall
  rcases hQ p rfl with h | h | h
  · exact Or.inl h
  · exact Or.inr (Or.inl ⟨h, (dirRecord_not_after _ a b _ _ hnodup rfl h).2⟩)
  · exact Or.inr (Or.inr h)

/-! ## The flag word as the writer stores it -/

theorem bit3_testBit (i : Nat) : (0x0008 : Nat).testBit i = decide (i = 3) := by
  have h : (0x0008 : Nat) = 2 ^ 3 := by norm_num
  rw [h, Nat.testBit_two_pow]
  by_cases hi : i = 3 <;> simp [hi, eq_comm]

theorem bit11_testBit (i : Nat) : (0x0800 : Nat).testBit i = decide (i = 11) := by
  have h : (0x0800 : Nat) = 2 ^ 11 := by norm_num
  rw [h, Nat.testBit_two_pow]
  by_cases hi : i = 11 <;> simp [hi, eq_comm]

theorem mask11_testBit (i : Nat) :
    (0xffff ^^^ 0x0800 : Nat).testBit i = decide (i < 16 ∧ i ≠ 11) := by
  have hm : (0xffff ^^^ 0x0800 : Nat) = 63487 := by decide
  rw [hm]
  by_cases hi : i < 16
  · interval_cases i <;> decide
  · have h1 : (63487 : Nat) < 2 ^ i :=
      lt_of_lt_of_le (by norm_num) (Nat.pow_le_pow_right (by norm_num) (Nat.le_of_not_lt hi))
    rw [Nat.testBit_lt_two_pow h1]
    simp [hi]

/-- The UTF-8 step on a 16-bit flag word changes bit 11 only. -/
theorem utf8Flags_testBit (h : FileHeader) (hf : h.Flags < 2 ^ 16) (i : Nat) :
    (utf8Flags h).testBit i =
      if i = 11 then
        (!h.NonUTF8 && (requiresUTF8 h.Name || requiresUTF8 h.Comment || h.Flags.testBit 11))
      else h.Flags.testBit i := by
  have hbig : ¬ i < 16 → h.Flags.testBit i = false := fun hi =>
    Nat.testBit_lt_two_pow
      (lt_of_lt_of_le hf (Nat.pow_le_pow_right (by norm_num) (Nat.le_of_not_lt hi)))
  unfold utf8Flags
  by_cases hn : h.NonUTF8 = true
  · rw [if_pos hn, Nat.testBit_and, mask11_testBit]
    by_cases hi : i = 11
    · simp [hi, hn]
    · by_cases h16 : i < 16
      · simp [hi, h16]
      · simp [hi, hbig h16]
  · have hn2 : h.NonUTF8 = false := by simpa using hn
    rw [if_neg hn]
    by_cases hr : (requiresUTF8 h.Name || requiresUTF8 h.Comment) = true
    · rw [if_pos hr, Nat.testBit_or, bit11_testBit]
      by_cases hi : i = 11
      · subst hi; simp [hn2, hr]
      · simp [hi]
    · have hr2 : (requiresUTF8 h.Name || requiresUTF8 h.Comment) = false := by simpa using hr
      rw [if_neg hr]
      by_cases hi : i = 11
      · subst hi; simp [hn2, hr2]
      · simp [hi]

/-- The flag word stored for a file entry whose source flag word has 16 bits:
bit 3 is set, bit 11 follows the UTF-8 rule of the writer, and every other bit
is the source's. -/
theorem stored_flags (stamp : Nat → Nat × Nat × List Nat) (f : File)
    (hflags : f.header.Flags < 2 ^ 16) (hs : hasSuffix (canonicalName f) slash = false)
    (i : Nat) :
    (createHeader stamp (fileHeader f)).Flags.testBit i =
      if i = 3 then true
      else if i = 11 then
        (!f.header.NonUTF8 &&
          (requiresUTF8 (canonicalName f) || requiresUTF8 f.header.Comment ||
            f.header.Flags.testBit 11))
      else f.header.Flags.testBit i := by
  have hlt : (fileHeader f).Flags < 2 ^ 16 :=
    lt_of_le_of_lt (Nat.and_le_left) hflags
  rw [(createHeader_file stamp (fileHeader f) hs).1, Nat.testBit_or, bit3_testBit,
    utf8Flags_testBit _ hlt, fileHeader_flags f hflags, fileHeader_flags f hflags]
  by_cases h3 : i = 3
  · simp [h3]
  · by_cases h11 : i = 11
    · subst h11
      simp
      rfl
    · simp [h3, h11]

/-! ## The records written on a run with streams -/

theorem delivered_isDirectoryEntry (f : File) :
    isDirectoryEntry (delivered f) = isDirectoryEntry f := rfl

/-- C1. Classification policy of fixJarFile: with canonical path = stored name
less one trailing '/', a source entry is handled as a Directory (at most its
directory record is written, never a file record) if and only if it declared
itself a directory, its uncompressed size is 0 and its canonical path does not
end in ".class"; in every other case it is handled as a File: whenever the
iteration ends its last write is the file record of the entry, and the
iteration does end when the canonical path is not rooted. -/
theorem classification_policy (f : File) :
    (f.header.Name = canonicalName f ++ slash ∨
      (hasSuffix f.header.Name slash = false ∧ canonicalName f = f.header.Name)) ∧
    (isDirectoryEntry f = true ↔
      (modeIsDir f.header = true ∧ f.header.UncompressedSize64 = 0 ∧
        hasSuffix (canonicalName f) classSuffix = false)) ∧
    (isDirectoryEntry f = true → ∀ fuel st,
      processEntry fuel st f = some st ∨
      processEntry fuel st f = some
        { seenDirs := canonicalName f :: st.seenDirs,
          written := st.written ++ [dirRecord (canonicalName f)] }) ∧
    (isDirectoryEntry f = false → ∀ fuel st st', processEntry fuel st f = some st' →
      ∃ ds : List Str, st'.written = st.written ++ ds.map dirRecord ++ [fileRecord f]) ∧
    (isDirectoryEntry f = false → rooted (canonicalName f) = false →
      ∀ st, ∃ st', processEntry (canonicalName f).length st f = some st') := by
  refine ⟨canonicalName_cases f, isDirectoryEntry_iff f, ?_, ?_, ?_⟩
  · intro hd fuel st
    rw [processEntry_dir _ _ _ hd]
    by_cases hs : canonicalName f ∈ st.seenDirs
    · left; rw [if_pos hs]
    · right; rw [if_neg hs]
  · intro hd fuel st st' h
    obtain ⟨new, -, h2, -⟩ := processEntry_spec fuel st st' f h
    exact ⟨new, by rw [h2]; simp [hd]⟩
  · intro hd hr st
    exact processEntry_completes _ st f (fun _ => ⟨hr, le_refl _⟩)

/-- C4, as stated, fails: `Foo.class/` is a directory entry of size zero, and
the output has no directory record named `Foo.class/`; the entry is written as
the file `Foo.class`. -/
theorem zero_size_directory_counterexample :
    modeIsDir fooClassDir.header = true ∧ fooClassDir.header.UncompressedSize64 = 0 ∧
      fixJarFile 0 [fooClassDir] = some [fileRecord fooClassDir] ∧
      [fileRecord fooClassDir].filter
        (fun e => e.isDir && e.header.Name == canonicalName fooClassDir ++ slash) = [] := by
  decide

/-- C4, amended. For every source entry handled as a Directory (directory
flagged, size zero, canonical path not ending in ".class") the output holds
exactly one directory record named canonical path + '/', however often the
entry occurs in the input. The run ends, with enough fuel, when no file entry
has a rooted name. -/
theorem zero_size_directory_once (l : List File) (f : File) (hf : f ∈ l)
    (hd : isDirectoryEntry f = true) :
    (Unrooted l → ∃ out, fixJarFile (enoughFuel l) l = some out) ∧
    ∀ fuel out, fixJarFile fuel l = some out →
      out.filter (fun e => e.isDir && e.header.Name == canonicalName f ++ slash) =
        [dirRecord (canonicalName f)] :=
  ⟨fixJarFile_enough _, fun fuel out hrun => directory_once_of_run fuel l out f hrun hf hd⟩

theorem zero_size_directory_once_witness :
    fixJarFile 1 [libDir, barClass, libDir] =
        some [dirRecord "lib".toList, dirRecord "com".toList, fileRecord barClass] ∧
      libDir ∈ [libDir, barClass, libDir] ∧ isDirectoryEntry libDir = true ∧
      ((Unrooted [libDir, barClass, libDir] →
        ∃ out, fixJarFile (enoughFuel [libDir, barClass, libDir])
          [libDir, barClass, libDir] = some out) ∧
      ∀ fuel out, fixJarFile fuel [libDir, barClass, libDir] = some out →
        out.filter (fun e => e.isDir && e.header.Name == canonicalName libDir ++ slash) =
          [dirRecord (canonicalName libDir)]) :=
  ⟨by decide, by decide, by decide,
    zero_size_directory_once [libDir, barClass, libDir] libDir (by decide) (by decide)⟩

/-- C5. No duplicate directory entries: no two directory records written by
fixJarFile, carried over from the source or synthesized as ancestors, have the
same name. -/
theorem no_duplicate_directories (fuel : Nat) (l : List File) (out : List Entry)
    (hrun : fixJarFile fuel l = some out) :
    ((dirEntries out).map (fun e => e.header.Name)).Nodup := by
  obtain ⟨seen, hn, hp, -⟩ := fixJarFile_seenInv fuel l out hrun
  have h1 := (hp.map (fun e => e.header.Name)).nodup_iff
  rw [h1, List.map_map]
  refine hn.map ?_
  intro a b hab
  simpa [dirRecord, Entry.header, dirHeader_name] using hab

theorem no_duplicate_directories_witness :
    fixJarFile 1 [libDir, barClass, libDir, barClass] =
        some [dirRecord "lib".toList, dirRecord "com".toList, fileRecord barClass,
          fileRecord barClass] ∧
      ((dirEntries [dirRecord "lib".toList, dirRecord "com".toList, fileRecord barClass,
          fileRecord barClass]).map (fun e => e.header.Name)).Nodup :=
  ⟨by decide, no_duplicate_directories 1 [libDir, barClass, libDir, barClass] _ (by decide)⟩

/-- C6, as stated, fails: `./c.txt` is a relative path of non-empty segments
separated by single '/', in an archive without directory entries, and the
output holds the file alone, with no directory record `./`. -/
theorem ancestor_synthesis_counterexample :
    isDirectoryEntry dotSlashFile = false ∧
      canonicalName dotSlashFile = joinSlash [".".toList, "c.txt".toList] ∧
      (∀ s ∈ [".".toList, "c.txt".toList], s ≠ [] ∧ '/' ∉ s) ∧
      fixJarFile 1 [dotSlashFile] = some [fileRecord dotSlashFile] ∧
      [fileRecord dotSlashFile].filter
        (fun e => e.isDir && e.header.Name == "./".toList) = [] := by
  decide

/-- C6, amended. In an archive without directory entries, for every file entry
`d1/d2/.../dk/x` (k >= 1) whose segments `d1, ..., dk` are non-empty, hold no
'/', and are neither "." nor "..", the output holds the directory records
`d1/`, `d1/d2/`, ..., `d1/.../dk/` in that order before the file record of
that entry, and each is the only directory record of its name in the output.
The run ends, with enough fuel, when no file entry has a rooted name. -/
theorem ancestor_synthesis (l1 : List File) (f : File) (l2 : List File)
    (ds : List Str) (x : Str)
    (hfiles : ∀ g ∈ l1 ++ f :: l2, isDirectoryEntry g = false)
    (hname : canonicalName f = joinSlash (ds ++ [x])) (hne : ds ≠ [])
    (hds : ∀ s ∈ ds, NiceSeg s) (hx : '/' ∉ x) :
    (Unrooted (l1 ++ f :: l2) →
      ∃ out, fixJarFile (enoughFuel (l1 ++ f :: l2)) (l1 ++ f :: l2) = some out) ∧
    ∀ fuel out, fixJarFile fuel (l1 ++ f :: l2) = some out →
      ∃ a b, out = a ++ fileRecord f :: b ∧ fileEntries a = fileRecords l1 ∧
        ((ancestorPaths ds).map dirRecord).Sublist a ∧
        ∀ p ∈ ancestorPaths ds,
          out.filter (fun e => e.isDir && e.header.Name == p ++ slash) = [dirRecord p] :=
  ⟨fixJarFile_enough _, fun fuel out hrun =>
    ancestor_synthesis_of_run fuel l1 f l2 out ds x hrun hfiles hname hne hds hx⟩

theorem ancestor_synthesis_witness :
    fixJarFile 2 ([barClass] ++ abcFile :: []) =
        some [dirRecord "com".toList, fileRecord barClass, dirRecord "a".toList,
          dirRecord "a/b".toList, fileRecord abcFile] ∧
      ancestorPaths ["a".toList, "b".toList] = ["a".toList, "a/b".toList] ∧
      (∀ g ∈ [barClass] ++ abcFile :: [], isDirectoryEntry g = false) ∧
      canonicalName abcFile = joinSlash (["a".toList, "b".toList] ++ ["c.txt".toList]) ∧
      ["a".toList, "b".toList] ≠ [] ∧ (∀ s ∈ ["a".toList, "b".toList], NiceSeg s) ∧
      '/' ∉ "c.txt".toList ∧
      ((Unrooted ([barClass] ++ abcFile :: []) →
        ∃ out, fixJarFile (enoughFuel ([barClass] ++ abcFile :: []))
          ([barClass] ++ abcFile :: []) = some out) ∧
      ∀ fuel out, fixJarFile fuel ([barClass] ++ abcFile :: []) = some out →
        ∃ a b, out = a ++ fileRecord abcFile :: b ∧ fileEntries a = fileRecords [barClass] ∧
          ((ancestorPaths ["a".toList, "b".toList]).map dirRecord).Sublist a ∧
          ∀ p ∈ ancestorPaths ["a".toList, "b".toList],
            out.filter (fun e => e.isDir && e.header.Name == p ++ slash) = [dirRecord p]) :=
  ⟨by decide, by decide, by decide, by decide, by decide, by simp [NiceSeg, dot, dotdot],
    by decide,
    ancestor_synthesis [barClass] abcFile [] ["a".toList, "b".toList] "c.txt".toList
      (by decide) (by decide) (by decide) (by simp [NiceSeg, dot, dotdot]) (by decide)⟩

/-- C7, as stated, fails: on the directory entries `a/b/` and `a/`, in that
order, the output is `a/b/`, `a/`: the record of `a/b/` stands before the
record of its parent `a/`. -/
theorem parent_before_child_counterexample :
    fixJarFile 0 [abDir, aDir] = some [dirRecord "a/b".toList, dirRecord "a".toList] ∧
      dir "a/b".toList = "a".toList := by
  decide

/-- C7, amended. Every directory on the upward walk from an emitted file (each
of its ancestor directories) has a directory record in the output, before that
file's record and not after it. Every directory record is at the root, or
stands after the record of its parent directory (which is not written again
after it), or is the record written for a directory entry of the source where
that entry stands, after exactly what the entries before it gave. When the
input carries no directory entries of its own, every directory record stands
after the records of all its own ancestors. The run ends, with enough fuel,
when no file entry has a rooted name. -/
theorem ancestors_before_descendants (l : List File) :
    (Unrooted l → ∃ out, fixJarFile (enoughFuel l) l = some out) ∧
    ∀ fuel out, fixJarFile fuel l = some out →
      (∀ a e b, out = a ++ e :: b → e.isDir = false →
        ∃ c, walkPath fuel (dir e.header.Name) = some c ∧
          ∀ d ∈ c, dirRecord d ∈ a ∧ dirRecord d ∉ b) ∧
      (∀ a p b, out = a ++ dirRecord p :: b →
        (dir p = dot ∨ dir p = []) ∨
        (dirRecord (dir p) ∈ a ∧ dirRecord (dir p) ∉ b) ∨
        ∃ l1 g l2, l = l1 ++ g :: l2 ∧ isDirectoryEntry g = true ∧ canonicalName g = p ∧
          fixJarFile fuel l1 = some a) ∧
      ((∀ g ∈ l, isDirectoryEntry g = false) →
        ∀ a p b, out = a ++ dirRecord p :: b →
          ∃ c, walkPath fuel (dir p) = some c ∧
            ∀ q ∈ c, dirRecord q ∈ a ∧ dirRecord q ∉ b) :=
  ⟨fixJarFile_enough _, fun fuel out hrun =>
    ⟨(ancestors_before_of_run fuel l out hrun).1, parent_or_carried_of_run fuel l out hrun,
      (ancestors_before_of_run fuel l out hrun).2⟩⟩

/-- C9, as stated, fails: the output of the run on the single file
`a.class/b/c.txt` is `a.class/`, `a.class/b/`, `a.class/b/c.txt`; the run on
that output, read again, writes the file `a.class`, then `a.class/b/`, then
`a.class/`, then the file: the directory records come in another order, and a
file record is added. -/
theorem idempotence_counterexample :
    fixJarFile 2 [classDirFile] =
        some [dirRecord "a.class".toList, dirRecord "a.class/b".toList,
          fileRecord classDirFile] ∧
      fixJarFile 2 ([dirRecord "a.class".toList, dirRecord "a.class/b".toList,
          fileRecord classDirFile].map reread) =
        some [fileRecord (reread (dirRecord "a.class".toList)), dirRecord "a.class/b".toList,
          dirRecord "a.class".toList, fileRecord (reread (fileRecord classDirFile))] ∧
      dirEntries [fileRecord (reread (dirRecord "a.class".toList)),
          dirRecord "a.class/b".toList, dirRecord "a.class".toList,
          fileRecord (reread (fileRecord classDirFile))] =
        [dirRecord "a.class/b".toList, dirRecord "a.class".toList] ∧
      dirEntries [dirRecord "a.class".toList, dirRecord "a.class/b".toList,
          fileRecord classDirFile] =
        [dirRecord "a.class".toList, dirRecord "a.class/b".toList] := by
  decide

/-- C9, amended. Idempotence, for a run that ends on an archive in which every
entry handled as a file has a canonical path not ending in '/' and a stream of
as many bytes as its uncompressed size, and whose output has no directory
record at a path ending in ".class": the run on that output, read again, ends
and writes exactly the directory records of the first output (none added, none
twice, same order) and file records with the same names and bytes, in the same
order. -/
theorem idempotence (fuel : Nat) (l : List File) (out : List Entry) (l2 : List File)
    (hrun : fixJarFile fuel l = some out)
    (hclass : ∀ p, dirRecord p ∈ out → hasSuffix p classSuffix = false)
    (hslash : ∀ f ∈ l, isDirectoryEntry f = false → hasSuffix (canonicalName f) slash = false)
    (hsize : ∀ f ∈ l, isDirectoryEntry f = false →
      f.content.length = f.header.UncompressedSize64)
    (hread : List.Forall₂ ReadBack out l2) :
    ∃ out2, fixJarFile fuel l2 = some out2 ∧ dirEntries out2 = dirEntries out ∧
      (fileEntries out2).map Entry.key = (fileEntries out).map Entry.key := by
  have hre := rereadable_of_run fuel l out hrun hclass hslash hsize
  obtain ⟨st2, h1, h2, h3⟩ := reread_sim fuel out l2 [] { seenDirs := [], written := [] }
    hre hread (by simp)
  refine ⟨st2.written, by simp [fixJarFile, h1], ?_, ?_⟩
  · simpa [dirEntries] using h2
  · simpa [fileEntries] using h3

theorem idempotence_witness :
    fixJarFileRun 2 [libDir, abcFile, modeDirData] =
        some (Outcome.done
          { seenDirs := ["a".toList, "a/b".toList, "lib".toList],
            written := [dirRecord "lib".toList, dirRecord "a".toList,
              dirRecord "a/b".toList, fileRecord abcFile, fileRecord modeDirData] }) ∧
      fixJarFile 2 [libDir, abcFile, modeDirData] =
        some [dirRecord "lib".toList, dirRecord "a".toList, dirRecord "a/b".toList,
          fileRecord abcFile, fileRecord modeDirData] ∧
      (∀ p, dirRecord p ∈ [dirRecord "lib".toList, dirRecord "a".toList,
          dirRecord "a/b".toList, fileRecord abcFile, fileRecord modeDirData] →
        hasSuffix p classSuffix = false) ∧
      (∀ f ∈ [libDir, abcFile, modeDirData], isDirectoryEntry f = false →
        hasSuffix (canonicalName f) slash = false) ∧
      (∀ f ∈ [libDir, abcFile, modeDirData], isDirectoryEntry f = false →
        f.content.length = f.header.UncompressedSize64) ∧
      List.Forall₂ ReadBack
        [dirRecord "lib".toList, dirRecord "a".toList, dirRecord "a/b".toList,
          fileRecord abcFile, fileRecord modeDirData]
        ([dirRecord "lib".toList, dirRecord "a".toList, dirRecord "a/b".toList,
          fileRecord abcFile, fileRecord modeDirData].map reread) ∧
      ∃ out2, fixJarFile 2 ([dirRecord "lib".toList, dirRecord "a".toList,
          dirRecord "a/b".toList, fileRecord abcFile,
          fileRecord modeDirData].map reread) = some out2 ∧
        dirEntries out2 = dirEntries [dirRecord "lib".toList, dirRecord "a".toList,
          dirRecord "a/b".toList, fileRecord abcFile, fileRecord modeDirData] ∧
        (fileEntries out2).map Entry.key =
          (fileEntries [dirRecord "lib".toList, dirRecord "a".toList, dirRecord "a/b".toList,
            fileRecord abcFile, fileRecord modeDirData]).map Entry.key :=
  have hclass : ∀ p, dirRecord p ∈ [dirRecord "lib".toList, dirRecord "a".toList,
      dirRecord "a/b".toList, fileRecord abcFile, fileRecord modeDirData] →
      hasSuffix p classSuffix = false := by
    intro p hp
    simp only [List.mem_cons, List.mem_singleton, List.not_mem_nil, or_false] at hp
    rcases hp with h | h | h | h | h
    · rw [dirRecord_injective h]; decide
    · rw [dirRecord_injective h]; decide
    · rw [dirRecord_injective h]; decide
    · exact absurd h.symm (dirRecord_ne_fileRecord p _)
    · exact absurd h.symm (dirRecord_ne_fileRecord p _)
  have hread : List.Forall₂ ReadBack
      [dirRecord "lib".toList, dirRecord "a".toList, dirRecord "a/b".toList,
        fileRecord abcFile, fileRecord modeDirData]
      ([dirRecord "lib".toList, dirRecord "a".toList, dirRecord "a/b".toList,
        fileRecord abcFile, fileRecord modeDirData].map reread) := by
    simp only [List.map_cons, List.map_nil, List.forall₂_cons, List.Forall₂.nil, and_true]
    exact ⟨readBack_reread _, readBack_reread _, readBack_reread _, readBack_reread _,
      readBack_reread _⟩
  ⟨by decide, by decide, hclass, by decide, by decide, hread,
    idempotence 2 [libDir, abcFile, modeDirData] _ _ (by decide) hclass (by decide)
      (by decide) hread⟩

/-- C10, as stated, fails: on `Foo.class` (directory-flagged, size zero)
followed by `com/Bar.class`, the output begins with the file `Foo.class`; it is
not `com/`, `com/Bar.class`, `Foo.class`. -/
theorem scenario_counterexample :
    modeIsDir fooClassDir.header = true ∧ fooClassDir.header.UncompressedSize64 = 0 ∧
      fixJarFile 1 [fooClassDir, barClass] =
        some [fileRecord fooClassDir, dirRecord "com".toList, fileRecord barClass] ∧
      ([fileRecord fooClassDir, dirRecord "com".toList, fileRecord barClass] ==
        [dirRecord "com".toList, fileRecord barClass, fileRecord fooClassDir]) = false := by
  decide

/-- C10, amended. On the entry `Foo.class` (however flagged, whatever its
size) followed by the entry `com/Bar.class`, the output is exactly three
records in source order: `Foo.class` (file, deflate), `com/` (synthesized
directory), `com/Bar.class` (file, deflate). -/
theorem scenario_output (fuel : Nat) (foo bar : File)
    (hfoo : canonicalName foo = "Foo.class".toList)
    (hbar : canonicalName bar = "com/Bar.class".toList) :
    fixJarFile (fuel + 1) [foo, bar] =
        some [Entry.file (fileHeader foo) foo.content, Entry.dir (dirHeader "com".toList),
          Entry.file (fileHeader bar) bar.content] ∧
      (fileHeader foo).Name = "Foo.class".toList ∧ (fileHeader foo).Method = Deflate ∧
      (dirHeader "com".toList).Name = "com/".toList ∧
      (fileHeader bar).Name = "com/Bar.class".toList ∧ (fileHeader bar).Method = Deflate := by
  have hdfoo : isDirectoryEntry foo = false := by
    cases h : isDirectoryEntry foo with
    | false => rfl
    | true =>
      have := ((isDirectoryEntry_iff foo).1 h).2.2
      rw [hfoo] at this
      exact absurd this (by decide)
  have hdbar : isDirectoryEntry bar = false := by
    cases h : isDirectoryEntry bar with
    | false => rfl
    | true =>
      have := ((isDirectoryEntry_iff bar).1 h).2.2
      rw [hbar] at this
      exact absurd this (by decide)
  have h1 : dir (canonicalName foo) = dot ∨ dir (canonicalName foo) = [] := by
    rw [hfoo]; decide
  have h2 : ¬ (dir (canonicalName bar) = dot ∨ dir (canonicalName bar) = []) := by
    rw [hbar]; decide
  have h3 : dir (canonicalName bar) = "com".toList := by rw [hbar]; decide
  have h4 : walk (fuel + 1) [] "com".toList [] = some (["com".toList], ["com".toList]) := by
    rw [walk_succ (by decide)]
    simp only [List.not_mem_nil, if_false]
    exact walk_stop (by decide)
  refine ⟨?_, hfoo, rfl, by decide, hbar, rfl⟩
  simp only [fixJarFile, fixJarLoop_cons, fixJarLoop_nil, processEntry_file_stop _ _ _ hdfoo h1,
    processEntry_file_walk _ _ _ hdbar h2, h3, h4, Option.some_bind, Option.map_some']
  rfl

theorem scenario_output_witness :
    canonicalName fooClassDir = "Foo.class".toList ∧
      canonicalName barClass = "com/Bar.class".toList ∧
      fixJarFile (0 + 1) [fooClassDir, barClass] =
        some [Entry.file (fileHeader fooClassDir) fooClassDir.content,
          Entry.dir (dirHeader "com".toList),
          Entry.file (fileHeader barClass) barClass.content] ∧
      (fileHeader fooClassDir).Name = "Foo.class".toList ∧
      (fileHeader fooClassDir).Method = Deflate ∧
      (dirHeader "com".toList).Name = "com/".toList ∧
      (fileHeader barClass).Name = "com/Bar.class".toList ∧
      (fileHeader barClass).Method = Deflate :=
  ⟨by decide, by decide, scenario_output 0 fooClassDir barClass (by decide) (by decide)⟩

/-- C13, at the failing input: on the single file `/a.txt` the parent of "/" is
"/" again, the upward walk never reaches "." or "", and the run does not end,
whatever the fuel; the run ends exactly when no entry handled as a file has a
rooted canonical name. -/
theorem rooted_name_never_ends :
    isDirectoryEntry rootedFile = false ∧ dir (canonicalName rootedFile) = "/".toList ∧
      dir "/".toList = "/".toList ∧ (∀ fuel, fixJarFile fuel [rootedFile] = none) ∧
      ∀ l, (∃ fuel out, fixJarFile fuel l = some out) ↔ Unrooted l := by
  refine ⟨by decide, by decide, by decide, ?_, fixJarFile_ends_iff⟩
  intro fuel
  simp [fixJarFile, fixJarLoop_rooted fuel [rootedFile] _ rootedFile (by simp) (by decide)
    (by decide)]

/-- C11, at the failing input: the entry `Foo.class` of size zero, flagged as a
directory by its Unix mode bits, is handled as a file, and the header written
for it keeps the creator byte and the external attributes of the source, so it
is still a directory under `Mode().IsDir()`. In general the header written for
an entry whose stored name has no trailing '/' passes that test exactly when
the source header does. -/
theorem file_record_still_directory :
    modeIsDir fooClassMode.header = true ∧ isDirectoryEntry fooClassMode = false ∧
      fixJarFile 0 [fooClassMode] = some [Entry.file (fileHeader fooClassMode) []] ∧
      (fileHeader fooClassMode).Name = "Foo.class".toList ∧
      (fileHeader fooClassMode).ExternalAttrs = fooClassMode.header.ExternalAttrs ∧
      (fileHeader fooClassMode).CreatorVersion = fooClassMode.header.CreatorVersion ∧
      modeIsDir (fileHeader fooClassMode) = true ∧
      ∀ f : File, hasSuffix f.header.Name slash = false →
        modeIsDir (fileHeader f) = modeIsDir f.header := by
  refine ⟨by decide, by decide, by decide, by decide, rfl, rfl, by decide, ?_⟩
  intro f hf
  have hname : (fileHeader f).Name = f.header.Name := trimSuffix_of_not _ _ hf
  exact modeIsDir_congr (fileHeader f) f.header hname rfl rfl

/-- C12, as stated, fails: for the file `x/y.txt` (flags `0x080A`, creator
`0x030A`, reader version 10, no extra field) the header built at lines 94-97
has flags `0x0802`, but `CreateHeader` at line 99 writes through the pointer:
the header it stores has flags `0x080A` (bit 3 set again), creator version
`0x0314`, reader version 20, and an extra field of its own making. -/
theorem file_header_frame_counterexample :
    isDirectoryEntry oldVersionFile = false ∧
      fixJarFileRun 1 [oldVersionFile] =
        some (Outcome.done
          { seenDirs := ["x".toList],
            written := [dirRecord "x".toList,
              Entry.file (fileHeader oldVersionFile) [7, 9]] }) ∧
      oldVersionFile.header.Flags = 0x080A ∧
      oldVersionFile.header.CreatorVersion = 0x030A ∧
      oldVersionFile.header.ReaderVersion = 10 ∧
      oldVersionFile.header.Extra = [] ∧
      (fileHeader oldVersionFile).Flags = 0x0802 ∧
      ∀ stamp,
        (createHeader stamp (fileHeader oldVersionFile)).Flags = 0x080A ∧
        (createHeader stamp (fileHeader oldVersionFile)).CreatorVersion = 0x0314 ∧
        (createHeader stamp (fileHeader oldVersionFile)).ReaderVersion = 20 ∧
        (createHeader stamp (fileHeader oldVersionFile)).Extra = (stamp 1701345600).2.2 := by
  refine ⟨by decide, by decide, rfl, rfl, rfl, rfl, by decide, ?_⟩
  intro stamp
  refine ⟨?_, ?_, (createHeader_kept stamp _).2.2.2.2.1, ?_⟩
  · rw [(createHeader_file stamp (fileHeader oldVersionFile) (by decide)).1]
    decide
  · rw [(createHeader_kept stamp _).2.2.2.1]
    decide
  · rw [((createHeader_stamp stamp (fileHeader oldVersionFile)).2 (by decide)).2.2]
    rfl

/-- C12, amended. The header built at lines 94-97 for a source entry handled
as a file, and handed to `CreateHeader`, is the source header except in three
fields: Name is the canonical path, Flags is the source's 16-bit flag word with
bit 3 (0x0008) cleared and every other bit unchanged, Method is Deflate (8).
The header the writer stores for it, for a canonical path without a trailing
separator (as on every run that goes through), keeps the name, the method, the
comment, `NonUTF8`, `Modified`, the external attributes and the creator byte,
and so remains what it was under `Mode().IsDir()`; it differs from the source
in more than the three fields: flag bit 3 is set, flag bit 11 follows the UTF-8
rule of the writer, every other flag bit is the source's, the low byte of the
creator version and the reader version are 20, and when `Modified` is not the
zero time the MS-DOS date and time are computed again and a time-stamp field
is appended to `Extra`. The CRC and the sizes are settled when the entry is
closed and are left open here. -/
theorem file_header_frame (f : File) (hflags : f.header.Flags < 2 ^ 16)
    (hcv : f.header.CreatorVersion < 2 ^ 16) :
    (isDirectoryEntry f = false → ∀ fuel st st', processEntry fuel st f = some st' →
      ∃ ds : List Str, st'.written =
        st.written ++ ds.map dirRecord ++ [Entry.file (fileHeader f) f.content]) ∧
    (fileHeader f).Name = canonicalName f ∧
    (∀ i, (fileHeader f).Flags.testBit i = (f.header.Flags.testBit i && decide (i ≠ 3))) ∧
    (fileHeader f).Method = 8 ∧
    (fileHeader f).Comment = f.header.Comment ∧
    (fileHeader f).NonUTF8 = f.header.NonUTF8 ∧
    (fileHeader f).CreatorVersion = f.header.CreatorVersion ∧
    (fileHeader f).ReaderVersion = f.header.ReaderVersion ∧
    (fileHeader f).Modified = f.header.Modified ∧
    (fileHeader f).ModifiedTime = f.header.ModifiedTime ∧
    (fileHeader f).ModifiedDate = f.header.ModifiedDate ∧
    (fileHeader f).CRC32 = f.header.CRC32 ∧
    (fileHeader f).CompressedSize = f.header.CompressedSize ∧
    (fileHeader f).UncompressedSize = f.header.UncompressedSize ∧
    (fileHeader f).CompressedSize64 = f.header.CompressedSize64 ∧
    (fileHeader f).UncompressedSize64 = f.header.UncompressedSize64 ∧
    (fileHeader f).Extra = f.header.Extra ∧
    (fileHeader f).ExternalAttrs = f.header.ExternalAttrs ∧
    (isDirectoryEntry f = false → (copied f).isSome = true →
      hasSuffix (canonicalName f) slash = false) ∧
    (hasSuffix (canonicalName f) slash = false → ∀ stamp,
      (createHeader stamp (fileHeader f)).Name = canonicalName f ∧
      (createHeader stamp (fileHeader f)).Method = 8 ∧
      (createHeader stamp (fileHeader f)).Flags.testBit 3 = true ∧
      (createHeader stamp (fileHeader f)).Flags.testBit 11 =
        (!f.header.NonUTF8 &&
          (requiresUTF8 (canonicalName f) || requiresUTF8 f.header.Comment ||
            f.header.Flags.testBit 11)) ∧
      (∀ i, i ≠ 3 → i ≠ 11 →
        (createHeader stamp (fileHeader f)).Flags.testBit i = f.header.Flags.testBit i) ∧
      (createHeader stamp (fileHeader f)).CreatorVersion =
        (f.header.CreatorVersion &&& 0xff00) ||| 20 ∧
      (createHeader stamp (fileHeader f)).CreatorVersion >>> 8 =
        f.header.CreatorVersion >>> 8 ∧
      (createHeader stamp (fileHeader f)).ReaderVersion = 20 ∧
      (createHeader stamp (fileHeader f)).Comment = f.header.Comment ∧
      (createHeader stamp (fileHeader f)).NonUTF8 = f.header.NonUTF8 ∧
      (createHeader stamp (fileHeader f)).Modified = f.header.Modified ∧
      (createHeader stamp (fileHeader f)).ExternalAttrs = f.header.ExternalAttrs ∧
      (f.header.Modified = 0 →
        (createHeader stamp (fileHeader f)).ModifiedDate = f.header.ModifiedDate ∧
        (createHeader stamp (fileHeader f)).ModifiedTime = f.header.ModifiedTime ∧
        (createHeader stamp (fileHeader f)).Extra = f.header.Extra) ∧
      (f.header.Modified ≠ 0 →
        (createHeader stamp (fileHeader f)).ModifiedDate = (stamp f.header.Modified).1 ∧
        (createHeader stamp (fileHeader f)).ModifiedTime = (stamp f.header.Modified).2.1 ∧
        (createHeader stamp (fileHeader f)).Extra =
          f.header.Extra ++ (stamp f.header.Modified).2.2) ∧
      modeIsDir (createHeader stamp (fileHeader f)) = modeIsDir (fileHeader f)) := by
  refine ⟨?_, rfl, fileHeader_flags f hflags, rfl, rfl, rfl, rfl, rfl, rfl, rfl, rfl, rfl, rfl,
    rfl, rfl, rfl, rfl, rfl, canonicalName_readable f, ?_⟩
  · intro hd fuel st st' h
    obtain ⟨new, -, h2, -⟩ := processEntry_spec fuel st st' f h
    exact ⟨new, by rw [h2]; simp [hd, fileRecord]⟩
  · intro hs stamp
    obtain ⟨k1, k2, k3, k4, k5, k6, -, k8⟩ := createHeader_kept stamp (fileHeader f)
    obtain ⟨-, m2, -⟩ := createHeader_file stamp (fileHeader f) hs
    obtain ⟨s1, s2⟩ := createHeader_stamp stamp (fileHeader f)
    have hbits := stored_flags stamp f hflags hs
    refine ⟨k1, m2, ?_, ?_, ?_, k4, ?_, k5, k2, k3, k6, k8, s1, s2,
      modeIsDir_createHeader stamp (fileHeader f) hcv⟩
    · rw [hbits 3]; rfl
    · rw [hbits 11]; rfl
    · intro i h3 h11
      rw [hbits i, if_neg h3, if_neg h11]
    · rw [k4]
      exact creator_byte_kept _ hcv

theorem file_header_frame_witness :
    oldVersionFile.header.Flags < 2 ^ 16 ∧ oldVersionFile.header.CreatorVersion < 2 ^ 16 ∧
    processEntry 1 { seenDirs := [], written := [] } oldVersionFile =
      some { seenDirs := ["x".toList],
             written := [dirRecord "x".toList,
               Entry.file (fileHeader oldVersionFile) oldVersionFile.content] } ∧
    (fileHeader oldVersionFile).Flags = 0x0802 ∧
    ((isDirectoryEntry oldVersionFile = false → ∀ fuel st st',
        processEntry fuel st oldVersionFile = some st' →
      ∃ ds : List Str, st'.written =
        st.written ++ ds.map dirRecord ++
          [Entry.file (fileHeader oldVersionFile) oldVersionFile.content]) ∧
    (fileHeader oldVersionFile).Name = canonicalName oldVersionFile ∧
    (∀ i, (fileHeader oldVersionFile).Flags.testBit i =
      (oldVersionFile.header.Flags.testBit i && decide (i ≠ 3))) ∧
    (fileHeader oldVersionFile).Method = 8 ∧
    (fileHeader oldVersionFile).Comment = oldVersionFile.header.Comment ∧
    (fileHeader oldVersionFile).NonUTF8 = oldVersionFile.header.NonUTF8 ∧
    (fileHeader oldVersionFile).CreatorVersion = oldVersionFile.header.CreatorVersion ∧
    (fileHeader oldVersionFile).ReaderVersion = oldVersionFile.header.ReaderVersion ∧
    (fileHeader oldVersionFile).Modified = oldVersionFile.header.Modified ∧
    (fileHeader oldVersionFile).ModifiedTime = oldVersionFile.header.ModifiedTime ∧
    (fileHeader oldVersionFile).ModifiedDate = oldVersionFile.header.ModifiedDate ∧
    (fileHeader oldVersionFile).CRC32 = oldVersionFile.header.CRC32 ∧
    (fileHeader oldVersionFile).CompressedSize = oldVersionFile.header.CompressedSize ∧
    (fileHeader oldVersionFile).UncompressedSize = oldVersionFile.header.UncompressedSize ∧
    (fileHeader oldVersionFile).CompressedSize64 = oldVersionFile.header.CompressedSize64 ∧
    (fileHeader oldVersionFile).UncompressedSize64 =
      oldVersionFile.header.UncompressedSize64 ∧
    (fileHeader oldVersionFile).Extra = oldVersionFile.header.Extra ∧
    (fileHeader oldVersionFile).ExternalAttrs = oldVersionFile.header.ExternalAttrs ∧
    (isDirectoryEntry oldVersionFile = false → (copied oldVersionFile).isSome = true →
      hasSuffix (canonicalName oldVersionFile) slash = false) ∧
    (hasSuffix (canonicalName oldVersionFile) slash = false → ∀ stamp,
      (createHeader stamp (fileHeader oldVersionFile)).Name = canonicalName oldVersionFile ∧
      (createHeader stamp (fileHeader oldVersionFile)).Method = 8 ∧
      (createHeader stamp (fileHeader oldVersionFile)).Flags.testBit 3 = true ∧
      (createHeader stamp (fileHeader oldVersionFile)).Flags.testBit 11 =
        (!oldVersionFile.header.NonUTF8 &&
          (requiresUTF8 (canonicalName oldVersionFile) ||
            requiresUTF8 oldVersionFile.header.Comment ||
            oldVersionFile.header.Flags.testBit 11)) ∧
      (∀ i, i ≠ 3 → i ≠ 11 →
        (createHeader stamp (fileHeader oldVersionFile)).Flags.testBit i =
          oldVersionFile.header.Flags.testBit i) ∧
      (createHeader stamp (fileHeader oldVersionFile)).CreatorVersion =
        (oldVersionFile.header.CreatorVersion &&& 0xff00) ||| 20 ∧
      (createHeader stamp (fileHeader oldVersionFile)).CreatorVersion >>> 8 =
        oldVersionFile.header.CreatorVersion >>> 8 ∧
      (createHeader stamp (fileHeader oldVersionFile)).ReaderVersion = 20 ∧
      (createHeader stamp (fileHeader oldVersionFile)).Comment =
        oldVersionFile.header.Comment ∧
      (createHeader stamp (fileHeader oldVersionFile)).NonUTF8 =
        oldVersionFile.header.NonUTF8 ∧
      (createHeader stamp (fileHeader oldVersionFile)).Modified =
        oldVersionFile.header.Modified ∧
      (createHeader stamp (fileHeader oldVersionFile)).ExternalAttrs =
        oldVersionFile.header.ExternalAttrs ∧
      (oldVersionFile.header.Modified = 0 →
        (createHeader stamp (fileHeader oldVersionFile)).ModifiedDate =
          oldVersionFile.header.ModifiedDate ∧
        (createHeader stamp (fileHeader oldVersionFile)).ModifiedTime =
          oldVersionFile.header.ModifiedTime ∧
        (createHeader stamp (fileHeader oldVersionFile)).Extra =
          oldVersionFile.header.Extra) ∧
      (oldVersionFile.header.Modified ≠ 0 →
        (createHeader stamp (fileHeader oldVersionFile)).ModifiedDate =
          (stamp oldVersionFile.header.Modified).1 ∧
        (createHeader stamp (fileHeader oldVersionFile)).ModifiedTime =
          (stamp oldVersionFile.header.Modified).2.1 ∧
        (createHeader stamp (fileHeader oldVersionFile)).Extra =
          oldVersionFile.header.Extra ++ (stamp oldVersionFile.header.Modified).2.2) ∧
      modeIsDir (createHeader stamp (fileHeader oldVersionFile)) =
        modeIsDir (fileHeader oldVersionFile))) :=
  ⟨by decide, by decide, by decide, by decide,
    file_header_frame oldVersionFile (by decide) (by decide)⟩

/-- C16, as stated, fails: the stored name `a//` has the canonical path `a/`,
which ends in '/'; it is the key put in `seenDirs`, and the directory record
written is named `a//`. -/
theorem canonical_path_counterexample :
    canonicalName doubleSlashDir = "a/".toList ∧
      hasSuffix (canonicalName doubleSlashDir) slash = true ∧
      processEntry 0 { seenDirs := [], written := [] } doubleSlashDir =
        some { seenDirs := ["a/".toList], written := [dirRecord "a/".toList] } ∧
      (dirRecord "a/".toList).header.Name = "a//".toList := by
  decide

/-- C16, amended. The canonical path is the stored name less one trailing '/':
for every stored name that does not end in two separators, the canonical path,
which is the name written for a file entry and the key put in `seenDirs` for a
directory entry, does not end in '/'. -/
theorem canonical_path_no_trailing_separator (f : File)
    (h : hasSuffix f.header.Name ['/', '/'] = false) :
    (f.header.Name = canonicalName f ++ slash ∨
      (hasSuffix f.header.Name slash = false ∧ canonicalName f = f.header.Name)) ∧
    hasSuffix (canonicalName f) slash = false ∧
    (fileHeader f).Name = canonicalName f ∧
    (isDirectoryEntry f = true → ∀ fuel st,
      processEntry fuel st f = some st ∧ canonicalName f ∈ st.seenDirs ∨
      processEntry fuel st f = some
        { seenDirs := canonicalName f :: st.seenDirs,
          written := st.written ++ [dirRecord (canonicalName f)] }) := by
  refine ⟨canonicalName_cases f, canonicalName_no_slash f h, rfl, ?_⟩
  intro hd fuel st
  rw [processEntry_dir _ _ _ hd]
  by_cases hs : canonicalName f ∈ st.seenDirs
  · left; rw [if_pos hs]; exact ⟨rfl, hs⟩
  · right; rw [if_neg hs]

theorem canonical_path_no_trailing_separator_witness :
    hasSuffix libDir.header.Name ['/', '/'] = false ∧
    canonicalName libDir = "lib".toList ∧
    ((libDir.header.Name = canonicalName libDir ++ slash ∨
      (hasSuffix libDir.header.Name slash = false ∧ canonicalName libDir = libDir.header.Name)) ∧
    hasSuffix (canonicalName libDir) slash = false ∧
    (fileHeader libDir).Name = canonicalName libDir ∧
    (isDirectoryEntry libDir = true → ∀ fuel st,
      processEntry fuel st libDir = some st ∧ canonicalName libDir ∈ st.seenDirs ∨
      processEntry fuel st libDir = some
        { seenDirs := canonicalName libDir :: st.seenDirs,
          written := st.written ++ [dirRecord (canonicalName libDir)] })) :=
  ⟨by decide, by decide, canonical_path_no_trailing_separator libDir (by decide)⟩

/-- C17. Directory header shape: every directory record written, for a source
directory entry (lines 51-55) or for an ancestor of a file (lines 80-84), is
the header built from the directory path alone: name = path + '/', creator
Unix with mode = directory bit and permissions 0755, method Deflate, every
other field zero; so the records for one path are identical. -/
theorem directory_header_shape :
    (∀ p, dirHeader p =
      { Name := p ++ ['/'], Comment := [], NonUTF8 := false, CreatorVersion := 0x0300,
        ReaderVersion := 0, Flags := 0, Method := 8, Modified := 0, ModifiedTime := 0,
        ModifiedDate := 0, CRC32 := 0, CompressedSize := 0, UncompressedSize := 0,
        CompressedSize64 := 0, UncompressedSize64 := 0, Extra := [],
        ExternalAttrs := 0x41ED0010 }) ∧
    (∀ p, modeIsDir (dirHeader p) = true ∧ (dirHeader p).CreatorVersion >>> 8 = 3 ∧
      ((dirHeader p).ExternalAttrs >>> 16) &&& 0o7777 = 0o755 ∧
      ((dirHeader p).ExternalAttrs >>> 16) &&& 0xf000 = 0x4000) ∧
    (∀ fuel st f st', processEntry fuel st f = some st' →
      ∃ new : List Str, st'.written =
          st.written ++ new.map (fun p => Entry.dir (dirHeader p)) ++
            (if isDirectoryEntry f then [] else [Entry.file (fileHeader f) f.content]) ∧
        (isDirectoryEntry f = true → ∀ d ∈ new, d = canonicalName f)) ∧
    (∀ fuel l out, fixJarFile fuel l = some out →
      (∀ e ∈ out, e.isDir = true → ∃ p, e = Entry.dir (dirHeader p)) ∧
      (∀ f ∈ l, isDirectoryEntry f = true → Entry.dir (dirHeader (canonicalName f)) ∈ out)) := by
  refine ⟨dirHeader_eq, dirHeader_mode, ?_, ?_⟩
  · intro fuel st f st' h
    obtain ⟨new, -, h2, -, -, h5, -⟩ := processEntry_spec fuel st st' f h
    exact ⟨new, h2, fun hd => (h5 hd).2⟩
  · intro fuel l out hrun
    obtain ⟨-, hform, -⟩ := fixJarFile_order fuel l out hrun
    obtain ⟨seen, -, hp, hmem⟩ := fixJarFile_seenInv fuel l out hrun
    refine ⟨hform, ?_⟩
    intro f hf hd
    have h1 : dirRecord (canonicalName f) ∈ seen.map dirRecord :=
      List.mem_map_of_mem _ (hmem f hf hd)
    have h2 := hp.mem_iff.2 h1
    exact (List.mem_filter.1 h2).1

/-- C14, as stated, fails: `a/../c.txt` is a relative path of non-empty
segments separated by single '/', with the proper ancestors `a` and `a/..`;
with nothing seen, no directory is written before the file and the seen set
stays empty: `filepath.Dir` gives "." for it. -/
theorem ancestor_walk_counterexample :
    isDirectoryEntry dotDotFile = false ∧
      canonicalName dotDotFile = joinSlash ["a".toList, "..".toList, "c.txt".toList] ∧
      (∀ s ∈ ["a".toList, "..".toList, "c.txt".toList], s ≠ [] ∧ '/' ∉ s) ∧
      ancestorPaths ["a".toList, "..".toList] = ["a".toList, "a/..".toList] ∧
      dir (canonicalName dotDotFile) = ".".toList ∧
      processEntry 2 { seenDirs := [], written := [] } dotDotFile =
        some { seenDirs := [], written := [fileRecord dotDotFile] } := by
  decide

/-- C14, amended. Ancestor walk for one file: for every seen set `S` and every
file entry `d1/.../dk/x` whose segments `d1, ..., dk` are non-empty, hold no
'/', and are neither "." nor "..", the records written by the iteration are the
directory records of the ancestors `d1`, `d1/d2`, ..., `d1/.../dk` that are not
in `S`, each once, outermost first, followed by the file record; afterwards the
seen set is `S` plus exactly those ancestors; and for a file at the archive
root (k = 0) no directory is written and `S` is unchanged. -/
theorem ancestor_walk (fuel : Nat) (st : State) (f : File) (ds : List Str) (x : Str)
    (hd : isDirectoryEntry f = false) (hname : canonicalName f = joinSlash (ds ++ [x]))
    (hds : ∀ s ∈ ds, NiceSeg s) (hx : '/' ∉ x) (hfuel : ds.length ≤ fuel) :
    processEntry fuel st f = some
      { seenDirs := (ancestorPaths ds).filter (fun p => decide (p ∉ st.seenDirs)) ++ st.seenDirs,
        written := st.written ++
          ((ancestorPaths ds).filter (fun p => decide (p ∉ st.seenDirs))).map dirRecord ++
          [fileRecord f] } ∧
    ((ancestorPaths ds).filter (fun p => decide (p ∉ st.seenDirs))).Nodup ∧
    (ds = [] → processEntry fuel st f =
      some { seenDirs := st.seenDirs, written := st.written ++ [fileRecord f] }) := by
  have h := processEntry_nice fuel st f ds x hd hname hds hx hfuel
  refine ⟨h, (ancestorPaths_nodup ds).filter _, ?_⟩
  intro hnil
  subst hnil
  rw [h]
  simp [unseenAncestors, ancestorPaths_nil]

theorem ancestor_walk_witness :
    isDirectoryEntry abcFile = false ∧
    canonicalName abcFile = joinSlash (["a".toList, "b".toList] ++ ["c.txt".toList]) ∧
    (∀ s ∈ ["a".toList, "b".toList], NiceSeg s) ∧ '/' ∉ "c.txt".toList ∧
    ["a".toList, "b".toList].length ≤ 2 ∧
    (ancestorPaths ["a".toList, "b".toList]).filter
      (fun p => decide (p ∉ ["a".toList])) = ["a/b".toList] ∧
    (processEntry 2 { seenDirs := ["a".toList], written := [dirRecord "a".toList] } abcFile =
      some
        { seenDirs := (ancestorPaths ["a".toList, "b".toList]).filter
            (fun p => decide (p ∉ ["a".toList])) ++ ["a".toList],
          written := [dirRecord "a".toList] ++
            ((ancestorPaths ["a".toList, "b".toList]).filter
              (fun p => decide (p ∉ ["a".toList]))).map dirRecord ++ [fileRecord abcFile] } ∧
    ((ancestorPaths ["a".toList, "b".toList]).filter
      (fun p => decide (p ∉ ["a".toList]))).Nodup ∧
    (["a".toList, "b".toList] = [] →
      processEntry 2 { seenDirs := ["a".toList], written := [dirRecord "a".toList] } abcFile =
        some { seenDirs := ["a".toList],
               written := [dirRecord "a".toList] ++ [fileRecord abcFile] })) :=
  ⟨by decide, by decide, by simp [NiceSeg, dot, dotdot], by decide, by decide, by decide,
    ancestor_walk 2 { seenDirs := ["a".toList], written := [dirRecord "a".toList] } abcFile
      ["a".toList, "b".toList] "c.txt".toList (by decide) (by decide)
      (by simp [NiceSeg, dot, dotdot]) (by decide) (by decide)⟩

/-- C15, as stated, fails: the directory entry `a/b/` is nested under `a`, and
its iteration writes the record `a/b/` alone; no record `a/` is synthesized
before it. -/
theorem directory_ancestors_counterexample :
    isDirectoryEntry abDir = true ∧ canonicalName abDir = "a/b".toList ∧
      dir "a/b".toList = "a".toList ∧
      fixJarFile 0 [abDir] = some [dirRecord "a/b".toList] ∧
      [dirRecord "a/b".toList].filter
        (fun e => e.isDir && e.header.Name == "a/".toList) = [] := by
  decide

/-- C15, amended. For a source entry classified Directory no ancestor is
synthesized: its iteration writes its own directory record, or nothing when
its canonical path is already seen; ancestors are synthesized before file
entries only. Every directory record of the output has the records of all its
ancestors before it when the input carries no directory entries of its own. -/
theorem directory_entries_no_ancestors (f : File) (hd : isDirectoryEntry f = true) :
    (∀ fuel st, processEntry fuel st f =
      if canonicalName f ∈ st.seenDirs then some st
      else some { seenDirs := canonicalName f :: st.seenDirs,
                  written := st.written ++ [dirRecord (canonicalName f)] }) ∧
    (∀ fuel l out, fixJarFile fuel l = some out → (∀ g ∈ l, isDirectoryEntry g = false) →
      ∀ a p b, out = a ++ dirRecord p :: b →
        ∃ c, walkPath fuel (dir p) = some c ∧ ∀ q ∈ c, dirRecord q ∈ a ∧ dirRecord q ∉ b) := by
  refine ⟨fun fuel st => processEntry_dir fuel st f hd, ?_⟩
  intro fuel l out hrun hfiles
  exact (ancestors_before_of_run fuel l out hrun).2 hfiles

theorem directory_entries_no_ancestors_witness :
    isDirectoryEntry abDir = true ∧
    processEntry 0 { seenDirs := [], written := [] } abDir =
      some { seenDirs := ["a/b".toList], written := [dirRecord "a/b".toList] } ∧
    ((∀ fuel st, processEntry fuel st abDir =
      if canonicalName abDir ∈ st.seenDirs then some st
      else some { seenDirs := canonicalName abDir :: st.seenDirs,
                  written := st.written ++ [dirRecord (canonicalName abDir)] }) ∧
    (∀ fuel l out, fixJarFile fuel l = some out → (∀ g ∈ l, isDirectoryEntry g = false) →
      ∀ a p b, out = a ++ dirRecord p :: b →
        ∃ c, walkPath fuel (dir p) = some c ∧
          ∀ q ∈ c, dirRecord q ∈ a ∧ dirRecord q ∉ b)) :=
  ⟨by decide, by decide, directory_entries_no_ancestors abDir (by decide)⟩

/-- C18. Seen-set invariant: in the state reached after any prefix of the
source entries, a path `p` is in `seenDirs` if and only if exactly one
directory record named `p + '/'` has been written; the set only grows, over one
iteration and over any further entries; no iteration writes a directory record
for a path already in the set; and a directory entry whose path is already in
the set writes nothing. -/
theorem seen_set_invariant (fuel : Nat) (l1 : List File) (st : State)
    (h : fixJarLoop fuel l1 { seenDirs := [], written := [] } = some st) :
    (∀ p, p ∈ st.seenDirs ↔
      (st.written.filter (fun e => e.isDir && e.header.Name == p ++ slash)).length = 1) ∧
    st.seenDirs.Nodup ∧
    (∀ f st', processEntry fuel st f = some st' →
      (∀ p ∈ st.seenDirs, p ∈ st'.seenDirs) ∧
      ∃ delta, st'.written = st.written ++ delta ∧
        ∀ p ∈ st.seenDirs,
          delta.filter (fun e => e.isDir && e.header.Name == p ++ slash) = []) ∧
    (∀ f, isDirectoryEntry f = true → canonicalName f ∈ st.seenDirs →
      processEntry fuel st f = some st) ∧
    (∀ l2 st', fixJarLoop fuel l2 st = some st' →
      (∀ p ∈ st.seenDirs, p ∈ st'.seenDirs) ∧
      ∀ p, p ∈ st'.seenDirs ↔
        (st'.written.filter (fun e => e.isDir && e.header.Name == p ++ slash)).length = 1) := by
  have hs := fixJarLoop_seenInv fuel l1 _ st h seenInv_init
  refine ⟨mem_seen_iff_once st hs, hs.1, fun f st' hp => processEntry_no_seen_dir fuel st st' f hp,
    ?_, ?_⟩
  · intro f hd hmem
    rw [processEntry_dir _ _ _ hd, if_pos hmem]
  · intro l2 st' h2
    obtain ⟨_, new, -, g2, -⟩ := fixJarLoop_written fuel l2 st st' h2
    refine ⟨fun p hp => by rw [g2]; exact List.mem_append_right _ hp, ?_⟩
    exact mem_seen_iff_once st' (fixJarLoop_seenInv fuel l2 st st' h2 hs)

theorem seen_set_invariant_witness :
    fixJarLoop 1 [libDir, barClass, libDir] { seenDirs := [], written := [] } =
      some { seenDirs := ["com".toList, "lib".toList],
             written := [dirRecord "lib".toList, dirRecord "com".toList,
               fileRecord barClass] } ∧
    ((∀ p, p ∈ ["com".toList, "lib".toList] ↔
      ([dirRecord "lib".toList, dirRecord "com".toList, fileRecord barClass].filter
        (fun e => e.isDir && e.header.Name == p ++ slash)).length = 1) ∧
    ["com".toList, "lib".toList].Nodup ∧
    (∀ f st', processEntry 1
        { seenDirs := ["com".toList, "lib".toList],
          written := [dirRecord "lib".toList, dirRecord "com".toList,
            fileRecord barClass] } f = some st' →
      (∀ p ∈ ["com".toList, "lib".toList], p ∈ st'.seenDirs) ∧
      ∃ delta, st'.written =
          [dirRecord "lib".toList, dirRecord "com".toList, fileRecord barClass] ++ delta ∧
        ∀ p ∈ ["com".toList, "lib".toList],
          delta.filter (fun e => e.isDir && e.header.Name == p ++ slash) = []) ∧
    (∀ f, isDirectoryEntry f = true → canonicalName f ∈ ["com".toList, "lib".toList] →
      processEntry 1
        { seenDirs := ["com".toList, "lib".toList],
          written := [dirRecord "lib".toList, dirRecord "com".toList,
            fileRecord barClass] } f =
        some { seenDirs := ["com".toList, "lib".toList],
               written := [dirRecord "lib".toList, dirRecord "com".toList,
                 fileRecord barClass] }) ∧
    (∀ l2 st', fixJarLoop 1 l2
        { seenDirs := ["com".toList, "lib".toList],
          written := [dirRecord "lib".toList, dirRecord "com".toList,
            fileRecord barClass] } = some st' →
      (∀ p ∈ ["com".toList, "lib".toList], p ∈ st'.seenDirs) ∧
      ∀ p, p ∈ st'.seenDirs ↔
        (st'.written.filter
          (fun e => e.isDir && e.header.Name == p ++ slash)).length = 1)) :=
  ⟨by decide, seen_set_invariant 1 [libDir, barClass, libDir]
    { seenDirs := ["com".toList, "lib".toList],
      written := [dirRecord "lib".toList, dirRecord "com".toList, fileRecord barClass] }
    (by decide)⟩

end ZipUtils

